import Mathlib

/-!
# Bitswap wantlist and want manager

A shallow embedding of `exchange/bitswap/wantlist/wantlist.go` and of the
sequential part of `exchange/bitswap/wantmanager.go` (the state owned by the
`Run` loop), followed by the properties established about them.

Modelling conventions.

* A Go `map[K]V` is an association list with pairwise distinct keys
  (`AList`).  Go leaves the iteration order of a map unspecified; the order of
  the association list stands for the order one particular `range` loop
  happens to visit the map in.  Every theorem below quantifies over all
  association lists, hence over all iteration orders.
* `map[key.Key]*Entry` stores pointers.  The wantlist mutates an entry only
  through the map slot that holds it (`e.RefCnt++`, `e.RefCnt--`), so a slot is
  modelled by the value of the entry it points to, and the mutation by storing
  the updated value under the same key.
* Go's `int` is modelled by `Int`.  The increment `e.RefCnt++` on an `Int`
  is the increment of the machine while the count is below `2^63 - 1`; the
  invariant of the reachable wantlists is therefore stated under a bound that
  keeps every count below that, and the counts of the want manager are bounded
  by the length of a Go slice.
* Go's `float64` is modelled by the non-negative IEEE 754 binary64 values,
  with conversion and division rounded to nearest, ties to even.
* A method with a pointer receiver that mutates its receiver returns the new
  receiver together with its Go result.
-/

set_option linter.dupNamespace false

namespace key

/-- Go: `type Key string` (package `go-key`). -/
abbrev Key := String

end key

namespace peer

/-- Go: `type ID string` (package `go-libp2p-peer`). -/
abbrev ID := String

end peer

namespace wantlist

/-- Go: `type Entry struct { Key key.Key; Priority int; RefCnt int }`. -/
structure Entry where
  Key : key.Key
  Priority : Int
  RefCnt : Int
deriving DecidableEq, Repr

/-- Go: `type Wantlist struct { set map[key.Key]*Entry }` (not thread safe). -/
structure Wantlist where
  set : AList (fun _ : key.Key => Entry)

/-- Go: `func New() *Wantlist`, a wantlist over an empty map. -/
def New : Wantlist := ⟨∅⟩

/-- Go: `func (w *Wantlist) Len() int`, that is `len(w.set)`. -/
def Wantlist.Len (w : Wantlist) : Nat := w.set.entries.length

/-- Go: `func (w *Wantlist) Add(k key.Key, priority int) bool`. -/
def Wantlist.Add (w : Wantlist) (k : key.Key) (priority : Int) : Wantlist × Bool :=
  match w.set.lookup k with
  | some e => (⟨w.set.insert k { e with RefCnt := e.RefCnt + 1 }⟩, false)
  | none => (⟨w.set.insert k { Key := k, Priority := priority, RefCnt := 1 }⟩, true)

/-- Go: `func (w *Wantlist) AddEntry(e *Entry) bool`. -/
def Wantlist.AddEntry (w : Wantlist) (e : Entry) : Wantlist × Bool :=
  match w.set.lookup e.Key with
  | some ex => (⟨w.set.insert e.Key { ex with RefCnt := ex.RefCnt + 1 }⟩, false)
  | none => (⟨w.set.insert e.Key e⟩, true)

/-- Go: `func (w *Wantlist) Remove(k key.Key) bool`. -/
def Wantlist.Remove (w : Wantlist) (k : key.Key) : Wantlist × Bool :=
  match w.set.lookup k with
  | none => (w, false)
  | some e =>
    if e.RefCnt - 1 ≤ 0 then (⟨w.set.erase k⟩, true)
    else (⟨w.set.insert k { e with RefCnt := e.RefCnt - 1 }⟩, false)

/-- Go: `func (w *Wantlist) Contains(k key.Key) (*Entry, bool)`; `none` is the
`ok == false` result. -/
def Wantlist.Contains (w : Wantlist) (k : key.Key) : Option Entry := w.set.lookup k

/-- Go: `func (w *Wantlist) Entries() []*Entry`, the values of the map in
iteration order. -/
def Wantlist.Entries (w : Wantlist) : List Entry := w.set.entries.map (fun x => x.2)

/-- Go: `func (es entrySlice) Less(i, j int) bool`, on the two elements
compared. -/
def entrySlice.Less (a b : Entry) : Bool := decide (a.Priority > b.Priority)

/-- Go: `sort.Sort(es)` of the standard library, for the `entrySlice`
interface: a comparison sort driven by `Less` (not guaranteed stable).  The
model is insertion sort, which places `a` before the first `b` with
`Less b a = false`. -/
def sort_Sort (es : List Entry) : List Entry :=
  List.insertionSort (fun a b => entrySlice.Less b a = false) es

/-- Go: `func (w *Wantlist) SortedEntries() []*Entry`. -/
def Wantlist.SortedEntries (w : Wantlist) : List Entry := sort_Sort w.Entries

end wantlist

namespace blocks

/-- Spec §3: a block is a pair `(K, bytes)`; only its shape is needed here. -/
structure Block where
  Key : key.Key
  Data : List (Fin 256)
deriving DecidableEq, Repr

end blocks

namespace bsmsg

/-- Go: `bsmsg.Entry`, as `wantmanager.go` builds and reads it: it embeds a
`*wantlist.Entry` (so `e.Key` and `e.Priority` are promoted fields) and adds
`Cancel bool`. -/
structure Entry where
  Entry : wantlist.Entry
  Cancel : Bool
deriving DecidableEq, Repr

/-- Promoted field `e.Key` of the embedded wantlist entry. -/
def Entry.Key (e : bsmsg.Entry) : key.Key := e.Entry.Key

/-- Promoted field `e.Priority` of the embedded wantlist entry. -/
def Entry.Priority (e : bsmsg.Entry) : Int := e.Entry.Priority

/-- Modelled from the spec: the package `exchange/bitswap/message`
(`BitSwapMessage` with `New`, `AddEntry`, `Cancel`, `Empty`) is not among the
sources.  Spec §3: `BitswapMessage { full: bool, wants: [MessageEntry],
blocks: [Block] }`; §4.4: an added entry overrides any prior entry for the same
key, so `wants` holds at most one entry per key. -/
structure BitSwapMessage where
  full : Bool
  wantlist : AList (fun _ : key.Key => Entry)
  blocks : List blocks.Block

/-- Modelled from the spec: `bsmsg.New(full)` is a message with the given
`full` flag and neither wants nor blocks. -/
def New (full : Bool) : BitSwapMessage := { full := full, wantlist := ∅, blocks := [] }

/-- Modelled from the spec: §4.4 "`pending.addEntry(k, priority)` which
overrides any prior entry for the same key"; the entry is a want
(`cancel = false`).  The reference count is not part of a message entry (§6:
key, priority, cancel) and is left at Go's zero value. -/
def BitSwapMessage.AddEntry (m : BitSwapMessage) (k : key.Key) (priority : Int) :
    BitSwapMessage :=
  { m with wantlist :=
      m.wantlist.insert k { Entry := { Key := k, Priority := priority, RefCnt := 0 },
                            Cancel := false } }

/-- Modelled from the spec: §4.4 "cancel entries call `pending.cancel(k)`"; §3
"`cancel=true` means remove this key from my wantlist".  The message then holds
a cancel entry for `k` in place of any prior entry for `k`. -/
def BitSwapMessage.Cancel (m : BitSwapMessage) (k : key.Key) : BitSwapMessage :=
  { m with wantlist :=
      m.wantlist.insert k { Entry := { Key := k, Priority := 0, RefCnt := 0 },
                            Cancel := true } }

/-- Modelled from the spec: §4.4 step 3, a message is empty when it carries
neither wants nor blocks. -/
def BitSwapMessage.Empty (m : BitSwapMessage) : Bool :=
  m.wantlist.entries.isEmpty && m.blocks.isEmpty

end bsmsg

namespace bitswap

/-- Go: `type msgQueue struct`.  `work` is a channel of capacity one (`true`:
a token is queued), `done` a channel that is only ever closed (`true`:
closed), `sender` the open message sender if any.  The lock `outlk` and the
network handle carry no state of their own. -/
structure msgQueue where
  p : peer.ID
  out : Option bsmsg.BitSwapMessage
  sender : Option Nat
  refcnt : Int
  work : Bool
  done : Bool

/-- Go: the part of `type WantManager struct` that is "synchronized by Run
loop": the peer queues and the wantlist.  `wl` is a `*wantlist.ThreadSafe`,
whose methods take the lock and call the `Wantlist` method of the same name. -/
structure WantManager where
  peers : AList (fun _ : peer.ID => msgQueue)
  wl : wantlist.Wantlist

/-- Go: the `for i, k := range ks` loop of `addEntries`, from index `i` on.
`kMaxPriority` is a constant of `bitswap.go`, which is not among the sources;
it is a parameter. -/
def addEntries.loop (kMaxPriority : Int) (cancel : Bool) : Nat → List key.Key → List bsmsg.Entry
  | _, [] => []
  | i, k :: ks =>
    { Entry := { Key := k, Priority := kMaxPriority - i, RefCnt := 1 }, Cancel := cancel }
      :: addEntries.loop kMaxPriority cancel (i + 1) ks

/-- Go: `func (pm *WantManager) addEntries(ctx, ks, cancel)`: the batch that is
sent on `pm.incoming` (when neither context is done first). -/
def addEntries (kMaxPriority : Int) (ks : List key.Key) (cancel : Bool) : List bsmsg.Entry :=
  addEntries.loop kMaxPriority cancel 0 ks

/-- Go: `func (pm *WantManager) WantBlocks(ctx, ks)`, the batch it enqueues. -/
def WantBlocks (kMaxPriority : Int) (ks : List key.Key) : List bsmsg.Entry :=
  addEntries kMaxPriority ks false

/-- Go: `func (pm *WantManager) CancelWants(ks)`, the batch it enqueues. -/
def CancelWants (kMaxPriority : Int) (ks : List key.Key) : List bsmsg.Entry :=
  addEntries kMaxPriority ks true

/-- Go: `func (wm *WantManager) newMsgQueue(p peer.ID) *msgQueue`. -/
def newMsgQueue (p : peer.ID) : msgQueue :=
  { p := p, out := none, sender := none, refcnt := 1, work := false, done := false }

/-- Go: `func (mq *msgQueue) addMessage(entries []*bsmsg.Entry)`.  The deferred
non-blocking send leaves a token in `work` whether or not one was there. -/
def msgQueue.addMessage (mq : msgQueue) (entries : List bsmsg.Entry) : msgQueue :=
  let out0 : bsmsg.BitSwapMessage :=
    match mq.out with
    | none => bsmsg.New false
    | some m => m
  let out1 := entries.foldl
    (fun m e => if e.Cancel then m.Cancel e.Key else m.AddEntry e.Key e.Priority) out0
  { mq with out := some out1, work := true }

/-- Go: the loop `for _, e := range entries` of the `incoming` branch of `Run`:
applies the remaining entries to the wantlist and appends to `filtered` those
whose application returned true. -/
def Run.applyEntries (wl : wantlist.Wantlist) (filtered : List bsmsg.Entry) :
    List bsmsg.Entry → wantlist.Wantlist × List bsmsg.Entry
  | [] => (wl, filtered)
  | e :: es =>
    if e.Cancel then
      let r := wl.Remove e.Key
      Run.applyEntries r.1 (if r.2 then filtered ++ [e] else filtered) es
    else
      let r := wl.AddEntry e.Entry
      Run.applyEntries r.1 (if r.2 then filtered ++ [e] else filtered) es

/-- Applies `f` to every queue of the peer map, for `for _, p := range
pm.peers { ... }` loops whose body updates the queue `p` points to. -/
def forEachPeer (f : msgQueue → msgQueue) (ps : AList (fun _ : peer.ID => msgQueue)) :
    AList (fun _ : peer.ID => msgQueue) :=
  ⟨ps.entries.map (fun x => ⟨x.1, f x.2⟩), by
    have h := ps.nodupKeys
    unfold List.NodupKeys List.keys at *
    rw [List.map_map]
    exact h⟩

/-- Go: the `case entries := <-pm.incoming` branch of `Run`. -/
def WantManager.Run_incoming (pm : WantManager) (entries : List bsmsg.Entry) : WantManager :=
  let r := Run.applyEntries pm.wl [] entries
  { peers := forEachPeer (fun q => q.addMessage r.2) pm.peers, wl := r.1 }

/-- Go: `func (pm *WantManager) startPeerHandler(p peer.ID) *msgQueue`, up to
and excluding the spawn of the queue's worker; `none` is the `nil` result. -/
def WantManager.startPeerHandler (pm : WantManager) (p : peer.ID) :
    WantManager × Option msgQueue :=
  match pm.peers.lookup p with
  | some mq => ({ pm with peers := pm.peers.insert p { mq with refcnt := mq.refcnt + 1 } }, none)
  | none =>
    let mq := newMsgQueue p
    let fullwantlist := pm.wl.Entries.foldl
      (fun m e => m.AddEntry e.Key e.Priority) (bsmsg.New true)
    let mq := { mq with out := some fullwantlist, work := true }
    ({ pm with peers := pm.peers.insert p mq }, some mq)

/-- Go: the body of that loop for one entry: `pm.wl.Remove(e.Key)` for a cancel
entry, `pm.wl.AddEntry(e.Entry)` for a want entry, with the boolean returned. -/
def Run.applyEntry (wl : wantlist.Wantlist) (e : bsmsg.Entry) : wantlist.Wantlist × Bool :=
  if e.Cancel then wl.Remove e.Key else wl.AddEntry e.Entry

/-- Spec §4.5, "true return": the booleans returned by applying the entries of
a batch to the wantlist from left to right, one per entry. -/
def Run.results (wl : wantlist.Wantlist) : List bsmsg.Entry → List Bool
  | [] => []
  | e :: es => (Run.applyEntry wl e).2 :: Run.results (Run.applyEntry wl e).1 es

/-- Spec §4.5, "only entries that cause a physical state change (true return)
are forwarded": the batch entries paired with a `true` result, in batch
order. -/
def Run.forwarded (wl : wantlist.Wantlist) (entries : List bsmsg.Entry) : List bsmsg.Entry :=
  ((entries.zip (Run.results wl entries)).filter (fun x => x.2)).map (fun x => x.1)

end bitswap

namespace wantlist

/-- Every entry is stored under its own key: `w.set[k].Key == k`. -/
def Wantlist.Keyed (w : Wantlist) : Prop := ∀ k e, w.Contains k = some e → e.Key = k

/-- Every entry that is present has `RefCnt ≥ 1`. -/
def Wantlist.Counted (w : Wantlist) : Prop := ∀ k e, w.Contains k = some e → 1 ≤ e.RefCnt

/-- The reference count held for `k`, 0 when `k` is absent. -/
def Wantlist.refCnt (w : Wantlist) (k : key.Key) : Int :=
  match w.Contains k with
  | some e => e.RefCnt
  | none => 0

/-- A call of one of the three mutating methods of `Wantlist`, with its
arguments. -/
inductive Call where
  | Add (k : key.Key) (priority : Int)
  | AddEntry (e : Entry)
  | Remove (k : key.Key)
deriving DecidableEq, Repr

/-- The wantlist after one call. -/
def Call.apply (w : Wantlist) : Call → Wantlist
  | Call.Add k priority => (w.Add k priority).1
  | Call.AddEntry e => (w.AddEntry e).1
  | Call.Remove k => (w.Remove k).1

/-- The wantlist reached from `New()` by a finite sequence of calls. -/
def reach (calls : List Call) : Wantlist := calls.foldl Call.apply New

end wantlist

namespace bsmsg

/-- Modelled from the spec: `msg.AddBlock(b)` of the absent message package;
spec §3 lists `blocks: [Block]`, and the block is added to that list. -/
def BitSwapMessage.AddBlock (m : BitSwapMessage) (b : blocks.Block) : BitSwapMessage :=
  { m with blocks := m.blocks ++ [b] }

end bsmsg

namespace bitswap

/-- Go: `func (pm *WantManager) stopPeerHandler(p peer.ID)`.  The second
component is the queue whose `done` channel was closed, as its worker sees it
after the queue has left the map; `none` when no channel was closed. -/
def WantManager.stopPeerHandler (pm : WantManager) (p : peer.ID) :
    WantManager × Option msgQueue :=
  match pm.peers.lookup p with
  | none => (pm, none)
  | some pq =>
    if 0 < pq.refcnt - 1 then
      ({ pm with peers := pm.peers.insert p { pq with refcnt := pq.refcnt - 1 } }, none)
    else
      ({ pm with peers := pm.peers.erase p },
       some { pq with refcnt := pq.refcnt - 1, done := true })

/-- Go: the `case <-tock.C` branch of `Run`: every queue gets a fresh
`bsmsg.New(true)` and then `addMessage` of one entry per wantlist entry
(`&bsmsg.Entry{Entry: e}`, so `Cancel` is false). -/
def WantManager.Run_tick (pm : WantManager) : WantManager :=
  let es := pm.wl.Entries.map (fun e => ({ Entry := e, Cancel := false } : bsmsg.Entry))
  { pm with peers :=
      forEachPeer (fun q => ({ q with out := some (bsmsg.New true) }).addMessage es) pm.peers }

/-- The queue that `startPeerHandler` builds for a peer without a queue: a
new queue holding the full wantlist, with a token in `work`. -/
def seedQueue (wl : wantlist.Wantlist) (p : peer.ID) : msgQueue :=
  { newMsgQueue p with
    out := some (wl.Entries.foldl (fun m e => m.AddEntry e.Key e.Priority) (bsmsg.New true)),
    work := true }

/-- Go: the `case p := <-pm.connect` branch of `Run`, taken `n` times for the
same peer. -/
def WantManager.connects (pm : WantManager) (p : peer.ID) : Nat → WantManager
  | 0 => pm
  | n + 1 => ((WantManager.connects pm p n).startPeerHandler p).1

/-- Go: the `case p := <-pm.disconnect` branch of `Run`, taken `m` times for
the same peer. -/
def WantManager.disconnects (pm : WantManager) (p : peer.ID) : Nat → WantManager
  | 0 => pm
  | m + 1 => ((WantManager.disconnects pm p m).stopPeerHandler p).1

/-- Every queue of the peer map has `refcnt ≥ 1`. -/
def WantManager.Connected (pm : WantManager) : Prop :=
  ∀ p q, pm.peers.lookup p = some q → 1 ≤ q.refcnt

/-- What the network answers during one call of `doWork`: whether `ConnectTo`
succeeds, the sender `NewMessageSender` returns (`none`: an error), whether
`SendMsg` succeeds.  An answer is used only if the call is made. -/
structure Outcome where
  ConnectTo : Bool
  NewMessageSender : Option Nat
  SendMsg : Bool
deriving DecidableEq, Repr

/-- The calls a queue makes on the network and on its sender. -/
inductive NetCall where
  | ConnectTo (p : peer.ID)
  | NewMessageSender (p : peer.ID) (sender : Option Nat)
  | SendMsg (sender : Nat) (msg : bsmsg.BitSwapMessage)
  | Close (sender : Nat)

/-- Go: `doWork` from "grab outgoing message" on, with `mq.sender` equal to
`s`. -/
def msgQueue.doWork.send (mq : msgQueue) (s : Nat) (net : Outcome) :
    msgQueue × List NetCall :=
  match mq.out with
  | none => (mq, [])
  | some wlm =>
    if wlm.Empty then (mq, [])
    else if net.SendMsg then ({ mq with out := none }, [NetCall.SendMsg s wlm])
    else ({ mq with out := none, sender := none }, [NetCall.SendMsg s wlm, NetCall.Close s])

/-- Go: `func (mq *msgQueue) doWork(ctx context.Context)`, with the calls it
makes in order. -/
def msgQueue.doWork (mq : msgQueue) (net : Outcome) : msgQueue × List NetCall :=
  match mq.sender with
  | some s => msgQueue.doWork.send mq s net
  | none =>
    if net.ConnectTo then
      match net.NewMessageSender with
      | none => (mq, [NetCall.ConnectTo mq.p, NetCall.NewMessageSender mq.p none])
      | some s =>
        ((msgQueue.doWork.send { mq with sender := some s } s net).1,
         [NetCall.ConnectTo mq.p, NetCall.NewMessageSender mq.p (some s)]
           ++ (msgQueue.doWork.send { mq with sender := some s } s net).2)
    else (mq, [NetCall.ConnectTo mq.p])

/-- What can happen to a queue after `startPeerHandler` has created it: the
`Run` loop merges a diff, the `Run` loop replaces the pending message on a
rebroadcast tick, or the worker runs `doWork`. -/
inductive QueueEvent where
  | addMessage (entries : List bsmsg.Entry)
  | rebroadcast (es : List bsmsg.Entry)
  | doWork (net : Outcome)

/-- One event on a queue, with the network calls it causes. -/
def msgQueue.step (mq : msgQueue) : QueueEvent → msgQueue × List NetCall
  | QueueEvent.addMessage entries => (mq.addMessage entries, [])
  | QueueEvent.rebroadcast es => (({ mq with out := some (bsmsg.New true) }).addMessage es, [])
  | QueueEvent.doWork net => mq.doWork net

/-- A finite execution of a queue, with all network calls in order. -/
def msgQueue.exec (mq : msgQueue) : List QueueEvent → msgQueue × List NetCall
  | [] => (mq, [])
  | ev :: evs =>
    ((msgQueue.exec (mq.step ev).1 evs).1, (mq.step ev).2 ++ (msgQueue.exec (mq.step ev).1 evs).2)

/-- The messages that are the first one passed to `SendMsg` after a sender was
created; `fresh` says that a sender was created and nothing was sent since. -/
def firstOnNewSender (fresh : Bool) : List NetCall → List bsmsg.BitSwapMessage
  | [] => []
  | NetCall.NewMessageSender _ (some _) :: cs => firstOnNewSender true cs
  | NetCall.SendMsg _ m :: cs =>
    if fresh then m :: firstOnNewSender false cs else firstOnNewSender false cs
  | _ :: cs => firstOnNewSender fresh cs

/-- Modelled from the spec: `engine.Envelope` of `decision/engine.go`, which is
not among the sources; spec §3: `Envelope { peer, block, sent: callback }`.
The callback is represented by the effect `Effect.Sent`. -/
structure Envelope where
  Peer : peer.ID
  Block : blocks.Block
deriving DecidableEq, Repr

/-- The observable actions of `SendBlock`, in order of execution. -/
inductive Effect where
  | Log
  | SendMessage (peer : peer.ID) (msg : bsmsg.BitSwapMessage)
  | Sent

/-- Go: `func (pm *WantManager) SendBlock(ctx, env *engine.Envelope)`; `err` is
true when `pm.network.SendMessage` returns an error.  The deferred `env.Sent()`
runs when the function returns. -/
def WantManager.SendBlock (env : Envelope) (err : Bool) : List Effect :=
  let msg := (bsmsg.New false).AddBlock env.Block
  [Effect.Log, Effect.SendMessage env.Peer msg]
    ++ (if err then [Effect.Log] else [])
    ++ [Effect.Sent]

/-- Whether an effect is the call of the envelope's `Sent` callback. -/
def Effect.isSent : Effect → Bool
  | Effect.Sent => true
  | _ => false

/-- Whether an effect is the network's `SendMessage`. -/
def Effect.isSendMessage : Effect → Bool
  | Effect.SendMessage _ _ => true
  | _ => false

end bitswap

namespace decision

/-- Go: `type debtRatio struct { BytesSent uint64; BytesRecv uint64 }`; the
fields hold values below `2^64`. -/
structure debtRatio where
  BytesSent : Nat
  BytesRecv : Nat
deriving DecidableEq, Repr

/-- Go: `type ledger struct`; times are numbers, `lk` carries no state. -/
structure ledger where
  Partner : peer.ID
  Accounting : debtRatio
  firstExchange : Nat
  lastExchange : Nat
  exchangeCount : Nat
  wantList : wantlist.Wantlist
  sentToPeer : AList (fun _ : key.Key => Nat)

/-- Go: `func newLedger(p peer.ID) *ledger`; the fields not named are zero. -/
def newLedger (p : peer.ID) : ledger :=
  { Partner := p, Accounting := { BytesSent := 0, BytesRecv := 0 }, firstExchange := 0,
    lastExchange := 0, exchangeCount := 0, wantList := wantlist.New, sentToPeer := ∅ }

/-- Go: the conversion `uint64(n)` of an `int`: the value modulo `2^64`. -/
def toUint64 (n : Int) : Nat := (n % 2 ^ 64).toNat

/-- Go: a value of type `float64` (IEEE 754 binary64) that is not negative:
`fin m e` is the number `m * 2^e`, with `2^52 ≤ m < 2^53` and
`-1074 ≤ e ≤ 971` for a normal number, `m < 2^52` and `e = -1074` for a
subnormal one, and `fin 0 0` for zero; `inf` is `+Inf` and `nan` is `NaN`.
The operands of `Value` are conversions of `uint64` values, so that no
negative value arises. -/
inductive float64 where
  | fin (m : Nat) (e : Int)
  | inf
  | nan
deriving DecidableEq, Repr

/-- The number of binary digits of `n`, counted by halving `n` until it is
zero (`fuel` bounds the number of halvings). -/
def float64.bitLen.go : Nat → Nat → Nat
  | 0, _ => 0
  | fuel + 1, n => if n = 0 then 0 else float64.bitLen.go fuel (n / 2) + 1

/-- The number of binary digits of `n`: the least `b` with `n < 2^b`. -/
def float64.bitLen (n : Nat) : Nat := float64.bitLen.go n n

/-- The integer nearest to `n / d`, the even one of the two when `n / d` lies
half way between them (IEEE 754 `roundTiesToEven`). -/
def float64.rne (n d : Nat) : Nat :=
  if 2 * (n % d) < d then n / d
  else if d < 2 * (n % d) then n / d + 1
  else if (n / d) % 2 = 0 then n / d
  else n / d + 1

/-- Go: the rounding of an exact result to `float64`, for the quotient `N / D`
of two natural numbers (`D > 0`): with `2^L ≤ N / D < 2^(L+1)` the exponent is
`L - 52`, or `-1074` in the subnormal range, the mantissa is `N / D` scaled
by that exponent and rounded to the nearest integer, ties to even; a mantissa
that rounds up to `2^53` moves to the next exponent, and a result of `2^1024`
or more is `+Inf`. -/
def float64.round (N D : Nat) : float64 :=
  if N = 0 then float64.fin 0 0
  else
    let k : Int := (float64.bitLen N : Int) - (float64.bitLen D : Int)
    let L : Int := if D * 2 ^ k.toNat ≤ N * 2 ^ (-k).toNat then k else k - 1
    let e : Int := max (L - 52) (-1074)
    let m : Nat := float64.rne (N * 2 ^ (-e).toNat) (D * 2 ^ e.toNat)
    if m = 0 then float64.fin 0 0
    else if m = 2 ^ 53 then
      (if 971 < e + 1 then float64.inf else float64.fin (2 ^ 52) (e + 1))
    else if 971 < e then float64.inf
    else float64.fin m e

/-- Go: the conversion `float64(x)` of a `uint64`: `x` rounded to
`float64`. -/
def float64.ofUint64 (x : Nat) : float64 := float64.round x 1

/-- Go: the quotient `a / b` of two `float64` values that are not negative:
the exact quotient rounded to `float64`, `+Inf` for a positive number divided
by zero, `NaN` for `0 / 0`, `Inf / Inf` and a `NaN` operand. -/
def float64.div : float64 → float64 → float64
  | float64.nan, _ => float64.nan
  | _, float64.nan => float64.nan
  | float64.inf, float64.inf => float64.nan
  | float64.inf, float64.fin _ _ => float64.inf
  | float64.fin _ _, float64.inf => float64.fin 0 0
  | float64.fin m1 e1, float64.fin m2 e2 =>
    if m2 = 0 then (if m1 = 0 then float64.nan else float64.inf)
    else float64.round (m1 * 2 ^ (e1 - e2).toNat) (m2 * 2 ^ (e2 - e1).toNat)

/-- Go: `func (dr *debtRatio) Value() float64`, that is
`float64(dr.BytesSent) / float64(dr.BytesRecv+1)`: the sum `dr.BytesRecv+1` is
a `uint64` and wraps around at `2^64`, both operands are converted to
`float64`, and the quotient is a `float64` division. -/
def debtRatio.Value (dr : debtRatio) : float64 :=
  float64.div (float64.ofUint64 dr.BytesSent)
    (float64.ofUint64 ((dr.BytesRecv + 1) % 2 ^ 64))

/-- Go: `func (l *ledger) SentBytes(n int)`; `now` is `time.Now()`. -/
def ledger.SentBytes (l : ledger) (n : Int) (now : Nat) : ledger :=
  { l with exchangeCount := (l.exchangeCount + 1) % 2 ^ 64,
           lastExchange := now,
           Accounting := { l.Accounting with
             BytesSent := (l.Accounting.BytesSent + toUint64 n) % 2 ^ 64 } }

/-- Go: `func (l *ledger) ReceivedBytes(n int)`; `now` is `time.Now()`. -/
def ledger.ReceivedBytes (l : ledger) (n : Int) (now : Nat) : ledger :=
  { l with exchangeCount := (l.exchangeCount + 1) % 2 ^ 64,
           lastExchange := now,
           Accounting := { l.Accounting with
             BytesRecv := (l.Accounting.BytesRecv + toUint64 n) % 2 ^ 64 } }

/-- Go: `func (l *ledger) Wants(k key.Key, priority int)`. -/
def ledger.Wants (l : ledger) (k : key.Key) (priority : Int) : ledger :=
  { l with wantList := (l.wantList.Add k priority).1 }

/-- Go: `func (l *ledger) CancelWant(k key.Key)`. -/
def ledger.CancelWant (l : ledger) (k : key.Key) : ledger :=
  { l with wantList := (l.wantList.Remove k).1 }

/-- Go: `func (l *ledger) WantListContains(k key.Key) (*wl.Entry, bool)`. -/
def ledger.WantListContains (l : ledger) (k : key.Key) : Option wantlist.Entry :=
  l.wantList.Contains k

/-- Go: `func (l *ledger) ExchangeCount() uint64`. -/
def ledger.ExchangeCount (l : ledger) : Nat := l.exchangeCount

/-- A call of `SentBytes` or `ReceivedBytes`, with its argument and the time
of the call. -/
inductive Transfer where
  | SentBytes (n : Int) (now : Nat)
  | ReceivedBytes (n : Int) (now : Nat)
deriving DecidableEq, Repr

/-- The ledger after one transfer call. -/
def Transfer.apply (l : ledger) : Transfer → ledger
  | Transfer.SentBytes n now => l.SentBytes n now
  | Transfer.ReceivedBytes n now => l.ReceivedBytes n now

/-- The argument of a transfer call. -/
def Transfer.bytes : Transfer → Int
  | Transfer.SentBytes n _ => n
  | Transfer.ReceivedBytes n _ => n

/-- The sum of the arguments of the `SentBytes` calls of a sequence. -/
def sentTotal : List Transfer → Int
  | [] => 0
  | Transfer.SentBytes n _ :: cs => n + sentTotal cs
  | Transfer.ReceivedBytes _ _ :: cs => sentTotal cs

/-- The sum of the arguments of the `ReceivedBytes` calls of a sequence. -/
def recvTotal : List Transfer → Int
  | [] => 0
  | Transfer.SentBytes _ _ :: cs => recvTotal cs
  | Transfer.ReceivedBytes n _ :: cs => n + recvTotal cs

/-- A call of `Wants` or `CancelWant`. -/
inductive WantCall where
  | Wants (k : key.Key) (priority : Int)
  | CancelWant (k : key.Key)
deriving DecidableEq, Repr

/-- The ledger after one `Wants` or `CancelWant` call. -/
def WantCall.apply (l : ledger) : WantCall → ledger
  | WantCall.Wants k priority => l.Wants k priority
  | WantCall.CancelWant k => l.CancelWant k

end decision

namespace notifications

/-- A Go channel of blocks: its capacity, the blocks buffered in it, and
whether it is closed. -/
structure Chan where
  cap : Nat
  buf : List blocks.Block
  closed : Bool
deriving DecidableEq, Repr

/-- Go: `type impl struct { wrapped pubsub.PubSub }`.  The wrapped pubsub is a
third-party package; its state is the list of subscriptions registered with
it by `AddSubOnceEach`, each with the capacity of its channel and its
topics. -/
structure impl where
  wrapped : List (Nat × List String)
deriving DecidableEq, Repr

/-- Go: `func toStrings(keys []key.Key) []string`. -/
def toStrings (keys : List key.Key) : List String := keys.map (fun k => k)

/-- Go: `func (ps *impl) Subscribe(ctx, keys ...key.Key) <-chan blocks.Block`,
up to its `return`: the pubsub afterwards, the channel returned, and whether
the forwarding goroutine was started. -/
def impl.Subscribe (ps : impl) (keys : List key.Key) : impl × Chan × Bool :=
  let blocksCh : Chan := { cap := keys.length, buf := [], closed := false }
  if keys.length = 0 then
    (ps, { blocksCh with closed := true }, false)
  else
    ({ wrapped := ps.wrapped ++ [(keys.length, toStrings keys)] }, blocksCh, true)

/-- Go: a receive `v, ok := <-ch` that does not block: the buffered block if
there is one, otherwise `ok == false` on a closed channel; `none` when the
receive would block. -/
def Chan.recv (ch : Chan) : Option (Option blocks.Block) :=
  match ch.buf with
  | b :: _ => some (some b)
  | [] => if ch.closed then some none else none

end notifications

namespace ftpb

/-- Go: `ftpb.Data_DataType` of package `unixfs/pb`, with the values that
`dagreader.go` switches on; `Raw` is the zero value. -/
inductive DataType where
  | Raw
  | Directory
  | File
  | Metadata
  | Symlink
deriving DecidableEq, Repr

end ftpb

namespace mdag

/-- Go: `*mdag.Node` holding unixfs data: the decoded `ftpb.Data` of
`node.Data()` (type, inline data, file size, block sizes) and the node's links.
A link is given by what `GetNode` returns for it from the DAG service: the
child, or `none` when the lookup fails.  Bytes are numbers. -/
inductive Node where
  | mk (typ : ftpb.DataType) (Data : List Nat) (Filesize : Nat) (Blocksizes : List Nat)
      (Links : List (Option Node))

/-- Go: `pb.GetType()`. -/
def Node.typ : Node → ftpb.DataType
  | Node.mk t _ _ _ _ => t

/-- Go: `pb.GetData()`. -/
def Node.Data : Node → List Nat
  | Node.mk _ d _ _ _ => d

/-- Go: `pb.GetFilesize()`. -/
def Node.Filesize : Node → Nat
  | Node.mk _ _ f _ _ => f

/-- Go: `pb.GetBlocksizes()`. -/
def Node.Blocksizes : Node → List Nat
  | Node.mk _ _ _ b _ => b

/-- Go: `node.Links`, each with the result of `GetNode`. -/
def Node.Links : Node → List (Option Node)
  | Node.mk _ _ _ _ l => l

end mdag

namespace decision

/-- Go: the conversion `int64(n)` of a `uint64`: the value below `2^63`, or
`2^64` less. -/
def toInt64 (n : Nat) : Int :=
  if n % 2 ^ 64 < 2 ^ 63 then ((n % 2 ^ 64 : Nat) : Int) else ((n % 2 ^ 64 : Nat) : Int) - 2 ^ 64

end decision

namespace uio

/-- Go: `os.SEEK_SET`. -/
def SEEK_SET : Nat := 0

/-- Go: `os.SEEK_CUR`. -/
def SEEK_CUR : Nat := 1

/-- Go: `os.SEEK_END`. -/
def SEEK_END : Nat := 2

/-- Go: a `ReadSeekCloser`, which `dagreader.go` makes in two ways: a
`readSeekNopCloser` over a `bytes.Reader` (the bytes `s` and the read index
`i`), or a `*DagReader` (the node with its decoded `pbdata` and its promises,
the current buffer, `linkPosition` and `offset`). -/
inductive Reader where
  | bytes (s : List Nat) (i : Int)
  | dag (node : mdag.Node) (buf : Reader) (linkPosition : Nat) (offset : Int)

/-- Go: `NewRSNCFromBytes(b)`. -/
def NewRSNCFromBytes (b : List Nat) : Reader := Reader.bytes b 0

/-- Go: `NewDataFileReader(ctx, n, pb, serv)`; `linkPosition` and `offset` are
zero. -/
def NewDataFileReader (n : mdag.Node) : Reader :=
  Reader.dag n (NewRSNCFromBytes n.Data) 0 0

/-- Go: `func (dr *DagReader) Offset() int64`; for a byte reader, its index. -/
def Reader.Offset : Reader → Int
  | Reader.bytes _ i => i
  | Reader.dag _ _ _ offset => offset

/-- Go: `func (dr *DagReader) Size() uint64`; for a byte reader, the number of
its bytes. -/
def Reader.Size : Reader → Nat
  | Reader.bytes s _ => s.length
  | Reader.dag node _ _ _ => node.Filesize

/-- Go: `func (dr *DagReader) precalcNextBuf(ctx) error` on the fields of the
reader; the error is `none` for `nil`. -/
def precalcNextBuf (node : mdag.Node) (buf : Reader) (linkPosition : Nat) (offset : Int) :
    Reader × Option String :=
  if linkPosition ≥ node.Links.length then
    (Reader.dag node buf linkPosition offset, some "EOF")
  else
    match node.Links.get? linkPosition with
    | none => (Reader.dag node buf linkPosition offset, some "EOF")
    | some none => (Reader.dag node buf linkPosition offset, some "get failed")
    | some (some nxt) =>
      match nxt.typ with
      | ftpb.DataType.Directory =>
        (Reader.dag node buf (linkPosition + 1) offset, some "invalid directory location")
      | ftpb.DataType.File =>
        (Reader.dag node (NewDataFileReader nxt) (linkPosition + 1) offset, none)
      | ftpb.DataType.Raw =>
        (Reader.dag node (NewRSNCFromBytes nxt.Data) (linkPosition + 1) offset, none)
      | ftpb.DataType.Metadata =>
        (Reader.dag node buf (linkPosition + 1) offset,
          some "shouldnt have had metadata object inside file")
      | ftpb.DataType.Symlink =>
        (Reader.dag node buf (linkPosition + 1) offset,
          some "shouldnt have had symlink inside file")

/-- Go: the loop `for i := 0; i < len(pb.Blocksizes); i++` of `Seek`, from
index `i` on: the `linkPosition` and the `left` it ends with. -/
def Seek.loop : List Nat → Nat → Nat → Int → Nat × Int
  | [], _, linkPosition, left => (linkPosition, left)
  | bs :: rest, i, linkPosition, left =>
    if bs > decision.toUint64 left then (i, left)
    else Seek.loop rest (i + 1) linkPosition (left - bs)

/-- Go: `Seek(offset, whence)` of a `ReadSeekCloser`: `bytes.Reader.Seek` for a
byte reader, `func (dr *DagReader) Seek` for a DAG reader.  The result is the
reader afterwards, the position returned and the error.  `fuel` bounds the
depth of the calls; it runs out only below the depth of the DAG plus one. -/
def Reader.Seek : Nat → Reader → Int → Nat → Reader × Int × Option String
  | 0, r, _, _ => (r, 0, some "out of fuel")
  | _ + 1, Reader.bytes s i, offset, whence =>
    if whence = SEEK_SET then
      if offset < 0 then (Reader.bytes s i, 0, some "bytes.Reader.Seek: negative position")
      else (Reader.bytes s offset, offset, none)
    else if whence = SEEK_CUR then
      if i + offset < 0 then (Reader.bytes s i, 0, some "bytes.Reader.Seek: negative position")
      else (Reader.bytes s (i + offset), i + offset, none)
    else if whence = SEEK_END then
      if (s.length : Int) + offset < 0 then
        (Reader.bytes s i, 0, some "bytes.Reader.Seek: negative position")
      else (Reader.bytes s ((s.length : Int) + offset), (s.length : Int) + offset, none)
    else (Reader.bytes s i, 0, some "bytes.Reader.Seek: invalid whence")
  | fuel + 1, Reader.dag node buf linkPosition off, offset, whence =>
    if whence = SEEK_SET then
      if offset < 0 then (Reader.dag node buf linkPosition off, -1, some "Invalid offset")
      else if (node.Data.length : Int) ≥ offset then
        (Reader.dag node (NewRSNCFromBytes (node.Data.drop offset.toNat)) 0 offset, offset, none)
      else
        let found := Seek.loop node.Blocksizes 0 linkPosition (offset - node.Data.length)
        match precalcNextBuf node buf found.1 off with
        | (r, some err) => (r, 0, some err)
        | (Reader.bytes s i, none) => (Reader.bytes s i, 0, none)
        | (Reader.dag node1 buf1 linkPosition1 off1, none) =>
          match Reader.Seek fuel buf1 found.2 SEEK_SET with
          | (buf2, _, some err) => (Reader.dag node1 buf2 linkPosition1 off1, -1, some err)
          | (buf2, n, none) =>
            if found.2 - n ≠ 0 then
              (Reader.dag node1 buf2 linkPosition1 off1, -1, some "failed to seek properly")
            else (Reader.dag node1 buf2 linkPosition1 offset, offset, none)
    else if whence = SEEK_CUR then
      Reader.Seek fuel (Reader.dag node buf linkPosition off) (off + offset) SEEK_SET
    else if whence = SEEK_END then
      Reader.Seek fuel (Reader.dag node buf linkPosition off)
        (decision.toInt64 node.Filesize - offset) SEEK_SET
    else (Reader.dag node buf linkPosition off, 0, some "invalid whence")

/-- Go: `Read(b)` of a `ReadSeekCloser` for a slice of length `n`:
`bytes.Reader.Read` for a byte reader, `func (dr *DagReader) CtxReadFull` for
a DAG reader, whose loop goes on with the rest of the slice after
`precalcNextBuf`.  The result is the reader afterwards, the bytes read and the
error. -/
def Reader.Read : Nat → Reader → Nat → Reader × List Nat × Option String
  | 0, r, _ => (r, [], some "out of fuel")
  | _ + 1, Reader.bytes s i, n =>
    if i ≥ s.length then (Reader.bytes s i, [], some "EOF")
    else
      (Reader.bytes s (i + ((s.drop i.toNat).take n).length), (s.drop i.toNat).take n, none)
  | fuel + 1, Reader.dag node buf linkPosition off, n =>
    match Reader.Read fuel buf n with
    | (buf1, d, err) =>
      if err.isSome && err != some "EOF" then
        (Reader.dag node buf1 linkPosition (off + d.length), d, err)
      else if d.length = n then
        (Reader.dag node buf1 linkPosition (off + d.length), d, none)
      else
        match precalcNextBuf node buf1 linkPosition (off + d.length) with
        | (r, some e) => (r, d, some e)
        | (r, none) =>
          match Reader.Read fuel r (n - d.length) with
          | (r2, d2, e2) => (r2, d ++ d2, e2)

/-- The content of the file that a node stands for: its inline data followed
by the content of its children, to a depth of `fuel`. -/
def fileContent : Nat → mdag.Node → List Nat
  | 0, _ => []
  | fuel + 1, node =>
    node.Data ++ (node.Links.map (fun l =>
      match l with
      | some c => fileContent fuel c
      | none => [])).flatten

end uio

namespace ft

/-- Modelled from the spec: `ft.WrapData(b)` of package `unixfs`, which is not
among the sources and on which the spec is silent; from its use in
`dagTruncate`: the unixfs data of a raw node holding `b`. -/
def WrapData (b : List Nat) (links : List (Option mdag.Node)) : mdag.Node :=
  mdag.Node.mk ftpb.DataType.Raw b b.length [] links

/-- Modelled from the spec: `ft.DataSize(data)` of package `unixfs`, which is
not among the sources and on which the spec is silent; from its use in
`dagTruncate`: the number of data bytes below a node, which is the length of
the data of a raw node and the file size of a file node, and an error for
other nodes. -/
def DataSize (n : mdag.Node) : Except String Nat :=
  match n.typ with
  | ftpb.DataType.Raw => Except.ok n.Data.length
  | ftpb.DataType.File => Except.ok n.Filesize
  | ftpb.DataType.Directory => Except.error "Cant get data size of directory!"
  | _ => Except.error "Unrecognized node data type!"

/-- Modelled from the spec: `(*ft.FSNode).GetBytes()` of a `new(ft.FSNode)` to
which only block sizes were added (package `unixfs`, not among the sources,
the spec is silent): unixfs data with the zero type, no inline data, the given
block sizes and their sum as file size. -/
def FSNode.GetBytes (blocksizes : List Nat) (links : List (Option mdag.Node)) : mdag.Node :=
  mdag.Node.mk ftpb.DataType.Raw [] blocksizes.sum blocksizes links

end ft

namespace mod

/-- Go: `var writebufferSize = 1 << 21`. -/
def writebufferSize : Nat := 2 ^ 21

/-- Go: `type DagModifier struct`: the current node, `writeStart` and
`curWrOff` (`uint64`), the write buffer (`none` for `nil`) and the reader
(`none` for `nil`).  The DAG service, the splitter and the contexts carry no
state of the model. -/
structure DagModifier where
  curNode : mdag.Node
  writeStart : Nat
  curWrOff : Nat
  wrBuf : Option (List Nat)
  read : Option uio.Reader

/-- Go: `NewDagModifier(ctx, from, serv, spl)`. -/
def NewDagModifier (nd : mdag.Node) : DagModifier :=
  { curNode := nd, writeStart := 0, curWrOff := 0, wrBuf := none, read := none }

/-- The two methods of `DagModifier` that rebuild the DAG, `Sync` and
`expandSparse`: both go through `trickle.TrickleAppend` and the DAG service,
which are not among the sources, and are parameters.  The result is the
modifier afterwards or the error. -/
structure Rebuild where
  Sync : DagModifier → Except String DagModifier
  expandSparse : DagModifier → Int → Except String DagModifier

/-- Go: `func (dm *DagModifier) Size() (int64, error)`; the node's data always
decodes here. -/
def DagModifier.Size (dm : DagModifier) : Int :=
  match dm.wrBuf with
  | some buf =>
    if (buf.length + dm.writeStart) % 2 ^ 64 > dm.curNode.Filesize then
      decision.toInt64 buf.length + decision.toInt64 dm.writeStart
    else decision.toInt64 dm.curNode.Filesize
  | none => decision.toInt64 dm.curNode.Filesize

/-- Go: `func (dm *DagModifier) Write(b []byte) (int, error)`: the modifier
afterwards, the count returned and the error. -/
def DagModifier.Write (env : Rebuild) (dm : DagModifier) (b : List Nat) :
    DagModifier × Int × Option String :=
  let buf := (dm.wrBuf.getD []) ++ b
  let dm1 : DagModifier :=
    { dm with read := none, wrBuf := some buf, curWrOff := (dm.curWrOff + b.length) % 2 ^ 64 }
  if buf.length > writebufferSize then
    match env.Sync dm1 with
    | Except.error err => (dm1, b.length, some err)
    | Except.ok dm2 => (dm2, b.length, none)
  else (dm1, b.length, none)

/-- Go: `func (dm *DagModifier) WriteAt(b []byte, offset int64) (int, error)`:
the modifier afterwards, the count returned and the error. -/
def DagModifier.WriteAt (env : Rebuild) (dm : DagModifier) (b : List Nat) (offset : Int) :
    DagModifier × Int × Option String :=
  if offset = decision.toInt64 dm.writeStart ∧ dm.wrBuf.isSome then
    if b.length ≥ (dm.wrBuf.getD []).length then
      DagModifier.Write env { dm with wrBuf := some [] } b
    else DagModifier.Write env dm b
  else if decision.toUint64 offset ≠ dm.curWrOff then
    let size := dm.Size
    match (if offset > size then env.expandSparse dm (offset - size) else Except.ok dm) with
    | Except.error err => (dm, 0, some err)
    | Except.ok dm1 =>
      match env.Sync dm1 with
      | Except.error err => (dm1, 0, some err)
      | Except.ok dm2 =>
        DagModifier.Write env { dm2 with writeStart := decision.toUint64 offset } b
  else DagModifier.Write env dm b

/-- The bytes `data` with `buf` laid over them from position `start` on;
positions between the end of `data` and `start` hold zero. -/
def overlay (data : List Nat) (start : Nat) (buf : List Nat) : List Nat :=
  (data ++ List.replicate (start - data.length) 0).take start ++ buf
    ++ data.drop (start + buf.length)

/-- The logical content of the file under modification: the content of the
current DAG with the write buffer laid over it at `writeStart`. -/
def DagModifier.content (fuel : Nat) (dm : DagModifier) : List Nat :=
  match dm.wrBuf with
  | none => uio.fileContent fuel dm.curNode
  | some buf => overlay (uio.fileContent fuel dm.curNode) dm.writeStart buf

/-- Go: the loop `for i, lnk := range nd.Links` of `dagTruncate`, from link
`i` on, with the recursive call given as `rec`: the block sizes collected,
`modified` (`none` for `nil`) and `end`. -/
def dagTruncate.loop (rec : mdag.Node → Nat → Except String mdag.Node) (size : Nat) :
    List (Option mdag.Node) → Nat → Nat → List Nat → Nat →
      Except String (List Nat × Option mdag.Node × Nat)
  | [], _, _, blocksizes, endIdx => Except.ok (blocksizes, none, endIdx)
  | none :: _, _, _, _, _ => Except.error "get failed"
  | some child :: rest, i, cur, blocksizes, endIdx =>
    match ft.DataSize child with
    | Except.error err => Except.error err
    | Except.ok childsize =>
      if size < cur + childsize then
        match rec child (size - cur) with
        | Except.error err => Except.error err
        | Except.ok nchild => Except.ok (blocksizes ++ [size - cur], some nchild, i)
      else
        dagTruncate.loop rec size rest (i + 1) (cur + childsize) (blocksizes ++ [childsize])
          endIdx

/-- Go: `func dagTruncate(ctx, nd, size, ds) (*mdag.Node, error)`.  A slice
`pbn.Data[:size]` beyond the data panics, and `ds.Add(modified)` with a `nil`
node returns no key (the DAG service dereferences the node): both are errors
here.  `fuel` bounds the depth of the recursion. -/
def dagTruncate : Nat → mdag.Node → Nat → Except String mdag.Node
  | 0, _, _ => Except.error "out of fuel"
  | fuel + 1, nd, size =>
    if nd.Links.length = 0 then
      if size > nd.Data.length then Except.error "slice bounds out of range"
      else Except.ok (ft.WrapData (nd.Data.take size) nd.Links)
    else
      match dagTruncate.loop (dagTruncate fuel) size nd.Links 0 0 [] 0 with
      | Except.error err => Except.error err
      | Except.ok (_, none, _) => Except.error "nil node"
      | Except.ok (blocksizes, some modified, endIdx) =>
        Except.ok (ft.FSNode.GetBytes blocksizes (nd.Links.take endIdx ++ [some modified]))

/-- Go: `func (dm *DagModifier) Truncate(size int64) error`: the modifier
afterwards or the error. -/
def DagModifier.Truncate (env : Rebuild) (fuel : Nat) (dm : DagModifier) (size : Int) :
    Except String DagModifier :=
  match env.Sync dm with
  | Except.error err => Except.error err
  | Except.ok dm1 =>
    if size > dm1.Size then env.expandSparse dm1 (size - dm1.Size)
    else
      match dagTruncate fuel dm1.curNode (decision.toUint64 size) with
      | Except.error err => Except.error err
      | Except.ok nnode => Except.ok { dm1 with curNode := nnode }

end mod

namespace blockstore_util

/-- Go: `type RemovedBlock struct { Hash string; Error string }`. -/
structure RemovedBlock where
  Hash : String
  Error : String
deriving DecidableEq, Repr

/-- Go: `type RmBlocksOpts struct { Prefix string; Quiet bool; Force bool }`. -/
structure RmBlocksOpts where
  Prefix : String
  Quiet : Bool
  Force : Bool
deriving DecidableEq, Repr

/-- What `RmBlocks` reads of a `pin.Pinned` (package `pin`, not among the
sources): the cid `r.Key` as the string `r.Key.String()`, the answer of
`r.Pinned()` and the text `r.String()`. -/
structure Pinned where
  Key : String
  Pinned : Bool
  String : String
deriving DecidableEq, Repr

/-- The error that `blocks.DeleteBlock` returns: `nil`, one of the two
`ErrNotFound` values (`bs.ErrNotFound`, `ds.ErrNotFound`), or another error
with its text. -/
inductive DeleteResult where
  | ok
  | notFound
  | failed (msg : String)
deriving DecidableEq, Repr

/-- Go: `err.Error()` of a `DeleteBlock` error. -/
def DeleteResult.Error : DeleteResult → String
  | DeleteResult.ok => ""
  | DeleteResult.notFound => "blockstore: block not found"
  | DeleteResult.failed msg => msg

/-- Go: the loop `for _, r := range res` of `FilterPinned`: the results sent on
`out` and the cids appended to `stillOkay`. -/
def FilterPinned.loop : List Pinned → List RemovedBlock × List String
  | [] => ([], [])
  | r :: rest =>
    if !r.Pinned then ((FilterPinned.loop rest).1, r.Key :: (FilterPinned.loop rest).2)
    else ({ Hash := r.Key, Error := r.String } :: (FilterPinned.loop rest).1,
          (FilterPinned.loop rest).2)

/-- Go: `func FilterPinned(pins, out, cids) []*cid.Cid`, with the answer of
`pins.CheckIfPinned(cids...)` given: the results sent on `out`, in order, and
the slice returned (`nil` is the empty list).  Cids are the strings that
`c.String()` gives. -/
def FilterPinned (check : Except String (List Pinned)) : List RemovedBlock × List String :=
  match check with
  | Except.error err => ([{ Hash := "", Error := "pin check failed: " ++ err }], [])
  | Except.ok res => FilterPinned.loop res

/-- Go: the loop `for _, c := range stillOkay` of `RmBlocks`, from the `i`-th
call of `DeleteBlock` on; `delete i c` is what that call returns.  The result is
what is sent on `out` and the cids `DeleteBlock` is called on, in order. -/
def RmBlocks.loop (delete : Nat → String → DeleteResult) (opts : RmBlocksOpts) :
    Nat → List String → List RemovedBlock × List String
  | _, [] => ([], [])
  | i, c :: rest =>
    let err := delete i c
    let sent : List RemovedBlock :=
      if err ≠ DeleteResult.ok ∧ opts.Force = true ∧ err = DeleteResult.notFound then []
      else if err ≠ DeleteResult.ok then [{ Hash := c, Error := err.Error }]
      else if !opts.Quiet then [{ Hash := c, Error := "" }]
      else []
    (sent ++ (RmBlocks.loop delete opts (i + 1) rest).1,
     c :: (RmBlocks.loop delete opts (i + 1) rest).2)

/-- Go: the goroutine of `func RmBlocks(blocks, pins, out, cids, opts) error`:
everything sent on `out` before it is closed, and the cids that `DeleteBlock`
is called on, in order. -/
def RmBlocks (check : Except String (List Pinned)) (delete : Nat → String → DeleteResult)
    (opts : RmBlocksOpts) : List RemovedBlock × List String :=
  ((FilterPinned check).1 ++ (RmBlocks.loop delete opts 0 (FilterPinned check).2).1,
   (RmBlocks.loop delete opts 0 (FilterPinned check).2).2)

/-- Go: `func ProcRmOutput(in, sout, serr) error` on the results that the
channel delivers before it is closed, from a given `someFailed` on: the lines
written to `sout`, the lines written to `serr`, and the error (`none` for
`nil`). -/
def ProcRmOutput.loop : Bool → List RemovedBlock → List String × List String × Option String
  | someFailed, [] =>
    ([], [], if someFailed then some "some blocks not removed" else none)
  | someFailed, r :: rest =>
    if r.Hash = "" ∧ r.Error ≠ "" then ([], [], some ("aborted: " ++ r.Error))
    else if r.Error ≠ "" then
      ((ProcRmOutput.loop true rest).1,
       ("cannot remove " ++ r.Hash ++ ": " ++ r.Error ++ "\n") :: (ProcRmOutput.loop true rest).2.1,
       (ProcRmOutput.loop true rest).2.2)
    else
      (("removed " ++ r.Hash ++ "\n") :: (ProcRmOutput.loop someFailed rest).1,
       (ProcRmOutput.loop someFailed rest).2.1,
       (ProcRmOutput.loop someFailed rest).2.2)

/-- Go: `func ProcRmOutput(in <-chan interface{}, sout, serr io.Writer) error`. -/
def ProcRmOutput (results : List RemovedBlock) : List String × List String × Option String :=
  ProcRmOutput.loop false results

end blockstore_util

namespace blockstore

/-- The errors of a blockstore: `ErrNotFound` (to which the datastore's
`ds.ErrNotFound` is equated), or another error. -/
inductive Err where
  | ErrNotFound
  | other
deriving DecidableEq, Repr

/-- Go: `type arccache struct`: the ARC cache as a partial map from keys to
booleans, the wrapped blockstore as a map from keys to blocks, and the two
counters. -/
structure arccache where
  arc : AList (fun _ : key.Key => Bool)
  blockstore : AList (fun _ : key.Key => blocks.Block)
  hits : Nat
  total : Nat

/-- Go: `b.arc.Add(k, v)`; the cache may evict other entries to make room,
given by `evicted`. -/
def arcAdd (arc : AList (fun _ : key.Key => Bool)) (k : key.Key) (v : Bool)
    (evicted : List key.Key) : AList (fun _ : key.Key => Bool) :=
  (evicted.filter (fun e => e ≠ k)).foldl (fun a e => a.erase e) (arc.insert k v)

/-- Go: `func (b *arccache) hasCached(k key.Key) (has bool, ok bool)`, with
the cache afterwards (the counters move). -/
def arccache.hasCached (b : arccache) (k : key.Key) : arccache × Bool × Bool :=
  if k = "" then ({ b with total := b.total + 1 }, false, false)
  else
    match b.arc.lookup k with
    | some h => ({ b with total := b.total + 1, hits := b.hits + 1 }, h, true)
    | none => ({ b with total := b.total + 1 }, false, false)

/-- How a call of the wrapped blockstore goes: with `fail` it returns an error
other than `ErrNotFound` instead of doing its work, and otherwise it works as a
map does (reporting `ErrNotFound` for a key it does not hold); for `PutMany`,
`written` is the number of blocks it stores before it fails; `evicted` are
the keys the ARC cache evicts when the wrapper adds an entry. -/
structure Wrapped where
  fail : Bool
  written : Nat
  evicted : List key.Key

/-- Go: `func (b *arccache) Has(k key.Key) (bool, error)`. -/
def arccache.Has (b : arccache) (k : key.Key) (w : Wrapped) :
    arccache × Bool × Option Err :=
  match b.hasCached k with
  | (b1, has, true) => (b1, has, none)
  | (b1, _, false) =>
    if w.fail then (b1, false, some Err.other)
    else
      ({ b1 with arc := arcAdd b1.arc k (b1.blockstore.lookup k).isSome w.evicted },
       (b1.blockstore.lookup k).isSome, none)

/-- Go: `func (b *arccache) Get(k key.Key) (blocks.Block, error)`. -/
def arccache.Get (b : arccache) (k : key.Key) (w : Wrapped) :
    arccache × Option blocks.Block × Option Err :=
  match b.hasCached k with
  | (b1, false, true) => (b1, none, some Err.ErrNotFound)
  | (b1, _, _) =>
    if w.fail then (b1, none, some Err.other)
    else
      match b1.blockstore.lookup k with
      | none => ({ b1 with arc := arcAdd b1.arc k false w.evicted }, none, some Err.ErrNotFound)
      | some bl => ({ b1 with arc := arcAdd b1.arc k true w.evicted }, some bl, none)

/-- Go: `func (b *arccache) Put(bl blocks.Block) error`. -/
def arccache.Put (b : arccache) (bl : blocks.Block) (w : Wrapped) : arccache × Option Err :=
  match b.hasCached bl.Key with
  | (b1, true, true) => (b1, none)
  | (b1, _, _) =>
    if w.fail then (b1, some Err.other)
    else
      ({ b1 with blockstore := b1.blockstore.insert bl.Key bl,
                 arc := arcAdd b1.arc bl.Key true w.evicted }, none)

/-- Go: the first loop of `PutMany`: the blocks that are not cached as
present, with the cache afterwards. -/
def arccache.PutMany.good (b : arccache) : List blocks.Block → arccache × List blocks.Block
  | [] => (b, [])
  | block :: rest =>
    match b.hasCached block.Key with
    | (b1, true, true) => arccache.PutMany.good b1 rest
    | (b1, _, _) =>
      ((arccache.PutMany.good b1 rest).1, block :: (arccache.PutMany.good b1 rest).2)

/-- Go: `func (b *arccache) PutMany(bs []blocks.Block) error`. -/
def arccache.PutMany (b : arccache) (bs : List blocks.Block) (w : Wrapped) :
    arccache × Option Err :=
  let g := arccache.PutMany.good b bs
  if w.fail then
    ({ g.1 with blockstore :=
        (g.2.take w.written).foldl (fun s bl => s.insert bl.Key bl) g.1.blockstore },
     some Err.other)
  else
    ({ g.1 with
        blockstore := g.2.foldl (fun s bl => s.insert bl.Key bl) g.1.blockstore,
        arc := g.2.foldl (fun a bl => arcAdd a bl.Key true w.evicted) g.1.arc }, none)

/-- Go: `func (b *arccache) DeleteBlock(k key.Key) error`. -/
def arccache.DeleteBlock (b : arccache) (k : key.Key) (w : Wrapped) : arccache × Option Err :=
  match b.hasCached k with
  | (b1, false, true) => (b1, some Err.ErrNotFound)
  | (b1, _, _) =>
    if w.fail then ({ b1 with arc := b1.arc.erase k }, some Err.other)
    else
      match b1.blockstore.lookup k with
      | none =>
        ({ b1 with arc := arcAdd (b1.arc.erase k) k false w.evicted }, some Err.ErrNotFound)
      | some _ =>
        ({ b1 with blockstore := b1.blockstore.erase k,
                   arc := arcAdd (b1.arc.erase k) k false w.evicted }, none)

/-- The coherence of cache and store: every cached entry `k -> v` has
`v == (k is in the wrapped blockstore)`. -/
def arccache.Coherent (b : arccache) : Prop :=
  ∀ k v, b.arc.lookup k = some v → v = (b.blockstore.lookup k).isSome

end blockstore

namespace supernode

/-- Go: what the server reads of a `*dhtpb.Message_Peer`: `GetId()` and the
addresses that `Addresses()` returns. -/
structure Message_Peer where
  Id : String
  Addrs : List String
deriving DecidableEq, Repr

/-- What the datastore holds under a key, as `getRoutingProviders` tells the
cases apart: a value that is not a byte slice, bytes that do not unmarshal, or
the marshalled message with its provider peers. -/
inductive Stored where
  | notBytes
  | garbage
  | providers (ps : List Message_Peer)

/-- Go: `type Server struct`: the routing backend as a map from datastore keys
to values, and the peerstore as the list of the `AddAddr(peer, addr, ttl)`
calls made on it. -/
structure Server where
  localID : peer.ID
  routingBackend : AList (fun _ : String => Stored)
  peerstore : List (peer.ID × String)

/-- Whether the datastore's `Get` and `Put` fail during one call of
`putRoutingProviders`. -/
structure DsOutcome where
  getFails : Bool
  putFails : Bool
deriving DecidableEq, Repr

/-- Go: `func providerKey(k key.Key) datastore.Key`, the key with the
namespaces `routing` and `providers`. -/
def providerKey (k : key.Key) : String := "/routing/providers/" ++ k

/-- Go: `func getRoutingProviders(ds, k) ([]*dhtpb.Message_Peer, error)`. -/
def getRoutingProviders (ds : AList (fun _ : String => Stored)) (k : key.Key) (o : DsOutcome) :
    Except String (List Message_Peer) :=
  if o.getFails then Except.ok []
  else
    match ds.lookup (providerKey k) with
    | none => Except.ok []
    | some Stored.notBytes => Except.ok []
    | some Stored.garbage => Except.error "unmarshal failed"
    | some (Stored.providers ps) => Except.ok ps

/-- Go: `func putRoutingProviders(ds, k, newRecords) error`: the datastore
afterwards and the error.  `mergedRecords` is a map keyed by provider id; the
order of its entries is the order in which the last loop ranges over it. -/
def putRoutingProviders (ds : AList (fun _ : String => Stored)) (k : key.Key)
    (newRecords : List Message_Peer) (o : DsOutcome) :
    AList (fun _ : String => Stored) × Option String :=
  match getRoutingProviders ds k o with
  | Except.error err => (ds, some err)
  | Except.ok oldRecords =>
    let mergedRecords : AList (fun _ : String => Message_Peer) :=
      newRecords.foldl (fun m provider => m.insert provider.Id provider)
        (oldRecords.foldl (fun m provider => m.insert provider.Id provider) ∅)
    if o.putFails then (ds, some "put failed")
    else
      (ds.insert (providerKey k) (Stored.providers (mergedRecords.entries.map (fun x => x.2))),
       none)

/-- Go: `func storeProvidersToPeerstore(ps, p, providers)`: the peerstore
afterwards. -/
def storeProvidersToPeerstore (ps : List (peer.ID × String)) (p : peer.ID) :
    List Message_Peer → List (peer.ID × String)
  | [] => ps
  | provider :: rest =>
    if provider.Id ≠ p then storeProvidersToPeerstore ps p rest
    else storeProvidersToPeerstore (ps ++ provider.Addrs.map (fun maddr => (p, maddr))) p rest

/-- Go: the loop of the `case dhtpb.Message_ADD_PROVIDER` branch of
`handleMessage`, from the `i`-th provider of the request on; `outs i` says how
the datastore behaves for that provider.  The loop ends early when
`putRoutingProviders` fails. -/
def handleMessage.addProviders (p : peer.ID) (k : key.Key) (outs : Nat → DsOutcome) :
    Nat → Server → List Message_Peer → Server
  | _, s, [] => s
  | i, s, provider :: rest =>
    if provider.Id = p then
      let s1 : Server :=
        { s with peerstore := storeProvidersToPeerstore s.peerstore p [provider] }
      match putRoutingProviders s1.routingBackend k [provider] (outs i) with
      | (_, some _) => s1
      | (ds, none) =>
        handleMessage.addProviders p k outs (i + 1) { s1 with routingBackend := ds } rest
    else handleMessage.addProviders p k outs (i + 1) s rest

/-- Go: `handleMessage(ctx, p, req)` for a request of type `ADD_PROVIDER` with
key `k` and the given provider peers: the server afterwards, the peer returned
and the response (`none` for `nil`). -/
def Server.handleMessage_ADD_PROVIDER (s : Server) (p : peer.ID) (k : key.Key)
    (providerPeers : List Message_Peer) (outs : Nat → DsOutcome) :
    Server × peer.ID × Option (List Message_Peer) :=
  (handleMessage.addProviders p k outs 0 s providerPeers, "", none)

end supernode

namespace config

/-- Go: `strings.Split(s, sep)` of the standard library for a non-empty `sep`,
scanning `s` from the left: `cur` holds the current piece in reverse, `skip`
the number of characters of a matched separator still to pass.  Strings are
lists of characters, each standing for a byte. -/
def strings.Split.aux (sep : List Char) : List Char → List Char → Nat → List (List Char)
  | [], cur, _ => [cur.reverse]
  | _ :: cs, cur, skip + 1 => strings.Split.aux sep cs cur skip
  | c :: cs, cur, 0 =>
    if sep.isPrefixOf (c :: cs) then cur.reverse :: strings.Split.aux sep cs [] (sep.length - 1)
    else strings.Split.aux sep cs (c :: cur) 0

/-- Go: `strings.Split(s, sep)` for a non-empty `sep`. -/
def strings.Split (s sep : List Char) : List (List Char) := strings.Split.aux sep s [] 0

/-- Go: `strings.Replace(s, old, new, -1)` for a non-empty `old`: the pieces
between the occurrences of `old`, joined by `new`. -/
def strings.Replace (s old new : List Char) : List Char :=
  new.intercalate (strings.Split s old)

/-- Go: `func GetDomainName() string`, with the result of reading
`/opt/iservstor/conf/iservstor.conf` given (`none`: the read fails).  The
result is `none` when an index expression panics. -/
def GetDomainName (conf : Option (List Char)) : Option (List Char) :=
  match conf with
  | none => some "NO FILE".toList
  | some dat =>
    match (strings.Split dat "DOMAIN_NAME".toList).get? 1 with
    | none => none
    | some tmp =>
      match (strings.Split tmp "\n".toList).get? 0 with
      | none => none
      | some tmpp =>
        match (strings.Split tmpp "=".toList).get? 1 with
        | none => none
        | some tmppp => some (strings.Replace tmppp " ".toList "".toList)

/-- Go: `inputReader.ReadString('\n')`: the text up to and including the first
newline, or `none` together with everything read when the input ends first
(`io.EOF`). -/
def ReadString : List Char → List Char → Option (List Char)
  | [], _ => none
  | c :: cs, acc => if c = '\n' then some (acc.reverse ++ [c]) else ReadString cs (c :: acc)

/-- Go: `func GetUuid() string`, with the content of
`/opt/iservstor/data/.uuid.txt` given (`none`: the file does not open). -/
def GetUuid (file : Option (List Char)) : List Char :=
  match file with
  | none => "NO FILE".toList
  | some content =>
    match ReadString content [] with
    | none => "NO CONTENT".toList
    | some inputString => strings.Replace inputString "\n".toList "".toList

/-- The alphabet of the standard base64 encoding, by value. -/
def base64.digit (n : Nat) : Char :=
  ("ABCDEFGHIJKLMNOPQRSTUVWXYZabcdefghijklmnopqrstuvwxyz0123456789+/".toList).getD n '='

/-- Go: `base64.StdEncoding.EncodeToString(src)` of the standard library, on
the bytes as numbers. -/
def base64.EncodeToString : List Nat → List Char
  | [] => []
  | [a] => [base64.digit (a / 4), base64.digit (a % 4 * 16), '=', '=']
  | [a, b] =>
    [base64.digit (a / 4), base64.digit (a % 4 * 16 + b / 16), base64.digit (b % 16 * 4), '=']
  | a :: b :: c :: rest =>
    [base64.digit (a / 4), base64.digit (a % 4 * 16 + b / 16),
     base64.digit (b % 16 * 4 + c / 64), base64.digit (c % 64)]
      ++ base64.EncodeToString rest

/-- Go: the fields of `type Identity struct` that `identityConfig` sets. -/
structure Identity where
  PeerID : List Char
  PrivKey : List Char
  GroupID : List Char
deriving DecidableEq, Repr

/-- Go: `func identityConfig(out io.Writer, nbits int) (Identity, error)`.
`keys` is what key generation gives: the bytes of the private key and the
pretty-printed peer id, or an error.  `conf` and `uuidFile` are the contents of
the two files at the time they are read (the uuid file after the `cp` command
has run).  A panic in `GetDomainName` is an error here. -/
def identityConfig (nbits : Int) (keys : Except String (List Nat × List Char))
    (conf uuidFile : Option (List Char)) : Except String Identity :=
  if nbits < 1024 then Except.error "Bitsize less than 1024 is considered unsafe."
  else
    match keys with
    | Except.error err => Except.error err
    | Except.ok (skbytes, id) =>
      match GetDomainName conf with
      | none => Except.error "panic: index out of range"
      | some domainName =>
        Except.ok
          { PeerID := id,
            PrivKey := base64.EncodeToString skbytes,
            GroupID := base64.EncodeToString
              ((domainName ++ GetUuid uuidFile).map (fun c => c.toNat)) }

end config

namespace wantlist

/-! ## Wantlist: single operations -/

theorem contains_Add_self (w : Wantlist) (k : key.Key) (p : Int) :
    (w.Add k p).1.Contains k =
      some (match w.Contains k with
        | some e => { e with RefCnt := e.RefCnt + 1 }
        | none => { Key := k, Priority := p, RefCnt := 1 }) := by
  unfold Wantlist.Add Wantlist.Contains
  cases h : w.set.lookup k <;> simp

theorem contains_Add_ne (w : Wantlist) (k : key.Key) (p : Int) (k' : key.Key)
    (hne : k' ≠ k) : (w.Add k p).1.Contains k' = w.Contains k' := by
  unfold Wantlist.Add Wantlist.Contains
  cases h : w.set.lookup k <;> simp [AList.lookup_insert_ne hne]

theorem Add_result (w : Wantlist) (k : key.Key) (p : Int) :
    (w.Add k p).2 = (w.Contains k).isNone := by
  unfold Wantlist.Add Wantlist.Contains
  cases h : w.set.lookup k <;> simp

/-- C1: `Add(k, priority)` returns true iff `k` was absent before the call; an
absent key is inserted with the given priority and `RefCnt` 1; a present key
has its `RefCnt` increased by one with key and priority kept; entries under
every other key are unchanged. -/
theorem Add_spec (w : Wantlist) (k : key.Key) (priority : Int) :
    ((w.Add k priority).2 = true ↔ w.Contains k = none) ∧
    (w.Contains k = none →
      (w.Add k priority).1.Contains k
        = some { Key := k, Priority := priority, RefCnt := 1 }) ∧
    (∀ e, w.Contains k = some e →
      (w.Add k priority).1.Contains k
        = some { Key := e.Key, Priority := e.Priority, RefCnt := e.RefCnt + 1 }) ∧
    (∀ k', k' ≠ k → (w.Add k priority).1.Contains k' = w.Contains k') := by
  refine ⟨?_, ?_, ?_, ?_⟩
  · rw [Add_result]; cases w.Contains k <;> simp
  · intro h; rw [contains_Add_self, h]
  · intro e h; rw [contains_Add_self, h]
  · intro k' hne; exact contains_Add_ne w k priority k' hne

end wantlist

namespace wantlist

/-- C1 at a concrete wantlist: adding an absent key and a present key. -/
theorem Add_spec_witness :
    (New.Add "a" 5).1.Contains "a" = some { Key := "a", Priority := 5, RefCnt := 1 } ∧
    ((New.Add "a" 5).1.Add "a" 9).1.Contains "a"
      = some { Key := "a", Priority := 5, RefCnt := 2 } ∧
    ((New.Add "a" 5).1.Add "b" 9).1.Contains "a" = (New.Add "a" 5).1.Contains "a" :=
  ⟨(Add_spec New "a" 5).2.1 rfl,
   (Add_spec (New.Add "a" 5).1 "a" 9).2.2.1 _ rfl,
   (Add_spec (New.Add "a" 5).1 "b" 9).2.2.2 "a" (by decide)⟩

theorem contains_Remove_self (w : Wantlist) (k : key.Key) :
    (w.Remove k).1.Contains k =
      (match w.Contains k with
        | none => none
        | some e => if e.RefCnt - 1 ≤ 0 then none
                    else some { Key := e.Key, Priority := e.Priority, RefCnt := e.RefCnt - 1 }) := by
  unfold Wantlist.Remove Wantlist.Contains
  cases h : w.set.lookup k with
  | none => simp [h]
  | some e => by_cases hc : e.RefCnt - 1 ≤ 0 <;> simp [hc]

theorem contains_Remove_ne (w : Wantlist) (k k' : key.Key) (hne : k' ≠ k) :
    (w.Remove k).1.Contains k' = w.Contains k' := by
  unfold Wantlist.Remove Wantlist.Contains
  cases h : w.set.lookup k with
  | none => simp
  | some e =>
    by_cases hc : e.RefCnt - 1 ≤ 0 <;>
      simp [hc, AList.lookup_insert_ne hne, AList.lookup_erase_ne hne]

theorem Remove_result (w : Wantlist) (k : key.Key) :
    (w.Remove k).2 =
      (match w.Contains k with
        | none => false
        | some e => decide (e.RefCnt - 1 ≤ 0)) := by
  unfold Wantlist.Remove Wantlist.Contains
  cases h : w.set.lookup k with
  | none => simp
  | some e => by_cases hc : e.RefCnt - 1 ≤ 0 <;> simp [hc]

theorem Remove_absent (w : Wantlist) (k : key.Key) (h : w.Contains k = none) :
    w.Remove k = (w, false) := by
  unfold Wantlist.Contains at h
  unfold Wantlist.Remove
  rw [h]

/-- C2 as stated fails: a wantlist holding `k` with `RefCnt` 0 (built by
`AddEntry` of such an entry) loses the entry on `Remove(k)`, which returns
true, although the decremented `RefCnt` is -1 and not zero. -/
theorem Remove_deletes_below_zero :
    (New.AddEntry { Key := "k", Priority := 0, RefCnt := 0 }).1.Contains "k"
      = some { Key := "k", Priority := 0, RefCnt := 0 } ∧
    ((New.AddEntry { Key := "k", Priority := 0, RefCnt := 0 }).1.Remove "k").1.Contains "k"
      = none ∧
    ((New.AddEntry { Key := "k", Priority := 0, RefCnt := 0 }).1.Remove "k").2 = true ∧
    (0 : Int) - 1 ≠ 0 := by
  refine ⟨by rfl, by rfl, by rfl, by decide⟩

/-- C2 (amended): for every wantlist that contains `k` with entry `e`,
`Remove(k)` deletes the entry iff `e.RefCnt - 1 ≤ 0` (iff it is zero when
`e.RefCnt ≥ 1`), otherwise keeps it with `RefCnt` decremented by one and key
and priority kept; it returns true iff the entry was deleted; entries under
other keys are unchanged. -/
theorem Remove_spec (w : Wantlist) (k : key.Key) (e : Entry) (h : w.Contains k = some e) :
    ((w.Remove k).1.Contains k = none ↔ e.RefCnt - 1 ≤ 0) ∧
    (1 ≤ e.RefCnt → ((w.Remove k).1.Contains k = none ↔ e.RefCnt - 1 = 0)) ∧
    (¬ e.RefCnt - 1 ≤ 0 → (w.Remove k).1.Contains k
        = some { Key := e.Key, Priority := e.Priority, RefCnt := e.RefCnt - 1 }) ∧
    ((w.Remove k).2 = true ↔ (w.Remove k).1.Contains k = none) ∧
    (∀ k', k' ≠ k → (w.Remove k).1.Contains k' = w.Contains k') := by
  have hs := contains_Remove_self w k
  have hr := Remove_result w k
  rw [h] at hs hr
  simp only at hs hr
  by_cases hc : e.RefCnt - 1 ≤ 0
  · rw [if_pos hc] at hs
    refine ⟨?_, ?_, ?_, ?_, ?_⟩
    · simp [hs, hc]
    · intro h1
      simp only [hs, true_iff]
      omega
    · intro h2; exact absurd hc h2
    · simp [hs, hr, hc]
    · intro k' hne; exact contains_Remove_ne w k k' hne
  · rw [if_neg hc] at hs
    refine ⟨?_, ?_, ?_, ?_, ?_⟩
    · simp [hs, hc]
    · intro h1
      simp only [hs]
      constructor
      · intro h2; cases h2
      · intro h2; omega
    · intro _; exact hs
    · simp [hs, hr, hc]
    · intro k' hne; exact contains_Remove_ne w k k' hne

/-- C2 (amended) at concrete wantlists: a count of 2 drops to 1 and the entry
stays; a count of 1 drops to 0 and the entry goes. -/
theorem Remove_spec_witness :
    (((New.Add "a" 5).1.Add "a" 5).1.Remove "a").1.Contains "a"
      = some { Key := "a", Priority := 5, RefCnt := 1 } ∧
    (((New.Add "a" 5).1.Remove "a").1.Contains "a" = none ↔ (1 : Int) - 1 ≤ 0) :=
  ⟨(Remove_spec ((New.Add "a" 5).1.Add "a" 5).1 "a"
      { Key := "a", Priority := 5, RefCnt := 2 } rfl).2.2.1 (by decide),
   (Remove_spec (New.Add "a" 5).1 "a" { Key := "a", Priority := 5, RefCnt := 1 } rfl).1⟩

end wantlist

namespace wantlist

/-! ## Wantlist: `AddEntry`, and `Add` followed by `Remove` -/

theorem contains_AddEntry_self (w : Wantlist) (e : Entry) :
    (w.AddEntry e).1.Contains e.Key =
      some (match w.Contains e.Key with
        | some ex => { Key := ex.Key, Priority := ex.Priority, RefCnt := ex.RefCnt + 1 }
        | none => e) := by
  unfold Wantlist.AddEntry Wantlist.Contains
  cases h : w.set.lookup e.Key <;> simp

theorem contains_AddEntry_ne (w : Wantlist) (e : Entry) (k' : key.Key) (hne : k' ≠ e.Key) :
    (w.AddEntry e).1.Contains k' = w.Contains k' := by
  unfold Wantlist.AddEntry Wantlist.Contains
  cases h : w.set.lookup e.Key <;> simp [AList.lookup_insert_ne hne]

theorem AddEntry_result (w : Wantlist) (e : Entry) :
    (w.AddEntry e).2 = (w.Contains e.Key).isNone := by
  unfold Wantlist.AddEntry Wantlist.Contains
  cases h : w.set.lookup e.Key <;> simp

/-- Two wantlists with the same entry under every key hold the same map slots,
up to the order of iteration. -/
theorem perm_of_contains_eq (w₁ w₂ : Wantlist)
    (h : ∀ k, w₁.Contains k = w₂.Contains k) : w₁.set.entries.Perm w₂.set.entries := by
  apply List.lookup_ext w₁.set.nodupKeys w₂.set.nodupKeys
  intro x y
  have hx := h x
  unfold Wantlist.Contains AList.lookup at hx
  rw [hx]

/-- C4: in a wantlist whose entries all have `RefCnt ≥ 1`, `Add(k, p)` followed
by `Remove(k)` gives back the same wantlist (the same entry under every key,
hence the same map up to iteration order); and for `k` absent, after two `Add`s
the first `Remove` returns false and keeps `k`, the second returns true and
deletes it. -/
theorem Add_then_Remove (w : Wantlist)
    (hw : ∀ k e, w.Contains k = some e → 1 ≤ e.RefCnt) (k : key.Key) (p : Int) :
    (∀ k', ((w.Add k p).1.Remove k).1.Contains k' = w.Contains k') ∧
    ((w.Add k p).1.Remove k).1.set.entries.Perm w.set.entries ∧
    (w.Contains k = none → ∀ p',
      ((((w.Add k p).1.Add k p').1.Remove k).2 = false ∧
       ((((w.Add k p).1.Add k p').1.Remove k).1.Contains k).isSome = true ∧
       ((((w.Add k p).1.Add k p').1.Remove k).1.Remove k).2 = true ∧
       ((((w.Add k p).1.Add k p').1.Remove k).1.Remove k).1.Contains k = none)) := by
  have h1 : ∀ k', ((w.Add k p).1.Remove k).1.Contains k' = w.Contains k' := by
    intro k'
    by_cases hk : k' = k
    · subst hk
      rw [contains_Remove_self, contains_Add_self]
      cases hc : w.Contains k' with
      | none => simp
      | some e =>
        have := hw k' e hc
        simp
        omega
    · rw [contains_Remove_ne _ _ _ hk, contains_Add_ne _ _ _ _ hk]
  refine ⟨h1, perm_of_contains_eq _ _ h1, ?_⟩
  intro habs p'
  have hA1 : (w.Add k p).1.Contains k = some { Key := k, Priority := p, RefCnt := 1 } := by
    rw [contains_Add_self, habs]
  have hA2 : ((w.Add k p).1.Add k p').1.Contains k
      = some { Key := k, Priority := p, RefCnt := 2 } := by
    rw [contains_Add_self, hA1]; rfl
  have hR1 : (((w.Add k p).1.Add k p').1.Remove k).1.Contains k
      = some { Key := k, Priority := p, RefCnt := 1 } := by
    rw [contains_Remove_self, hA2]; rfl
  refine ⟨?_, ?_, ?_, ?_⟩
  · rw [Remove_result, hA2]; rfl
  · rw [hR1]; rfl
  · rw [Remove_result, hR1]; rfl
  · rw [contains_Remove_self, hR1]; rfl

/-- C4 at a concrete wantlist holding `"b"` once, with `"a"` absent. -/
theorem Add_then_Remove_witness :
    (∀ k e, (New.Add "b" 1).1.Contains k = some e → 1 ≤ e.RefCnt) ∧
    ((((New.Add "b" 1).1.Add "b" 7).1.Remove "b").1.Contains "b"
      = (New.Add "b" 1).1.Contains "b") ∧
    (((((New.Add "b" 1).1.Add "a" 3).1.Add "a" 4).1.Remove "a").2 = false) := by
  have hw : ∀ k e, (New.Add "b" 1).1.Contains k = some e → 1 ≤ e.RefCnt := by
    intro k e h
    by_cases hk : k = "b"
    · subst hk
      have h2 : (New.Add "b" 1).1.Contains "b"
          = some { Key := "b", Priority := 1, RefCnt := 1 } := rfl
      rw [h2] at h
      cases h
      decide
    · rw [contains_Add_ne _ _ _ _ hk] at h
      cases h
  exact ⟨hw, (Add_then_Remove _ hw "b" 7).1 "b",
    ((Add_then_Remove _ hw "a" 3).2.2 rfl 4).1⟩

/-- C8: `AddEntry(e)` returns the boolean that `Add(e.Key, e.Priority)` returns
on the same wantlist, and afterwards the two wantlists hold the same keys with
the same priority under each key. -/
theorem AddEntry_like_Add (w : Wantlist) (e : Entry) :
    (w.AddEntry e).2 = (w.Add e.Key e.Priority).2 ∧
    (∀ k, ((w.AddEntry e).1.Contains k).isSome
        = ((w.Add e.Key e.Priority).1.Contains k).isSome) ∧
    (∀ k, ((w.AddEntry e).1.Contains k).map (fun x => x.Priority)
        = ((w.Add e.Key e.Priority).1.Contains k).map (fun x => x.Priority)) := by
  have h3 : ∀ k, ((w.AddEntry e).1.Contains k).map (fun x => x.Priority)
        = ((w.Add e.Key e.Priority).1.Contains k).map (fun x => x.Priority) := by
    intro k
    by_cases hk : k = e.Key
    · subst hk
      rw [contains_AddEntry_self, contains_Add_self]
      cases w.Contains e.Key <;> rfl
    · rw [contains_AddEntry_ne _ _ _ hk, contains_Add_ne _ _ _ _ hk]
  refine ⟨?_, ?_, h3⟩
  · rw [AddEntry_result, Add_result]
  · intro k
    have := congrArg Option.isSome (h3 k)
    simpa using this

end wantlist

namespace wantlist

/-! ## Wantlist: invariants of the reachable states -/

theorem contains_New (k : key.Key) : New.Contains k = none := rfl

theorem Keyed_Add (w : Wantlist) (hw : w.Keyed) (k : key.Key) (p : Int) :
    (w.Add k p).1.Keyed := by
  intro k' e' h
  by_cases hk : k' = k
  · subst hk
    rw [contains_Add_self] at h
    cases hc : w.Contains k' with
    | none => rw [hc] at h; cases h; rfl
    | some e => rw [hc] at h; cases h; exact hw k' e hc
  · rw [contains_Add_ne _ _ _ _ hk] at h
    exact hw k' e' h

theorem Keyed_AddEntry (w : Wantlist) (hw : w.Keyed) (e : Entry) :
    (w.AddEntry e).1.Keyed := by
  intro k' e' h
  by_cases hk : k' = e.Key
  · subst hk
    rw [contains_AddEntry_self] at h
    cases hc : w.Contains e.Key with
    | none => rw [hc] at h; cases h; rfl
    | some ex => rw [hc] at h; cases h; exact hw e.Key ex hc
  · rw [contains_AddEntry_ne _ _ _ hk] at h
    exact hw k' e' h

theorem Keyed_Remove (w : Wantlist) (hw : w.Keyed) (k : key.Key) :
    (w.Remove k).1.Keyed := by
  intro k' e' h
  by_cases hk : k' = k
  · subst hk
    rw [contains_Remove_self] at h
    cases hc : w.Contains k' with
    | none => rw [hc] at h; cases h
    | some e =>
      rw [hc] at h
      by_cases hz : e.RefCnt - 1 ≤ 0
      · simp [hz] at h
      · simp [hz] at h
        rw [← h]
        exact hw k' e hc
  · rw [contains_Remove_ne _ _ _ hk] at h
    exact hw k' e' h

theorem Counted_Add (w : Wantlist) (hw : w.Counted) (k : key.Key) (p : Int) :
    (w.Add k p).1.Counted := by
  intro k' e' h
  by_cases hk : k' = k
  · subst hk
    rw [contains_Add_self] at h
    cases hc : w.Contains k' with
    | none => rw [hc] at h; cases h; exact le_refl (1 : Int)
    | some e =>
      rw [hc] at h; cases h
      have := hw k' e hc
      show 1 ≤ e.RefCnt + 1
      omega
  · rw [contains_Add_ne _ _ _ _ hk] at h
    exact hw k' e' h

theorem Counted_AddEntry (w : Wantlist) (hw : w.Counted) (e : Entry) (he : 1 ≤ e.RefCnt) :
    (w.AddEntry e).1.Counted := by
  intro k' e' h
  by_cases hk : k' = e.Key
  · subst hk
    rw [contains_AddEntry_self] at h
    cases hc : w.Contains e.Key with
    | none => rw [hc] at h; cases h; exact he
    | some ex =>
      rw [hc] at h; cases h
      have := hw e.Key ex hc
      show 1 ≤ ex.RefCnt + 1
      omega
  · rw [contains_AddEntry_ne _ _ _ hk] at h
    exact hw k' e' h

theorem Counted_Remove (w : Wantlist) (hw : w.Counted) (k : key.Key) :
    (w.Remove k).1.Counted := by
  intro k' e' h
  by_cases hk : k' = k
  · subst hk
    rw [contains_Remove_self] at h
    cases hc : w.Contains k' with
    | none => rw [hc] at h; cases h
    | some e =>
      rw [hc] at h
      by_cases hz : e.RefCnt - 1 ≤ 0
      · simp [hz] at h
      · simp [hz] at h
        rw [← h]
        show 1 ≤ e.RefCnt - 1
        omega
  · rw [contains_Remove_ne _ _ _ hk] at h
    exact hw k' e' h

theorem Keyed_foldl (calls : List Call) (w : Wantlist) (hw : w.Keyed) :
    (calls.foldl Call.apply w).Keyed := by
  induction calls generalizing w with
  | nil => exact hw
  | cons c cs ih =>
    apply ih
    cases c with
    | Add k p => exact Keyed_Add w hw k p
    | AddEntry e => exact Keyed_AddEntry w hw e
    | Remove k => exact Keyed_Remove w hw k

theorem Counted_foldl (calls : List Call) (w : Wantlist) (hw : w.Counted)
    (h : ∀ e, Call.AddEntry e ∈ calls → 1 ≤ e.RefCnt) :
    (calls.foldl Call.apply w).Counted := by
  induction calls generalizing w with
  | nil => exact hw
  | cons c cs ih =>
    apply ih
    · cases c with
      | Add k p => exact Counted_Add w hw k p
      | AddEntry e => exact Counted_AddEntry w hw e (h e (List.mem_cons_self _ _))
      | Remove k => exact Counted_Remove w hw k
    · intro e he
      exact h e (List.mem_cons_of_mem _ he)

/-- C5 as stated fails: after the single call `AddEntry` of an entry built with
`RefCnt` 0, the wantlist reached from `New()` holds that entry, whose `RefCnt`
is below 1. -/
theorem reach_RefCnt_zero :
    (reach [Call.AddEntry { Key := "k", Priority := 0, RefCnt := 0 }]).Contains "k"
      = some { Key := "k", Priority := 0, RefCnt := 0 } ∧
    ¬ (1 ≤ (0 : Int)) := by
  refine ⟨by rfl, by decide⟩

/-- One call keeps every reference count between 1 and a bound that grows by
one, when an entry handed to `AddEntry` has its count between 1 and the
bound. -/
theorem Bounded_apply (w : Wantlist) (c : Call) (C : Int) (h0 : 0 ≤ C)
    (hw : ∀ k e, w.Contains k = some e → 1 ≤ e.RefCnt ∧ e.RefCnt ≤ C)
    (hc : ∀ e, c = Call.AddEntry e → 1 ≤ e.RefCnt ∧ e.RefCnt ≤ C) :
    ∀ k e, (Call.apply w c).Contains k = some e → 1 ≤ e.RefCnt ∧ e.RefCnt ≤ C + 1 := by
  intro k' e' h
  cases c with
  | Add k p =>
    simp only [Call.apply] at h
    by_cases hk : k' = k
    · subst hk
      rw [contains_Add_self] at h
      cases hx : w.Contains k' with
      | none =>
        rw [hx] at h; cases h
        show (1 : Int) ≤ 1 ∧ (1 : Int) ≤ C + 1
        omega
      | some e =>
        rw [hx] at h; cases h
        have := hw k' e hx
        show 1 ≤ e.RefCnt + 1 ∧ e.RefCnt + 1 ≤ C + 1
        omega
    · rw [contains_Add_ne _ _ _ _ hk] at h
      have := hw k' e' h
      omega
  | AddEntry e =>
    simp only [Call.apply] at h
    by_cases hk : k' = e.Key
    · subst hk
      rw [contains_AddEntry_self] at h
      cases hx : w.Contains e.Key with
      | none =>
        rw [hx] at h; cases h
        have := hc e rfl
        show 1 ≤ e.RefCnt ∧ e.RefCnt ≤ C + 1
        omega
      | some ex =>
        rw [hx] at h; cases h
        have := hw e.Key ex hx
        show 1 ≤ ex.RefCnt + 1 ∧ ex.RefCnt + 1 ≤ C + 1
        omega
    · rw [contains_AddEntry_ne _ _ _ hk] at h
      have := hw k' e' h
      omega
  | Remove k =>
    simp only [Call.apply] at h
    by_cases hk : k' = k
    · subst hk
      rw [contains_Remove_self] at h
      cases hx : w.Contains k' with
      | none => rw [hx] at h; cases h
      | some e =>
        rw [hx] at h
        have := hw k' e hx
        by_cases hz : e.RefCnt - 1 ≤ 0
        · simp [hz] at h
        · simp [hz] at h
          rw [← h]
          show 1 ≤ e.RefCnt - 1 ∧ e.RefCnt - 1 ≤ C + 1
          omega
    · rw [contains_Remove_ne _ _ _ hk] at h
      have := hw k' e' h
      omega

/-- A sequence of calls keeps every reference count between 1 and the bound
plus the number of calls. -/
theorem Bounded_foldl (calls : List Call) (w : Wantlist) (B C : Int) (hBC : B ≤ C)
    (h0 : 0 ≤ C) (hw : ∀ k e, w.Contains k = some e → 1 ≤ e.RefCnt ∧ e.RefCnt ≤ C)
    (h : ∀ e, Call.AddEntry e ∈ calls → 1 ≤ e.RefCnt ∧ e.RefCnt ≤ B) :
    ∀ k e, (calls.foldl Call.apply w).Contains k = some e →
      1 ≤ e.RefCnt ∧ e.RefCnt ≤ C + calls.length := by
  induction calls generalizing w C with
  | nil =>
    intro k e hk
    have := hw k e hk
    simp only [List.foldl_nil] at hk
    simp only [List.length_nil, Nat.cast_zero, add_zero]
    exact this
  | cons c cs ih =>
    intro k e hk
    simp only [List.foldl_cons] at hk
    have hstep := Bounded_apply w c C h0 hw (fun e' he' => by
      have := h e' (by rw [he']; exact List.mem_cons_self _ _)
      omega)
    have := ih (Call.apply w c) (C + 1) (by omega) (by omega) hstep
      (fun e' he' => h e' (List.mem_cons_of_mem _ he')) k e hk
    simp only [List.length_cons, Nat.cast_add, Nat.cast_one]
    omega

/-- C5 (amended): in every wantlist reached from `New()` by a finite sequence
of `Add`, `AddEntry` and `Remove` calls, the entry stored under key `k` has
`Key == k`; and when every entry handed to `AddEntry` has a `RefCnt` between 1
and a bound `B` at the call, with `B` plus the number of calls below `2^63`,
every entry that is present has `RefCnt ≥ 1` and below `2^63`.  Under that
bound no increment wraps around: before each call, every entry present has
`RefCnt + 1` below `2^63`, so that `RefCnt + 1` is the value an `int` holds
after `e.RefCnt++`. -/
theorem reach_invariant (calls : List Call) :
    (∀ k e, (reach calls).Contains k = some e → e.Key = k) ∧
    (∀ B : Int, 0 ≤ B → (∀ e, Call.AddEntry e ∈ calls → 1 ≤ e.RefCnt ∧ e.RefCnt ≤ B) →
      B + calls.length < 2 ^ 63 →
      (∀ k e, (reach calls).Contains k = some e → 1 ≤ e.RefCnt ∧ e.RefCnt < 2 ^ 63) ∧
      (∀ i, i < calls.length → ∀ k e, (reach (calls.take i)).Contains k = some e →
        1 ≤ e.RefCnt ∧ e.RefCnt + 1 < 2 ^ 63)) := by
  constructor
  · exact Keyed_foldl calls New (fun k e h => by rw [contains_New] at h; cases h)
  · intro B hB h hlen
    constructor
    · intro k e hk
      have := Bounded_foldl calls New B B (le_refl _) hB
        (fun k e h => by rw [contains_New] at h; cases h) h k e hk
      omega
    · intro i hi k e hk
      have := Bounded_foldl (calls.take i) New B B (le_refl _) hB
        (fun k e h => by rw [contains_New] at h; cases h)
        (fun e' he' => h e' (List.mem_of_mem_take he')) k e hk
      rw [List.length_take] at this
      have hmin : min i calls.length = i := by omega
      rw [hmin] at this
      omega

/-- C5 (amended) on a concrete run: two adds of `"a"`, one `AddEntry` of a
prebuilt entry with count 1, one remove. -/
theorem reach_invariant_witness :
    (∀ e, Call.AddEntry e ∈
        [Call.Add "a" 3, Call.AddEntry { Key := "a", Priority := 8, RefCnt := 1 },
         Call.Remove "a"] → 1 ≤ e.RefCnt ∧ e.RefCnt ≤ 1) ∧
    ((1 : Int) ≤ 2 - 1 ∧ (2 - 1 : Int) < 2 ^ 63) := by
  have hcalls : ∀ e, Call.AddEntry e ∈
      [Call.Add "a" 3, Call.AddEntry { Key := "a", Priority := 8, RefCnt := 1 },
       Call.Remove "a"] → 1 ≤ e.RefCnt ∧ e.RefCnt ≤ 1 := by
    intro e he
    simp at he
    subst he
    decide
  exact ⟨hcalls,
    ((reach_invariant _).2 1 (by decide) hcalls (by decide)).1 "a"
      { Key := "a", Priority := 3, RefCnt := 2 - 1 } rfl⟩

end wantlist

namespace wantlist

/-! ## Wantlist: reference counts as numbers -/

theorem refCnt_New (k : key.Key) : New.refCnt k = 0 := rfl

theorem Counted_New : New.Counted := fun k e h => by rw [contains_New] at h; cases h

theorem refCnt_AddEntry (w : Wantlist) (e : Entry) (he : e.RefCnt = 1) (k : key.Key) :
    (w.AddEntry e).1.refCnt k = w.refCnt k + (if k = e.Key then 1 else 0) := by
  unfold Wantlist.refCnt
  by_cases hk : k = e.Key
  · subst hk
    rw [contains_AddEntry_self]
    cases hc : w.Contains e.Key <;> simp [he]
  · rw [contains_AddEntry_ne _ _ _ hk]
    simp [hk]

theorem refCnt_Remove (w : Wantlist) (hw : w.Counted) (k₀ k : key.Key) :
    (w.Remove k₀).1.refCnt k = max 0 (w.refCnt k - (if k = k₀ then 1 else 0)) := by
  unfold Wantlist.refCnt
  by_cases hk : k = k₀
  · subst hk
    rw [contains_Remove_self]
    cases hc : w.Contains k with
    | none => simp
    | some e =>
      by_cases hz : e.RefCnt - 1 ≤ 0
      · simp [hz]
      · simp [hz]
        omega
  · rw [contains_Remove_ne _ _ _ hk]
    cases hc : w.Contains k with
    | none => simp [hk]
    | some e =>
      have := hw k e hc
      simp [hk]
      omega

theorem isSome_iff_refCnt_pos (w : Wantlist) (hw : w.Counted) (k : key.Key) :
    (w.Contains k).isSome = true ↔ 0 < w.refCnt k := by
  unfold Wantlist.refCnt
  cases hc : w.Contains k with
  | none => simp
  | some e =>
    have := hw k e hc
    simp
    omega

end wantlist

namespace bitswap

open wantlist

/-! ## Want manager: the `incoming` branch of `Run` -/

theorem forwarded_nil (wl : Wantlist) : Run.forwarded wl [] = [] := rfl

theorem forwarded_cons (wl : Wantlist) (e : bsmsg.Entry) (es : List bsmsg.Entry) :
    Run.forwarded wl (e :: es) =
      (if (Run.applyEntry wl e).2 then e :: Run.forwarded (Run.applyEntry wl e).1 es
       else Run.forwarded (Run.applyEntry wl e).1 es) := by
  unfold Run.forwarded
  cases h : (Run.applyEntry wl e).2 <;> simp [Run.results, h]

/-- The loop of the `incoming` branch threads the wantlist through the entries
and extends `filtered` by the forwarded entries. -/
theorem applyEntries_eq (es : List bsmsg.Entry) (wl : Wantlist) (filtered : List bsmsg.Entry) :
    Run.applyEntries wl filtered es =
      (es.foldl (fun w e => (Run.applyEntry w e).1) wl, filtered ++ Run.forwarded wl es) := by
  induction es generalizing wl filtered with
  | nil => simp [Run.applyEntries, forwarded_nil]
  | cons e es ih =>
    rw [forwarded_cons]
    unfold Run.applyEntries
    by_cases hc : e.Cancel = true
    · have ha : Run.applyEntry wl e = wl.Remove e.Key := by simp [Run.applyEntry, hc]
      simp only [hc, if_true, List.foldl_cons, ha]
      cases (wl.Remove e.Key).2 <;> simp [ih]
    · have hc' : e.Cancel = false := by simpa using hc
      have ha : Run.applyEntry wl e = wl.AddEntry e.Entry := by simp [Run.applyEntry, hc']
      simp only [hc', Bool.false_eq_true, if_false, List.foldl_cons, ha]
      cases (wl.AddEntry e.Entry).2 <;> simp [ih]

theorem forwarded_sublist (es : List bsmsg.Entry) (wl : Wantlist) :
    (Run.forwarded wl es).Sublist es := by
  induction es generalizing wl with
  | nil => exact List.Sublist.slnil
  | cons e es ih =>
    rw [forwarded_cons]
    cases (Run.applyEntry wl e).2
    · exact (ih _).cons e
    · exact (ih _).cons₂ e

theorem Run_incoming_wl (pm : WantManager) (entries : List bsmsg.Entry) :
    (pm.Run_incoming entries).wl
      = entries.foldl (fun w e => (Run.applyEntry w e).1) pm.wl := by
  unfold WantManager.Run_incoming
  simp [applyEntries_eq]

theorem wants_fold (kMax : Int) (ks : List key.Key) (i : Nat) (w : Wantlist) (hw : w.Counted) :
    ((addEntries.loop kMax false i ks).foldl (fun w e => (Run.applyEntry w e).1) w).Counted ∧
    ∀ k, ((addEntries.loop kMax false i ks).foldl
            (fun w e => (Run.applyEntry w e).1) w).refCnt k
          = w.refCnt k + (ks.count k : Int) := by
  induction ks generalizing i w with
  | nil => simp [addEntries.loop, hw]
  | cons k₀ ks ih =>
    simp only [addEntries.loop, List.foldl_cons]
    have ha : Run.applyEntry w
        { Entry := { Key := k₀, Priority := kMax - i, RefCnt := 1 }, Cancel := false }
        = w.AddEntry { Key := k₀, Priority := kMax - i, RefCnt := 1 } := by
      simp [Run.applyEntry]
    rw [ha]
    have hc := Counted_AddEntry w hw { Key := k₀, Priority := kMax - i, RefCnt := 1 }
      (le_refl (1 : Int))
    obtain ⟨h1, h2⟩ := ih (i + 1) _ hc
    refine ⟨h1, ?_⟩
    intro k
    rw [h2 k, refCnt_AddEntry _ _ rfl k, List.count_cons]
    by_cases hk : k = k₀
    · subst hk; simp; ring
    · have hk' : ¬ (k₀ = k) := fun h => hk h.symm
      simp [hk, hk']

theorem cancels_fold (kMax : Int) (ks : List key.Key) (i : Nat) (w : Wantlist)
    (hw : w.Counted) :
    ((addEntries.loop kMax true i ks).foldl (fun w e => (Run.applyEntry w e).1) w).Counted ∧
    ∀ k, ((addEntries.loop kMax true i ks).foldl
            (fun w e => (Run.applyEntry w e).1) w).refCnt k
          = max 0 (w.refCnt k - (ks.count k : Int)) := by
  induction ks generalizing i w with
  | nil =>
    refine ⟨by simpa [addEntries.loop] using hw, ?_⟩
    intro k
    simp only [addEntries.loop, List.foldl_nil, List.count_nil, Nat.cast_zero, sub_zero]
    have : 0 ≤ w.refCnt k := by
      unfold Wantlist.refCnt
      cases hc : w.Contains k with
      | none => simp
      | some e => have := hw k e hc; simp; omega
    omega
  | cons k₀ ks ih =>
    simp only [addEntries.loop, List.foldl_cons]
    have ha : Run.applyEntry w
        { Entry := { Key := k₀, Priority := kMax - i, RefCnt := 1 }, Cancel := true }
        = w.Remove k₀ := by
      simp [Run.applyEntry, bsmsg.Entry.Key]
    rw [ha]
    have hc := Counted_Remove w hw k₀
    obtain ⟨h1, h2⟩ := ih (i + 1) _ hc
    refine ⟨h1, ?_⟩
    intro k
    rw [h2 k, refCnt_Remove _ hw k₀ k, List.count_cons]
    by_cases hk : k = k₀
    · subst hk
      simp
      omega
    · have hk' : ¬ (k₀ = k) := fun h => hk h.symm
      simp [hk, hk']
      omega

end bitswap

namespace bitswap

open wantlist

theorem lookup_forEachPeer (f : msgQueue → msgQueue)
    (ps : AList (fun _ : peer.ID => msgQueue)) (p : peer.ID) :
    (forEachPeer f ps).lookup p = (ps.lookup p).map f := by
  unfold forEachPeer AList.lookup
  simp only
  induction ps.entries with
  | nil => rfl
  | cons x xs ih =>
    obtain ⟨a, b⟩ := x
    by_cases h : p = a
    · subst h
      simp [List.dlookup_cons_eq]
    · simp only [List.map_cons]
      rw [List.dlookup_cons_ne _ _ h, List.dlookup_cons_ne _ _ h]
      exact ih

/-- C3: starting from an empty wantlist, after the `Run` loop has processed the
batch of `WantBlocks(Ks1)` and then the batch of `CancelWants(Ks2)`, a key `k`
is in the wantlist iff it occurs more often in `Ks1` than in `Ks2`, and then its
entry is stored with `Key == k` and `RefCnt` equal to the difference of the two
counts. -/
theorem wantlist_after_wants_then_cancels (peers : AList (fun _ : peer.ID => msgQueue))
    (kMaxPriority : Int) (Ks1 Ks2 : List key.Key) (k : key.Key) :
    (((((WantManager.mk peers New).Run_incoming (WantBlocks kMaxPriority Ks1)).Run_incoming
        (CancelWants kMaxPriority Ks2)).wl.Contains k).isSome = true
      ↔ Ks2.count k < Ks1.count k) ∧
    (∀ e, (((WantManager.mk peers New).Run_incoming (WantBlocks kMaxPriority Ks1)).Run_incoming
        (CancelWants kMaxPriority Ks2)).wl.Contains k = some e →
      e.RefCnt = (Ks1.count k : Int) - (Ks2.count k : Int) ∧ e.Key = k) := by
  rw [Run_incoming_wl, Run_incoming_wl]
  unfold WantBlocks CancelWants addEntries
  obtain ⟨hc1, hr1⟩ := wants_fold kMaxPriority Ks1 0 New Counted_New
  obtain ⟨hc2, hr2⟩ := cancels_fold kMaxPriority Ks2 0 _ hc1
  have hrc := hr2 k
  rw [hr1 k, refCnt_New] at hrc
  constructor
  · rw [isSome_iff_refCnt_pos _ hc2 k, hrc]
    omega
  · intro e he
    have hpos : 0 < (((addEntries.loop kMaxPriority true 0 Ks2).foldl
        (fun w e => (Run.applyEntry w e).1)
        ((addEntries.loop kMaxPriority false 0 Ks1).foldl
          (fun w e => (Run.applyEntry w e).1) New)).refCnt k) := by
      rw [← isSome_iff_refCnt_pos _ hc2 k, he]; rfl
    have hval : (((addEntries.loop kMaxPriority true 0 Ks2).foldl
        (fun w e => (Run.applyEntry w e).1)
        ((addEntries.loop kMaxPriority false 0 Ks1).foldl
          (fun w e => (Run.applyEntry w e).1) New)).refCnt k) = e.RefCnt := by
      unfold Wantlist.refCnt
      rw [he]
    constructor
    · omega
    · have hkeyed : ∀ (es : List bsmsg.Entry) (w : Wantlist), w.Keyed →
          (es.foldl (fun w e => (Run.applyEntry w e).1) w).Keyed := by
        intro es
        induction es with
        | nil => intro w hw; exact hw
        | cons x xs ih =>
          intro w hw
          apply ih
          unfold Run.applyEntry
          by_cases hx : x.Cancel = true
          · simp only [hx, if_true]; exact Keyed_Remove w hw _
          · simp only [hx, if_false]; exact Keyed_AddEntry w hw _
      have hk0 : New.Keyed := fun k e h => by rw [contains_New] at h; cases h
      exact hkeyed _ _ (hkeyed _ _ hk0) k e he

/-- C3 on the keys of `TestWantlistCleanup`, shortened: wanting `k0` and
`k10, k11` and then cancelling `k10, k11` leaves `k0` and neither of the
others. -/
theorem wantlist_after_wants_then_cancels_witness :
    ((((WantManager.mk ∅ New).Run_incoming (WantBlocks 2147483647 ["k0", "k10", "k11"])).Run_incoming
        (CancelWants 2147483647 ["k10", "k11"])).wl.Contains "k0").isSome = true ∧
    ¬ ((((WantManager.mk ∅ New).Run_incoming
        (WantBlocks 2147483647 ["k0", "k10", "k11"])).Run_incoming
        (CancelWants 2147483647 ["k10", "k11"])).wl.Contains "k10").isSome = true :=
  ⟨(wantlist_after_wants_then_cancels ∅ 2147483647 ["k0", "k10", "k11"] ["k10", "k11"]
      "k0").1.2 (by decide),
   fun h => absurd ((wantlist_after_wants_then_cancels ∅ 2147483647 ["k0", "k10", "k11"]
      ["k10", "k11"] "k10").1.1 h) (by decide)⟩

theorem applyEntries_cancel_absent (kMax : Int) (ks : List key.Key) (i : Nat)
    (w : Wantlist) (filtered : List bsmsg.Entry) (h : ∀ k ∈ ks, w.Contains k = none) :
    Run.applyEntries w filtered (addEntries.loop kMax true i ks) = (w, filtered) := by
  induction ks generalizing i with
  | nil => rfl
  | cons k₀ ks ih =>
    unfold addEntries.loop Run.applyEntries
    have hrem : w.Remove k₀ = (w, false) := Remove_absent w k₀ (h k₀ (List.mem_cons_self _ _))
    simp only [if_true, bsmsg.Entry.Key, hrem, Bool.false_eq_true, if_false]
    exact ih (i + 1) (fun k hk => h k (List.mem_cons_of_mem _ hk))

/-- C6: cancelling a key that is not wanted changes nothing.  `Remove(k)` on a
wantlist without `k` returns false and the same wantlist; and when the `Run`
loop processes a `CancelWants` batch whose keys are all absent, the wantlist
is the same afterwards and the diff handed to every peer queue is empty. -/
theorem cancel_unwanted_noop (w : Wantlist) (k : key.Key) (hk : w.Contains k = none)
    (pm : WantManager) (kMaxPriority : Int) (ks : List key.Key)
    (hks : ∀ k ∈ ks, pm.wl.Contains k = none) :
    w.Remove k = (w, false) ∧
    Run.applyEntries pm.wl [] (CancelWants kMaxPriority ks) = (pm.wl, []) ∧
    (pm.Run_incoming (CancelWants kMaxPriority ks)).wl = pm.wl ∧
    (pm.Run_incoming (CancelWants kMaxPriority ks)).peers
      = forEachPeer (fun q => q.addMessage []) pm.peers := by
  have h2 : Run.applyEntries pm.wl [] (CancelWants kMaxPriority ks) = (pm.wl, []) :=
    applyEntries_cancel_absent kMaxPriority ks 0 pm.wl [] hks
  refine ⟨Remove_absent w k hk, h2, ?_, ?_⟩
  · unfold WantManager.Run_incoming
    rw [h2]
  · unfold WantManager.Run_incoming
    rw [h2]

/-- C6 at a concrete state: `"b"` is wanted, `"a"` and `"c"` are cancelled. -/
theorem cancel_unwanted_noop_witness :
    (New.Add "b" 1).1.Remove "a" = ((New.Add "b" 1).1, false) ∧
    Run.applyEntries (New.Add "b" 1).1 [] (CancelWants 2147483647 ["a", "c"])
      = ((New.Add "b" 1).1, []) := by
  have h := cancel_unwanted_noop (New.Add "b" 1).1 "a" rfl
    (WantManager.mk ∅ (New.Add "b" 1).1) 2147483647 ["a", "c"]
    (by
      intro k hk
      simp only [List.mem_cons, List.mem_singleton, List.not_mem_nil, or_false] at hk
      rcases hk with rfl | rfl <;> rfl)
  exact ⟨h.1, h.2.1⟩

/-- C9: when the `Run` loop processes an incoming batch, the diff given to
`addMessage` is the list of batch entries whose application to the wantlist
(`Remove` for a cancel entry, `AddEntry` for a want entry, from left to right)
returned true, in batch order; it is a subsequence of the batch, and every peer
queue is updated by `addMessage` with this same diff. -/
theorem diff_is_forwarded (pm : WantManager) (entries : List bsmsg.Entry) :
    (Run.results pm.wl entries).length = entries.length ∧
    (Run.applyEntries pm.wl [] entries).2
      = ((entries.zip (Run.results pm.wl entries)).filter (fun x => x.2)).map (fun x => x.1) ∧
    (Run.applyEntries pm.wl [] entries).2.Sublist entries ∧
    (pm.Run_incoming entries).peers
      = forEachPeer (fun q => q.addMessage (Run.applyEntries pm.wl [] entries).2) pm.peers ∧
    (∀ p, (pm.Run_incoming entries).peers.lookup p
      = (pm.peers.lookup p).map
          (fun q => q.addMessage (Run.applyEntries pm.wl [] entries).2)) := by
  have hlen : ∀ (es : List bsmsg.Entry) (w : Wantlist),
      (Run.results w es).length = es.length := by
    intro es
    induction es with
    | nil => intro w; rfl
    | cons x xs ih => intro w; simp [Run.results, ih]
  have h2 : (Run.applyEntries pm.wl [] entries).2 = Run.forwarded pm.wl entries := by
    rw [applyEntries_eq]; simp
  refine ⟨hlen _ _, ?_, ?_, ?_, ?_⟩
  · rw [h2]; rfl
  · rw [h2]; exact forwarded_sublist _ _
  · rfl
  · intro p
    unfold WantManager.Run_incoming
    exact lookup_forEachPeer _ _ _

end bitswap

namespace wantlist

/-! ## Wantlist: `Entries` and `SortedEntries` -/

theorem mem_Entries_iff (w : Wantlist) (e : Entry) :
    e ∈ w.Entries ↔ ∃ k, w.Contains k = some e := by
  unfold Wantlist.Entries Wantlist.Contains
  constructor
  · intro h
    obtain ⟨x, hx, rfl⟩ := List.mem_map.1 h
    exact ⟨x.1, Option.mem_def.1 (AList.mem_lookup_iff.2 hx)⟩
  · rintro ⟨k, hk⟩
    exact List.mem_map.2 ⟨⟨k, e⟩, AList.mem_lookup_iff.1 (Option.mem_def.2 hk), rfl⟩

/-- In a wantlist whose entries are stored under their own keys, the keys of
`Entries()` are the keys of the map, each once. -/
theorem Entries_keys (w : Wantlist) (hw : w.Keyed) :
    w.Entries.map (fun e => e.Key) = w.set.keys := by
  unfold Wantlist.Entries AList.keys List.keys
  rw [List.map_map]
  apply List.map_congr_left
  intro x hx
  have hx' : w.Contains x.1 = some x.2 := by
    unfold Wantlist.Contains
    exact Option.mem_def.1 (AList.mem_lookup_iff.2 (by cases x; exact hx))
  exact hw x.1 x.2 hx'

theorem sort_Sort_perm (es : List Entry) : (sort_Sort es).Perm es :=
  List.perm_insertionSort _ es

theorem sort_Sort_sorted (es : List Entry) :
    List.Pairwise (fun a b => b.Priority ≤ a.Priority) (sort_Sort es) := by
  haveI : IsTotal Entry (fun a b => entrySlice.Less b a = false) :=
    ⟨fun a b => by
      unfold entrySlice.Less
      simp only [decide_eq_false_iff_not, gt_iff_lt, not_lt]
      exact le_total _ _⟩
  haveI : IsTrans Entry (fun a b => entrySlice.Less b a = false) :=
    ⟨fun a b c hab hbc => by
      unfold entrySlice.Less at *
      simp only [decide_eq_false_iff_not, gt_iff_lt, not_lt] at *
      exact le_trans hbc hab⟩
  have h := List.sorted_insertionSort (fun a b => entrySlice.Less b a = false) es
  refine List.Pairwise.imp ?_ h
  intro a b hab
  unfold entrySlice.Less at hab
  simpa using hab

/-- C7: `SortedEntries()` is a permutation of `Entries()`, so it has `Len()`
elements and holds exactly the entries stored in the map (each key of a
wantlist that stores entries under their own keys exactly once), and its
priorities are non-increasing from first to last. -/
theorem SortedEntries_spec (w : Wantlist) :
    w.SortedEntries.Perm w.Entries ∧
    w.SortedEntries.length = w.Len ∧
    (∀ e, e ∈ w.SortedEntries ↔ ∃ k, w.Contains k = some e) ∧
    (w.Keyed → (w.SortedEntries.map (fun e => e.Key)).Perm w.set.keys ∧
      (w.SortedEntries.map (fun e => e.Key)).Nodup) ∧
    List.Pairwise (fun a b => b.Priority ≤ a.Priority) w.SortedEntries := by
  have hperm : w.SortedEntries.Perm w.Entries := sort_Sort_perm _
  refine ⟨hperm, ?_, ?_, ?_, sort_Sort_sorted _⟩
  · rw [hperm.length_eq]
    unfold Wantlist.Entries Wantlist.Len
    exact List.length_map _ _
  · intro e
    rw [hperm.mem_iff]
    exact mem_Entries_iff w e
  · intro hw
    have hp : (w.SortedEntries.map (fun e => e.Key)).Perm w.set.keys := by
      rw [← Entries_keys w hw]
      exact hperm.map _
    exact ⟨hp, hp.nodup_iff.2 w.set.keys_nodup⟩

/-- C7 on a wantlist with priorities 1, 7 and 3: `SortedEntries()` lists each
key once, in the order of priorities 7, 3, 1. -/
theorem SortedEntries_spec_witness :
    (((New.Add "a" 1).1.Add "b" 7).1.Add "c" 3).1.Keyed ∧
    (((((New.Add "a" 1).1.Add "b" 7).1.Add "c" 3).1.SortedEntries.map
      (fun e => e.Key)).Nodup) ∧
    ((((New.Add "a" 1).1.Add "b" 7).1.Add "c" 3).1.SortedEntries.map
      (fun e => e.Priority)) = [7, 3, 1] := by
  have hk : (((New.Add "a" 1).1.Add "b" 7).1.Add "c" 3).1.Keyed :=
    Keyed_Add _ (Keyed_Add _ (Keyed_Add _
      (fun k e h => by rw [contains_New] at h; cases h) _ _) _ _) _ _
  exact ⟨hk, ((SortedEntries_spec _).2.2.2.1 hk).2, by decide⟩

end wantlist

namespace bitswap

open wantlist

/-! ## Want manager: a new peer -/

theorem AddEntry_full (m : bsmsg.BitSwapMessage) (k : key.Key) (p : Int) :
    (m.AddEntry k p).full = m.full ∧ (m.AddEntry k p).blocks = m.blocks := ⟨rfl, rfl⟩

/-- Adding wants for entries with pairwise distinct keys, none of them in the
message yet, puts one want per entry in front of what the message held. -/
theorem foldl_AddEntry (es : List wantlist.Entry) (m : bsmsg.BitSwapMessage)
    (hnd : (es.map (fun e => e.Key)).Nodup) (hdisj : ∀ e ∈ es, e.Key ∉ m.wantlist) :
    (es.foldl (fun m e => m.AddEntry e.Key e.Priority) m).wantlist.entries
      = es.reverse.map (fun e => (⟨e.Key,
          { Entry := { Key := e.Key, Priority := e.Priority, RefCnt := 0 },
            Cancel := false }⟩ : Sigma (fun _ : key.Key => bsmsg.Entry)))
        ++ m.wantlist.entries ∧
    (es.foldl (fun m e => m.AddEntry e.Key e.Priority) m).full = m.full ∧
    (es.foldl (fun m e => m.AddEntry e.Key e.Priority) m).blocks = m.blocks := by
  induction es generalizing m with
  | nil => simp
  | cons e es ih =>
    rw [List.map_cons, List.nodup_cons] at hnd
    have hnot : e.Key ∉ m.wantlist := hdisj e (List.mem_cons_self _ _)
    have hdisj' : ∀ e' ∈ es, e'.Key ∉ (m.AddEntry e.Key e.Priority).wantlist := by
      intro e' he' hmem
      unfold bsmsg.BitSwapMessage.AddEntry at hmem
      rcases (AList.mem_insert _).1 hmem with h | h
      · exact hnd.1 (List.mem_map.2 ⟨e', he', h⟩)
      · exact hdisj e' (List.mem_cons_of_mem _ he') h
    obtain ⟨h1, h2, h3⟩ := ih (m.AddEntry e.Key e.Priority) hnd.2 hdisj'
    simp only [List.foldl_cons]
    refine ⟨?_, ?_, ?_⟩
    · rw [h1]
      unfold bsmsg.BitSwapMessage.AddEntry
      simp only [AList.insert_entries_of_neg hnot, List.reverse_cons, List.map_append,
        List.map_cons, List.map_nil, List.append_assoc, List.singleton_append]
    · rw [h2]; rfl
    · rw [h3]; rfl

/-- C10: for a want manager whose wantlist stores every entry under its own
key, and a peer `p` without a queue, `startPeerHandler(p)` returns and
registers a queue for `p` with refcnt 1 and the work signal set, whose pending
message is full, carries no blocks and holds under every key `k` a want with
the key and priority of the wantlist entry for `k` when there is one, and
nothing otherwise (so as many entries as the wantlist has); the wantlist and
the queues of the other peers are unchanged. -/
theorem startPeerHandler_new_peer (pm : WantManager) (p : peer.ID)
    (hwl : pm.wl.Keyed) (hp : pm.peers.lookup p = none) :
    ∃ mq m,
      (pm.startPeerHandler p).2 = some mq ∧
      (pm.startPeerHandler p).1.peers.lookup p = some mq ∧
      mq.p = p ∧ mq.refcnt = 1 ∧ mq.work = true ∧ mq.done = false ∧
      mq.out = some m ∧ m.full = true ∧ m.blocks = [] ∧
      (∀ k, (m.wantlist.lookup k).map (fun x => (x.Key, x.Priority, x.Cancel))
          = (pm.wl.Contains k).map (fun e => (e.Key, e.Priority, false))) ∧
      (∀ k x, m.wantlist.lookup k = some x → x.Key = k) ∧
      m.wantlist.entries.length = pm.wl.Len ∧
      (pm.startPeerHandler p).1.wl = pm.wl ∧
      (∀ q, q ≠ p → (pm.startPeerHandler p).1.peers.lookup q = pm.peers.lookup q) := by
  have hnd : (pm.wl.Entries.map (fun e => e.Key)).Nodup := by
    rw [Entries_keys _ hwl]; exact pm.wl.set.keys_nodup
  obtain ⟨h1, h2, h3⟩ := foldl_AddEntry pm.wl.Entries (bsmsg.New true) hnd
    (fun e _ h => by cases h)
  have hent : ∀ (k : key.Key) (x : bsmsg.Entry),
      (pm.wl.Entries.foldl (fun m e => m.AddEntry e.Key e.Priority)
        (bsmsg.New true)).wantlist.lookup k = some x ↔
      ∃ e, pm.wl.Contains k = some e ∧
        x = { Entry := { Key := k, Priority := e.Priority, RefCnt := 0 }, Cancel := false } := by
    intro k x
    rw [← Option.mem_def, AList.mem_lookup_iff, h1]
    simp only [bsmsg.New, AList.empty_entries, List.append_nil, List.mem_map,
      List.mem_reverse]
    constructor
    · rintro ⟨e, he, heq⟩
      obtain ⟨k', hk'⟩ := (mem_Entries_iff _ _).1 he
      have hkk : e.Key = k' := hwl k' e hk'
      have hk1 : e.Key = k := congrArg Sigma.fst heq
      subst hk1
      refine ⟨e, by rw [hkk]; exact hk', ?_⟩
      cases heq
      rfl
    · rintro ⟨e, he, rfl⟩
      have hkk : e.Key = k := hwl k e he
      subst hkk
      exact ⟨e, (mem_Entries_iff _ _).2 ⟨_, he⟩, rfl⟩
  unfold WantManager.startPeerHandler
  rw [hp]
  refine ⟨_, _, rfl, ?_, rfl, rfl, rfl, rfl, rfl, ?_, ?_, ?_, ?_, ?_, rfl, ?_⟩
  · exact AList.lookup_insert _
  · exact h2
  · exact h3
  · intro k
    cases hc : pm.wl.Contains k with
    | none =>
      have hnone : (pm.wl.Entries.foldl (fun m e => m.AddEntry e.Key e.Priority)
          (bsmsg.New true)).wantlist.lookup k = none := by
        cases hl : (pm.wl.Entries.foldl (fun m e => m.AddEntry e.Key e.Priority)
          (bsmsg.New true)).wantlist.lookup k with
        | none => rfl
        | some x =>
          obtain ⟨e, he, _⟩ := (hent k x).1 hl
          rw [hc] at he; cases he
      rw [hnone]; rfl
    | some e =>
      have hsome := (hent k _).2 ⟨e, hc, rfl⟩
      rw [hsome]
      have hkk : e.Key = k := hwl k e hc
      simp [bsmsg.Entry.Key, bsmsg.Entry.Priority, hkk]
  · intro k x hx
    obtain ⟨e, _, rfl⟩ := (hent k x).1 hx
    rfl
  · rw [h1]
    simp [bsmsg.New, Wantlist.Entries, Wantlist.Len]
  · intro q hq
    exact AList.lookup_insert_ne hq

/-- C10 at a concrete state: one wanted key, one connected peer, and a new
peer. -/
theorem startPeerHandler_new_peer_witness :
    (New.Add "a" 5).1.Keyed ∧
    (((WantManager.mk ∅ (New.Add "a" 5).1).startPeerHandler "P").1.startPeerHandler "Q").1.wl
      = (New.Add "a" 5).1 ∧
    (((WantManager.mk ∅ (New.Add "a" 5).1).startPeerHandler "P").1.startPeerHandler
      "Q").1.peers.lookup "P"
      = ((WantManager.mk ∅ (New.Add "a" 5).1).startPeerHandler "P").1.peers.lookup "P" := by
  have hk : (New.Add "a" 5).1.Keyed :=
    Keyed_Add _ (fun k e h => by rw [contains_New] at h; cases h) _ _
  obtain ⟨mq, m, h⟩ := startPeerHandler_new_peer
    ((WantManager.mk ∅ (New.Add "a" 5).1).startPeerHandler "P").1 "Q" hk rfl
  exact ⟨hk, h.2.2.2.2.2.2.2.2.2.2.2.2.1, h.2.2.2.2.2.2.2.2.2.2.2.2.2 "P" (by decide)⟩

end bitswap

namespace bitswap

open wantlist

/-! ## Want manager: connects and disconnects -/

theorem startPeerHandler_new (s : WantManager) (p : peer.ID) (h : s.peers.lookup p = none) :
    s.startPeerHandler p
      = ({ s with peers := s.peers.insert p (seedQueue s.wl p) }, some (seedQueue s.wl p)) := by
  unfold WantManager.startPeerHandler
  rw [h]
  rfl

theorem startPeerHandler_existing (s : WantManager) (p : peer.ID) (q : msgQueue)
    (h : s.peers.lookup p = some q) :
    s.startPeerHandler p
      = ({ s with peers := s.peers.insert p { q with refcnt := q.refcnt + 1 } }, none) := by
  unfold WantManager.startPeerHandler
  rw [h]

theorem stopPeerHandler_absent (s : WantManager) (p : peer.ID) (h : s.peers.lookup p = none) :
    s.stopPeerHandler p = (s, none) := by
  unfold WantManager.stopPeerHandler
  rw [h]

theorem stopPeerHandler_keep (s : WantManager) (p : peer.ID) (q : msgQueue)
    (h : s.peers.lookup p = some q) (hr : 0 < q.refcnt - 1) :
    s.stopPeerHandler p
      = ({ s with peers := s.peers.insert p { q with refcnt := q.refcnt - 1 } }, none) := by
  unfold WantManager.stopPeerHandler
  rw [h]
  simp [hr]

theorem stopPeerHandler_last (s : WantManager) (p : peer.ID) (q : msgQueue)
    (h : s.peers.lookup p = some q) (hr : ¬ 0 < q.refcnt - 1) :
    s.stopPeerHandler p
      = ({ s with peers := s.peers.erase p },
         some { q with refcnt := q.refcnt - 1, done := true }) := by
  unfold WantManager.stopPeerHandler
  rw [h]
  simp [hr]

/-- After `n + 1` connects of a peer without a queue, the peer has the seeded
queue with refcnt `n + 1`. -/
theorem lookup_connects (pm : WantManager) (p : peer.ID) (hp : pm.peers.lookup p = none)
    (n : Nat) :
    (pm.connects p (n + 1)).peers.lookup p
      = some { seedQueue pm.wl p with refcnt := (n : Int) + 1 } := by
  induction n with
  | zero =>
    show ((pm.startPeerHandler p).1).peers.lookup p = _
    rw [startPeerHandler_new pm p hp]
    simp [seedQueue, newMsgQueue]
  | succ k ih =>
    show (((pm.connects p (k + 1)).startPeerHandler p).1).peers.lookup p = _
    rw [startPeerHandler_existing _ p _ ih]
    simp only [AList.lookup_insert]
    push_cast
    rfl

/-- From a state where the peer's queue has refcnt `r`, `m < r` disconnects
leave the queue with refcnt `r - m`. -/
theorem lookup_disconnects_lt (s : WantManager) (p : peer.ID) (q : msgQueue)
    (h : s.peers.lookup p = some q) (m : Nat) (hm : (m : Int) < q.refcnt) :
    (s.disconnects p m).peers.lookup p = some { q with refcnt := q.refcnt - m } := by
  induction m with
  | zero => simpa [WantManager.disconnects] using h
  | succ k ih =>
    have hk : (k : Int) < q.refcnt := by push_cast at hm; omega
    have ih' := ih hk
    show (((s.disconnects p k).stopPeerHandler p).1).peers.lookup p = _
    rw [stopPeerHandler_keep _ p _ ih' (by simp only; push_cast at hm; omega)]
    simp only [AList.lookup_insert]
    push_cast
    congr 2
    ring

/-- C11: for a peer `p` without a queue, after `n ≥ 1` connects and then
`m ≤ n` disconnects, `p` has a queue iff `m < n`, and it is the queue seeded at
the first connect with refcnt `n - m`; the `j + 1`-th disconnect closes `done`
and removes the queue exactly when `j + 1 = n`.  A connect of a peer that has a
queue only increments its refcnt; a disconnect of a peer without a queue
changes nothing; and both handlers keep every refcnt in the peer map at 1 or
more. -/
theorem peer_queue_refcount (pm : WantManager) (p : peer.ID)
    (hp : pm.peers.lookup p = none) (n m : Nat) (hn : 1 ≤ n) (hm : m ≤ n) :
    (m < n → ((pm.connects p n).disconnects p m).peers.lookup p
        = some { seedQueue pm.wl p with refcnt := (n : Int) - m }) ∧
    (m = n → ((pm.connects p n).disconnects p m).peers.lookup p = none) ∧
    (∀ j, j < n → (((pm.connects p n).disconnects p j).stopPeerHandler p).2
        = if j + 1 = n then some { seedQueue pm.wl p with refcnt := 0, done := true }
          else none) ∧
    (∀ (s : WantManager) (q : msgQueue), s.peers.lookup p = some q →
        s.startPeerHandler p
          = ({ s with peers := s.peers.insert p { q with refcnt := q.refcnt + 1 } }, none)) ∧
    (∀ s : WantManager, s.peers.lookup p = none → s.stopPeerHandler p = (s, none)) ∧
    (∀ (s : WantManager) (p' : peer.ID), s.Connected →
        (s.startPeerHandler p').1.Connected ∧ (s.stopPeerHandler p').1.Connected) := by
  obtain ⟨n', rfl⟩ : ∃ n', n = n' + 1 := ⟨n - 1, by omega⟩
  have hc := lookup_connects pm p hp n'
  have hlt : ∀ j, j < n' + 1 →
      ((pm.connects p (n' + 1)).disconnects p j).peers.lookup p
        = some { seedQueue pm.wl p with refcnt := ((n' + 1 : Nat) : Int) - j } := by
    intro j hj
    have := lookup_disconnects_lt _ p _ hc j (by simp only; omega)
    rw [this]
    simp
  have hstop : ∀ j, j < n' + 1 →
      ((pm.connects p (n' + 1)).disconnects p j).stopPeerHandler p
        = if j + 1 = n' + 1 then
            ({ (pm.connects p (n' + 1)).disconnects p j with
                peers := ((pm.connects p (n' + 1)).disconnects p j).peers.erase p },
             some { seedQueue pm.wl p with refcnt := 0, done := true })
          else
            ({ (pm.connects p (n' + 1)).disconnects p j with
                peers := ((pm.connects p (n' + 1)).disconnects p j).peers.insert p
                  { seedQueue pm.wl p with refcnt := ((n' + 1 : Nat) : Int) - j - 1 } },
             none) := by
    intro j hj
    by_cases hlast : j + 1 = n' + 1
    · rw [if_pos hlast]
      rw [stopPeerHandler_last _ p _ (hlt j hj) (by simp only; push_cast; omega)]
      have : ((n' : Int) + 1) - j - 1 = 0 := by omega
      simp [this]
    · rw [if_neg hlast]
      rw [stopPeerHandler_keep _ p _ (hlt j hj) (by simp only; push_cast; omega)]
  refine ⟨?_, ?_, ?_, ?_, ?_, ?_⟩
  · intro hmn
    exact hlt m hmn
  · intro hmn
    obtain ⟨j, rfl⟩ : ∃ j, m = j + 1 := ⟨m - 1, by omega⟩
    show (((pm.connects p (n' + 1)).disconnects p j).stopPeerHandler p).1.peers.lookup p = none
    rw [hstop j (by omega), if_pos hmn]
    exact AList.lookup_erase _ _
  · intro j hj
    rw [hstop j hj]
    by_cases hlast : j + 1 = n' + 1 <;> simp [hlast]
  · intro s q hq
    exact startPeerHandler_existing s p q hq
  · intro s hs
    exact stopPeerHandler_absent s p hs
  · intro s p' hs
    constructor
    · intro p'' q hq
      cases hl : s.peers.lookup p' with
      | none =>
        rw [startPeerHandler_new s p' hl] at hq
        by_cases hpp : p'' = p'
        · subst hpp
          simp only [AList.lookup_insert] at hq
          cases hq
          simp [seedQueue, newMsgQueue]
        · simp only [AList.lookup_insert_ne hpp] at hq
          exact hs p'' q hq
      | some q' =>
        rw [startPeerHandler_existing s p' q' hl] at hq
        by_cases hpp : p'' = p'
        · subst hpp
          simp only [AList.lookup_insert] at hq
          cases hq
          have := hs p'' q' hl
          simp only
          omega
        · simp only [AList.lookup_insert_ne hpp] at hq
          exact hs p'' q hq
    · intro p'' q hq
      cases hl : s.peers.lookup p' with
      | none =>
        rw [stopPeerHandler_absent s p' hl] at hq
        exact hs p'' q hq
      | some q' =>
        by_cases hr : 0 < q'.refcnt - 1
        · rw [stopPeerHandler_keep s p' q' hl hr] at hq
          by_cases hpp : p'' = p'
          · subst hpp
            simp only [AList.lookup_insert] at hq
            cases hq
            simp only
            omega
          · simp only [AList.lookup_insert_ne hpp] at hq
            exact hs p'' q hq
        · rw [stopPeerHandler_last s p' q' hl hr] at hq
          by_cases hpp : p'' = p'
          · subst hpp
            simp only [AList.lookup_erase] at hq
            cases hq
          · simp only [AList.lookup_erase_ne hpp] at hq
            exact hs p'' q hq

end bitswap

namespace bitswap

open wantlist

/-- C11 for two connects and one disconnect of a new peer: the seeded queue
is left with refcnt 1. -/
theorem peer_queue_refcount_witness :
    (((WantManager.mk ∅ New).connects "P" 2).disconnects "P" 1).peers.lookup "P"
      = some { seedQueue New "P" with refcnt := ((2 : Nat) : Int) - (1 : Nat) } :=
  (peer_queue_refcount (WantManager.mk ∅ New) "P" rfl 2 1 (by decide) (by decide)).1
    (by decide)

/-! ## Peer queue: merging entries into the pending message -/

theorem merge_full (es : List bsmsg.Entry) (m : bsmsg.BitSwapMessage) :
    (es.foldl (fun m e => if e.Cancel then m.Cancel e.Key else m.AddEntry e.Key e.Priority)
        m).full = m.full ∧
    (es.foldl (fun m e => if e.Cancel then m.Cancel e.Key else m.AddEntry e.Key e.Priority)
        m).blocks = m.blocks := by
  induction es generalizing m with
  | nil => exact ⟨rfl, rfl⟩
  | cons e es ih =>
    simp only [List.foldl_cons]
    obtain ⟨h1, h2⟩ := ih (if e.Cancel then m.Cancel e.Key else m.AddEntry e.Key e.Priority)
    rw [h1, h2]
    cases e.Cancel <;> exact ⟨rfl, rfl⟩

/-- Entries whose keys differ from `k` leave the pending entry for `k` as it
is. -/
theorem merge_untouched (es : List bsmsg.Entry) (m : bsmsg.BitSwapMessage) (k : key.Key)
    (h : ∀ e ∈ es, e.Key ≠ k) :
    (es.foldl (fun m e => if e.Cancel then m.Cancel e.Key else m.AddEntry e.Key e.Priority)
        m).wantlist.lookup k = m.wantlist.lookup k := by
  induction es generalizing m with
  | nil => rfl
  | cons e es ih =>
    simp only [List.foldl_cons]
    rw [ih _ (fun e' he' => h e' (List.mem_cons_of_mem _ he'))]
    have hne : k ≠ e.Key := fun hk => h e (List.mem_cons_self _ _) hk.symm
    cases e.Cancel
    · simp [bsmsg.BitSwapMessage.AddEntry, AList.lookup_insert_ne hne]
    · simp [bsmsg.BitSwapMessage.Cancel, AList.lookup_insert_ne hne]

/-- One entry merged into a message: the message then holds, under the
entry's key, a cancel or a want with the entry's priority. -/
theorem merge_one (m : bsmsg.BitSwapMessage) (e : bsmsg.Entry) :
    ∃ x, (if e.Cancel then m.Cancel e.Key else m.AddEntry e.Key e.Priority).wantlist.lookup
        e.Key = some x ∧
      x.Key = e.Key ∧ x.Cancel = e.Cancel ∧ (e.Cancel = false → x.Priority = e.Priority) := by
  cases hc : e.Cancel
  · refine ⟨{ Entry := { Key := e.Key, Priority := e.Priority, RefCnt := 0 }, Cancel := false },
      ?_, rfl, rfl, fun _ => rfl⟩
    simp [bsmsg.BitSwapMessage.AddEntry]
  · refine ⟨{ Entry := { Key := e.Key, Priority := 0, RefCnt := 0 }, Cancel := true },
      ?_, rfl, rfl, fun h => by cases h⟩
    simp [bsmsg.BitSwapMessage.Cancel]

theorem addMessage_out (mq : msgQueue) (entries : List bsmsg.Entry) :
    (mq.addMessage entries).out = some (entries.foldl
      (fun m e => if e.Cancel then m.Cancel e.Key else m.AddEntry e.Key e.Priority)
      (mq.out.getD (bsmsg.New false))) := by
  unfold msgQueue.addMessage
  cases mq.out <;> rfl

/-- C13: after `addMessage(entries)` a message is pending (the one held
before, or a new non-full one when none was held) in which, for every batch
entry `e` that no later batch entry shares its key with, there is exactly one
entry under `e.Key`, a cancel when `e` is a cancel and otherwise a want with
the priority of `e`; entries under keys that the batch does not mention are as
before; flag and blocks of the message are kept and the work signal is set. -/
theorem addMessage_coalesces (mq : msgQueue) (entries : List bsmsg.Entry) :
    ∃ m', (mq.addMessage entries).out = some m' ∧
      (∀ pre e post, entries = pre ++ e :: post → (∀ e' ∈ post, e'.Key ≠ e.Key) →
        ∃ x, m'.wantlist.lookup e.Key = some x ∧ x.Key = e.Key ∧ x.Cancel = e.Cancel ∧
          (e.Cancel = false → x.Priority = e.Priority) ∧
          m'.wantlist.keys.count e.Key = 1) ∧
      (∀ k, (∀ e ∈ entries, e.Key ≠ k) →
        m'.wantlist.lookup k = (mq.out.getD (bsmsg.New false)).wantlist.lookup k) ∧
      m'.full = (mq.out.getD (bsmsg.New false)).full ∧
      m'.blocks = (mq.out.getD (bsmsg.New false)).blocks ∧
      (mq.addMessage entries).work = true := by
  refine ⟨_, addMessage_out mq entries, ?_, ?_, (merge_full _ _).1, (merge_full _ _).2, rfl⟩
  · intro pre e post hsplit hpost
    subst hsplit
    rw [List.foldl_append, List.foldl_cons]
    obtain ⟨x, hx, h1, h2, h3⟩ := merge_one
      (pre.foldl (fun m e => if e.Cancel then m.Cancel e.Key else m.AddEntry e.Key e.Priority)
        (mq.out.getD (bsmsg.New false))) e
    have hl := merge_untouched post
      (if e.Cancel then
        (pre.foldl (fun m e => if e.Cancel then m.Cancel e.Key else m.AddEntry e.Key e.Priority)
          (mq.out.getD (bsmsg.New false))).Cancel e.Key
       else
        (pre.foldl (fun m e => if e.Cancel then m.Cancel e.Key else m.AddEntry e.Key e.Priority)
          (mq.out.getD (bsmsg.New false))).AddEntry e.Key e.Priority) e.Key hpost
    rw [hx] at hl
    refine ⟨x, hl, h1, h2, h3, ?_⟩
    apply List.count_eq_one_of_mem (AList.keys_nodup _)
    rw [← AList.mem_keys, ← AList.lookup_isSome, hl]
    rfl
  · intro k hk
    exact merge_untouched entries _ k hk

/-- C13 on a queue holding a want for `"a"`: a batch that wants `"a"` at 7
and then cancels it leaves a cancel for `"a"`. -/
theorem addMessage_coalesces_witness :
    ∃ m', ((seedQueue (New.Add "a" 5).1 "P").addMessage
        [{ Entry := { Key := "a", Priority := 7, RefCnt := 1 }, Cancel := false },
         { Entry := { Key := "a", Priority := 0, RefCnt := 1 }, Cancel := true }]).out = some m' ∧
      ∃ x, m'.wantlist.lookup "a" = some x ∧ x.Cancel = true := by
  obtain ⟨m', h1, h2, _⟩ := addMessage_coalesces (seedQueue (New.Add "a" 5).1 "P")
    [{ Entry := { Key := "a", Priority := 7, RefCnt := 1 }, Cancel := false },
     { Entry := { Key := "a", Priority := 0, RefCnt := 1 }, Cancel := true }]
  obtain ⟨x, hx, _, hc, _⟩ := h2
    [{ Entry := { Key := "a", Priority := 7, RefCnt := 1 }, Cancel := false }]
    { Entry := { Key := "a", Priority := 0, RefCnt := 1 }, Cancel := true } [] rfl
    (fun e' he' => by cases he')
  exact ⟨m', h1, x, hx, hc⟩

end bitswap

namespace bitswap

open wantlist

/-! ## Peer queue: the full wantlist message and the `full` flag -/

/-- The message built from `bsmsg.New(true)` by adding every entry of a
wantlist that stores entries under their own keys: it is full, carries no
blocks, and holds under each key a want with the key and priority of the
wantlist entry, and nothing else. -/
theorem fullwantlist_spec (wl : Wantlist) (hwl : wl.Keyed) :
    (wl.Entries.foldl (fun m e => m.AddEntry e.Key e.Priority) (bsmsg.New true)).full = true ∧
    (wl.Entries.foldl (fun m e => m.AddEntry e.Key e.Priority) (bsmsg.New true)).blocks = [] ∧
    (wl.Entries.foldl (fun m e => m.AddEntry e.Key e.Priority)
      (bsmsg.New true)).wantlist.entries.length = wl.Len ∧
    (∀ k, ((wl.Entries.foldl (fun m e => m.AddEntry e.Key e.Priority)
        (bsmsg.New true)).wantlist.lookup k).map (fun x => (x.Key, x.Priority, x.Cancel))
      = (wl.Contains k).map (fun e => (e.Key, e.Priority, false))) := by
  have hnd : (wl.Entries.map (fun e => e.Key)).Nodup := by
    rw [Entries_keys _ hwl]; exact wl.set.keys_nodup
  obtain ⟨h1, h2, h3⟩ := foldl_AddEntry wl.Entries (bsmsg.New true) hnd
    (fun e _ h => by cases h)
  refine ⟨h2, h3, ?_, ?_⟩
  · rw [h1]
    simp [bsmsg.New, Wantlist.Entries, Wantlist.Len]
  · intro k
    have hmem : ∀ x : bsmsg.Entry,
        (wl.Entries.foldl (fun m e => m.AddEntry e.Key e.Priority)
          (bsmsg.New true)).wantlist.lookup k = some x ↔
        ∃ e, e ∈ wl.Entries ∧ e.Key = k ∧
          x = { Entry := { Key := k, Priority := e.Priority, RefCnt := 0 }, Cancel := false } := by
      intro x
      rw [← Option.mem_def, AList.mem_lookup_iff, h1]
      simp only [bsmsg.New, AList.empty_entries, List.append_nil, List.mem_map,
        List.mem_reverse]
      constructor
      · rintro ⟨e, he, heq⟩
        have hk1 : e.Key = k := congrArg Sigma.fst heq
        subst hk1
        cases heq
        exact ⟨e, he, rfl, rfl⟩
      · rintro ⟨e, he, hk, rfl⟩
        subst hk
        exact ⟨e, he, rfl⟩
    cases hc : wl.Contains k with
    | none =>
      cases hl : (wl.Entries.foldl (fun m e => m.AddEntry e.Key e.Priority)
          (bsmsg.New true)).wantlist.lookup k with
      | none => rfl
      | some x =>
        obtain ⟨e, he, hk, _⟩ := (hmem x).1 hl
        obtain ⟨k', hk'⟩ := (mem_Entries_iff _ _).1 he
        have : k' = k := by rw [← hwl k' e hk', hk]
        subst this
        rw [hc] at hk'
        cases hk'
    | some e =>
      have hk : e.Key = k := hwl k e hc
      have hsome := (hmem _).2 ⟨e, (mem_Entries_iff _ _).2 ⟨k, hc⟩, hk, rfl⟩
      rw [hsome]
      simp [bsmsg.Entry.Key, bsmsg.Entry.Priority, hk]

theorem foldl_AddEntry_full (es : List wantlist.Entry) (m : bsmsg.BitSwapMessage) :
    (es.foldl (fun m e => m.AddEntry e.Key e.Priority) m).full = m.full ∧
    (es.foldl (fun m e => m.AddEntry e.Key e.Priority) m).blocks = m.blocks := by
  induction es generalizing m with
  | nil => exact ⟨rfl, rfl⟩
  | cons e es ih =>
    simp only [List.foldl_cons]
    obtain ⟨h1, h2⟩ := ih (m.AddEntry e.Key e.Priority)
    rw [h1, h2]
    exact ⟨rfl, rfl⟩

theorem tick_queue (wl : Wantlist) (q : msgQueue) :
    ({ q with out := some (bsmsg.New true) }).addMessage
        (wl.Entries.map (fun e => ({ Entry := e, Cancel := false } : bsmsg.Entry)))
      = { q with
          out := some (wl.Entries.foldl (fun m e => m.AddEntry e.Key e.Priority)
            (bsmsg.New true)),
          work := true } := by
  unfold msgQueue.addMessage
  simp only [List.foldl_map]
  rfl

/-- C12: on a rebroadcast tick, in a want manager whose wantlist stores every
entry under its own key, every peer queue keeps its other fields and gets the
work signal set and a pending message that does not depend on what was
pending: it is the message a new peer is seeded with, full, without blocks,
holding under every key a want with the key and priority of the wantlist entry
for that key and nothing else. -/
theorem rebroadcast_replaces (pm : WantManager) (hwl : pm.wl.Keyed) (p : peer.ID)
    (q : msgQueue) (h : pm.peers.lookup p = some q) :
    ∃ m, pm.Run_tick.peers.lookup p = some { q with out := some m, work := true } ∧
      (seedQueue pm.wl p).out = some m ∧
      m.full = true ∧ m.blocks = [] ∧
      m.wantlist.entries.length = pm.wl.Len ∧
      (∀ k, (m.wantlist.lookup k).map (fun x => (x.Key, x.Priority, x.Cancel))
          = (pm.wl.Contains k).map (fun e => (e.Key, e.Priority, false))) ∧
      pm.Run_tick.wl = pm.wl := by
  obtain ⟨h1, h2, h3, h4⟩ := fullwantlist_spec pm.wl hwl
  refine ⟨_, ?_, rfl, h1, h2, h3, h4, rfl⟩
  unfold WantManager.Run_tick
  simp only
  rw [lookup_forEachPeer, h]
  simp only [Option.map_some']
  rw [tick_queue]

/-- C12 at a concrete state: a queue holding an unsent cancel for `"b"` gets
the full wantlist on the tick, and the cancel is gone. -/
theorem rebroadcast_replaces_witness :
    (((WantManager.mk ∅ (New.Add "a" 5).1).startPeerHandler "P").1.Run_incoming
      (CancelWants 9 ["a"])).wl.Keyed ∧
    ∃ q m, ((((WantManager.mk ∅ (New.Add "a" 5).1).startPeerHandler "P").1.Run_incoming
        (CancelWants 9 ["a"])).Run_tick.peers.lookup "P") = some q ∧ q.out = some m ∧
      m.full = true ∧ m.wantlist.entries.length = 0 := by
  have hk : (((WantManager.mk ∅ (New.Add "a" 5).1).startPeerHandler "P").1.Run_incoming
      (CancelWants 9 ["a"])).wl.Keyed := fun k e h => by
    have : (((WantManager.mk ∅ (New.Add "a" 5).1).startPeerHandler "P").1.Run_incoming
      (CancelWants 9 ["a"])).wl.Contains k = none := by
      by_cases hka : k = "a"
      · subst hka; rfl
      · show (((New.Add "a" 5).1.Remove "a").1).Contains k = none
        rw [contains_Remove_ne _ _ _ hka, contains_Add_ne _ _ _ _ hka]
        rfl
    rw [this] at h
    cases h
  obtain ⟨m, h1, _, h3, _, h5, _⟩ := rebroadcast_replaces
    (((WantManager.mk ∅ (New.Add "a" 5).1).startPeerHandler "P").1.Run_incoming
      (CancelWants 9 ["a"])) hk "P" _ rfl
  exact ⟨hk, _, m, h1, rfl, h3, h5⟩

/-- C14 as stated fails: a queue seeded with the full wantlist on connect and
then given a diff batch by the `incoming` branch still holds a pending message
with `full = true`, now with the entries of the diff merged in. -/
theorem merged_diff_stays_full :
    (((((WantManager.mk ∅ (New.Add "a" 5).1).startPeerHandler "P").1.Run_incoming
        (WantBlocks 9 ["b"])).peers.lookup "P").map
      (fun q => q.out.map (fun m => (m.full, m.wantlist.keys))))
      = some (some (true, ["b", "a"])) := by
  rfl

/-- C14 (amended): the pending message is full after a connect seed and after
a rebroadcast replacement; `addMessage` keeps the `full` flag of a message
that is held (so a diff merged into a full message leaves it full) and creates
a non-full message only when none is held. -/
theorem full_flag_spec :
    (∀ (pm : WantManager) (p : peer.ID) (q : msgQueue),
      (pm.startPeerHandler p).2 = some q → ∃ m, q.out = some m ∧ m.full = true) ∧
    (∀ (pm : WantManager) (p : peer.ID) (q : msgQueue),
      pm.Run_tick.peers.lookup p = some q → ∃ m, q.out = some m ∧ m.full = true) ∧
    (∀ (mq : msgQueue) (entries : List bsmsg.Entry) (m : bsmsg.BitSwapMessage),
      mq.out = some m → ∃ m', (mq.addMessage entries).out = some m' ∧ m'.full = m.full) ∧
    (∀ (mq : msgQueue) (entries : List bsmsg.Entry),
      mq.out = none → ∃ m', (mq.addMessage entries).out = some m' ∧ m'.full = false) := by
  refine ⟨?_, ?_, ?_, ?_⟩
  · intro pm p q hq
    cases hl : pm.peers.lookup p with
    | some q' => rw [startPeerHandler_existing pm p q' hl] at hq; cases hq
    | none =>
      rw [startPeerHandler_new pm p hl] at hq
      cases hq
      exact ⟨_, rfl, (foldl_AddEntry_full _ _).1⟩
  · intro pm p q hq
    unfold WantManager.Run_tick at hq
    simp only at hq
    rw [lookup_forEachPeer] at hq
    cases hl : pm.peers.lookup p with
    | none => rw [hl] at hq; cases hq
    | some q' =>
      rw [hl] at hq
      simp only [Option.map_some'] at hq
      rw [tick_queue] at hq
      cases hq
      exact ⟨_, rfl, (foldl_AddEntry_full _ _).1⟩
  · intro mq entries m hm
    refine ⟨_, addMessage_out mq entries, ?_⟩
    rw [(merge_full _ _).1, hm]
    rfl
  · intro mq entries hm
    refine ⟨_, addMessage_out mq entries, ?_⟩
    rw [(merge_full _ _).1, hm]
    rfl

/-- C14 (amended) at a concrete queue: a diff merged into the seeded message
keeps `full = true`; the same diff given to a queue holding nothing makes a
non-full message. -/
theorem full_flag_spec_witness :
    (∃ m', ((seedQueue (New.Add "a" 5).1 "P").addMessage (WantBlocks 9 ["b"])).out = some m' ∧
      m'.full = true) ∧
    (∃ m', ((newMsgQueue "P").addMessage (WantBlocks 9 ["b"])).out = some m' ∧
      m'.full = false) :=
  ⟨full_flag_spec.2.2.1 (seedQueue (New.Add "a" 5).1 "P") (WantBlocks 9 ["b"]) _ rfl,
   full_flag_spec.2.2.2 (newMsgQueue "P") (WantBlocks 9 ["b"]) rfl⟩

end bitswap

namespace bitswap

open wantlist

/-! ## Peer queue: what is sent first on a sender -/

/-- C15 as stated fails: a queue is seeded with the full wantlist; `doWork`
connects, opens sender 1 and `SendMsg` fails, so the sender is dropped with
the message; a diff arrives; `doWork` opens sender 2 and the first message
passed to `SendMsg` on it is that diff, with `full = false`. -/
theorem second_sender_gets_diff :
    (firstOnNewSender false
      ((seedQueue (New.Add "a" 5).1 "P").exec
        [QueueEvent.doWork { ConnectTo := true, NewMessageSender := some 1, SendMsg := false },
         QueueEvent.addMessage (WantBlocks 9 ["b"]),
         QueueEvent.doWork { ConnectTo := true, NewMessageSender := some 2, SendMsg := true }]).2).map
      (fun m => (m.full, m.wantlist.keys))
      = [(true, ["a"]), (false, ["b"])] := by
  rfl

/-- While a queue holds a full pending message and has either no sender or a
sender nothing was sent on, the first message sent on a new sender in any
execution is full. -/
theorem first_on_new_sender_full (evs : List QueueEvent) (mq : msgQueue) (fresh : Bool)
    (hout : ∃ m, mq.out = some m ∧ m.full = true)
    (hs : mq.sender = none ∨ fresh = true) (m : bsmsg.BitSwapMessage)
    (h : (firstOnNewSender fresh (mq.exec evs).2).head? = some m) : m.full = true := by
  induction evs generalizing mq fresh with
  | nil => simp [msgQueue.exec, firstOnNewSender] at h
  | cons ev evs ih =>
    obtain ⟨m0, hm0, hfull⟩ := hout
    have hsend : ∀ (q : msgQueue) (s : Nat) (net : Outcome) (rest : List NetCall),
        q.out = some m0 →
        ((firstOnNewSender true ((msgQueue.doWork.send q s net).2 ++ rest)).head? = some m0) ∨
        ((msgQueue.doWork.send q s net).1 = q ∧ (msgQueue.doWork.send q s net).2 = []) := by
      intro q s net rest hq
      unfold msgQueue.doWork.send
      rw [hq]
      by_cases he : m0.Empty = true
      · right; simp [he]
      · left
        by_cases hok : net.SendMsg = true <;> simp [he, hok, firstOnNewSender]
    unfold msgQueue.exec at h
    cases ev with
    | addMessage entries =>
      simp only [msgQueue.step, List.nil_append] at h
      refine ih (mq.addMessage entries) fresh ?_ hs h
      refine ⟨_, addMessage_out mq entries, ?_⟩
      rw [(merge_full _ _).1, hm0]
      exact hfull
    | rebroadcast es =>
      simp only [msgQueue.step, List.nil_append] at h
      refine ih (({ mq with out := some (bsmsg.New true) }).addMessage es) fresh ?_ hs h
      refine ⟨_, addMessage_out _ es, ?_⟩
      rw [(merge_full _ _).1]
      rfl
    | doWork net =>
      simp only [msgQueue.step] at h
      cases hsd : mq.sender with
      | some s =>
        have hfresh : fresh = true := by
          rcases hs with hs | hs
          · rw [hsd] at hs; cases hs
          · exact hs
        subst hfresh
        have hdw : mq.doWork net = msgQueue.doWork.send mq s net := by
          unfold msgQueue.doWork; rw [hsd]
        rw [hdw] at h
        rcases hsend mq s net _ hm0 with h1 | ⟨h1, h2⟩
        · rw [h1] at h
          cases h
          exact hfull
        · rw [h1, h2] at h
          exact ih mq true ⟨m0, hm0, hfull⟩ (Or.inr rfl) h
      | none =>
        by_cases hc : net.ConnectTo = true
        · cases hn : net.NewMessageSender with
          | none =>
            have hdw : mq.doWork net
                = (mq, [NetCall.ConnectTo mq.p, NetCall.NewMessageSender mq.p none]) := by
              unfold msgQueue.doWork; rw [hsd]; simp [hc, hn]
            rw [hdw] at h
            simp only [List.cons_append, List.nil_append, firstOnNewSender] at h
            exact ih mq fresh ⟨m0, hm0, hfull⟩ hs h
          | some s =>
            have hdw : mq.doWork net
                = ((msgQueue.doWork.send { mq with sender := some s } s net).1,
                   [NetCall.ConnectTo mq.p, NetCall.NewMessageSender mq.p (some s)]
                     ++ (msgQueue.doWork.send { mq with sender := some s } s net).2) := by
              unfold msgQueue.doWork; rw [hsd]; simp [hc, hn]
            rw [hdw] at h
            have h' : (firstOnNewSender true
                ((msgQueue.doWork.send { mq with sender := some s } s net).2 ++
                  (msgQueue.exec (msgQueue.doWork.send { mq with sender := some s } s net).1
                    evs).2)).head? = some m := h
            rcases hsend { mq with sender := some s } s net
                (msgQueue.exec (msgQueue.doWork.send { mq with sender := some s } s net).1 evs).2
                hm0 with h1 | ⟨h1, h2⟩
            · rw [h1] at h'
              cases h'
              exact hfull
            · rw [h1, h2] at h'
              exact ih { mq with sender := some s } true ⟨m0, hm0, hfull⟩ (Or.inr rfl) h'
        · have hdw : mq.doWork net = (mq, [NetCall.ConnectTo mq.p]) := by
            unfold msgQueue.doWork; rw [hsd]; simp [hc]
          rw [hdw] at h
          simp only [List.cons_append, List.nil_append, firstOnNewSender] at h
          exact ih mq fresh ⟨m0, hm0, hfull⟩ hs h

/-- C15 (amended): for every queue created by `startPeerHandler` and every
execution of it (any interleaving of `addMessage` diffs, rebroadcast
replacements and `doWork` steps, with any outcome of `ConnectTo`,
`NewMessageSender` and `SendMsg`), the earliest message that is the first one
passed to `SendMsg` on a newly created sender, that is the first message the
queue sends at all, has `full = true`. -/
theorem first_message_is_full (pm : WantManager) (p : peer.ID) (q : msgQueue)
    (hq : (pm.startPeerHandler p).2 = some q) (evs : List QueueEvent)
    (m : bsmsg.BitSwapMessage)
    (h : (firstOnNewSender false (q.exec evs).2).head? = some m) : m.full = true := by
  cases hl : pm.peers.lookup p with
  | some q' => rw [startPeerHandler_existing pm p q' hl] at hq; cases hq
  | none =>
    rw [startPeerHandler_new pm p hl] at hq
    cases hq
    exact first_on_new_sender_full evs (seedQueue pm.wl p) false
      ⟨_, rfl, (foldl_AddEntry_full _ _).1⟩ (Or.inl rfl) m h

/-- C15 (amended) on the execution in which the second sender gets a diff:
the first message sent at all is the seeded full wantlist. -/
theorem first_message_is_full_witness :
    ∃ m, (firstOnNewSender false
      ((seedQueue (New.Add "a" 5).1 "P").exec
        [QueueEvent.doWork { ConnectTo := true, NewMessageSender := some 1, SendMsg := false },
         QueueEvent.addMessage (WantBlocks 9 ["b"]),
         QueueEvent.doWork { ConnectTo := true, NewMessageSender := some 2, SendMsg := true }]).2).head?
        = some m ∧ m.full = true :=
  ⟨_, rfl, first_message_is_full (WantManager.mk ∅ (New.Add "a" 5).1) "P" _ rfl
    [QueueEvent.doWork { ConnectTo := true, NewMessageSender := some 1, SendMsg := false },
     QueueEvent.addMessage (WantBlocks 9 ["b"]),
     QueueEvent.doWork { ConnectTo := true, NewMessageSender := some 2, SendMsg := true }]
    _ rfl⟩

end bitswap

namespace decision

/-! ## Ledger: byte and exchange counters -/

theorem toUint64_lt (n : Int) : toUint64 n < 2 ^ 64 := by
  unfold toUint64
  omega

theorem toUint64_cast (n : Int) : ((toUint64 n : Nat) : Int) = n % 2 ^ 64 := by
  unfold toUint64
  omega

/-- The counters after a sequence of transfer calls, from any ledger whose
counters are below `2^64`. -/
theorem counters_foldl (calls : List Transfer) (l : ledger)
    (hs : l.Accounting.BytesSent < 2 ^ 64) (hr : l.Accounting.BytesRecv < 2 ^ 64)
    (hc : l.exchangeCount < 2 ^ 64) :
    ((calls.foldl Transfer.apply l).Accounting.BytesSent : Int)
      = ((l.Accounting.BytesSent : Int) + sentTotal calls) % 2 ^ 64 ∧
    ((calls.foldl Transfer.apply l).Accounting.BytesRecv : Int)
      = ((l.Accounting.BytesRecv : Int) + recvTotal calls) % 2 ^ 64 ∧
    (calls.foldl Transfer.apply l).exchangeCount = (l.exchangeCount + calls.length) % 2 ^ 64 := by
  induction calls generalizing l with
  | nil =>
    simp only [List.foldl_nil, sentTotal, recvTotal, List.length_nil]
    omega
  | cons c cs ih =>
    simp only [List.foldl_cons, List.length_cons]
    cases c with
    | SentBytes n now =>
      have h1 : (l.SentBytes n now).Accounting.BytesSent
          = (l.Accounting.BytesSent + toUint64 n) % 2 ^ 64 := rfl
      have h2 : (l.SentBytes n now).Accounting.BytesRecv = l.Accounting.BytesRecv := rfl
      have h3 : (l.SentBytes n now).exchangeCount = (l.exchangeCount + 1) % 2 ^ 64 := rfl
      obtain ⟨i1, i2, i3⟩ := ih (l.SentBytes n now) (by rw [h1]; omega) (by rw [h2]; exact hr)
        (by rw [h3]; omega)
      have hu := toUint64_cast n
      simp only [Transfer.apply, sentTotal, recvTotal]
      rw [i1, i2, i3, h1, h2, h3]
      refine ⟨?_, rfl, ?_⟩ <;> omega
    | ReceivedBytes n now =>
      have h1 : (l.ReceivedBytes n now).Accounting.BytesSent = l.Accounting.BytesSent := rfl
      have h2 : (l.ReceivedBytes n now).Accounting.BytesRecv
          = (l.Accounting.BytesRecv + toUint64 n) % 2 ^ 64 := rfl
      have h3 : (l.ReceivedBytes n now).exchangeCount = (l.exchangeCount + 1) % 2 ^ 64 := rfl
      obtain ⟨i1, i2, i3⟩ := ih (l.ReceivedBytes n now) (by rw [h1]; exact hs)
        (by rw [h2]; omega) (by rw [h3]; omega)
      have hu := toUint64_cast n
      simp only [Transfer.apply, sentTotal, recvTotal]
      rw [i1, i2, i3, h1, h2, h3]
      refine ⟨rfl, ?_, ?_⟩ <;> omega

theorem sentTotal_nonneg (calls : List Transfer) (h : ∀ c ∈ calls, 0 ≤ c.bytes) :
    0 ≤ sentTotal calls := by
  induction calls with
  | nil => exact le_refl _
  | cons c cs ih =>
    have hcs := ih (fun c' hc' => h c' (List.mem_cons_of_mem _ hc'))
    have hc := h c (List.mem_cons_self _ _)
    cases c <;> simp only [sentTotal, Transfer.bytes] at * <;> omega

theorem recvTotal_nonneg (calls : List Transfer) (h : ∀ c ∈ calls, 0 ≤ c.bytes) :
    0 ≤ recvTotal calls := by
  induction calls with
  | nil => exact le_refl _
  | cons c cs ih =>
    have hcs := ih (fun c' hc' => h c' (List.mem_cons_of_mem _ hc'))
    have hc := h c (List.mem_cons_self _ _)
    cases c <;> simp only [recvTotal, Transfer.bytes] at * <;> omega


/-! ## Ledger: rounding to `float64` -/

theorem bitLen_go_spec (fuel n : Nat) (h : n ≤ fuel) (hn : n ≠ 0) :
    ∃ b, float64.bitLen.go fuel n = b + 1 ∧ 2 ^ b ≤ n ∧ n < 2 ^ (b + 1) := by
  induction fuel generalizing n with
  | zero => omega
  | succ fuel ih =>
    rw [float64.bitLen.go, if_neg hn]
    by_cases h2 : n / 2 = 0
    · refine ⟨0, ?_, ?_, ?_⟩
      · rw [h2]
        cases fuel <;> simp [float64.bitLen.go]
      · simp only [pow_zero]
        omega
      · simp only [zero_add, pow_one]
        omega
    · obtain ⟨b, hb, h1, h3⟩ := ih (n / 2) (by omega) h2
      refine ⟨b + 1, by rw [hb], ?_, ?_⟩
      · rw [pow_succ]
        omega
      · rw [pow_succ 2 (b + 1)]
        omega

theorem bitLen_spec (n : Nat) (hn : n ≠ 0) :
    ∃ b, float64.bitLen n = b + 1 ∧ 2 ^ b ≤ n ∧ n < 2 ^ (b + 1) :=
  bitLen_go_spec n n (le_refl n) hn

theorem bitLen_unique (n b : Nat) (h1 : 2 ^ b ≤ n) (h2 : n < 2 ^ (b + 1)) :
    float64.bitLen n = b + 1 := by
  have hn : n ≠ 0 := by
    have : 0 < 2 ^ b := Nat.pow_pos (by decide)
    omega
  obtain ⟨c, hc, h3, h4⟩ := bitLen_spec n hn
  rw [hc]
  rcases Nat.lt_trichotomy c b with hlt | heq | hgt
  · have : 2 ^ (c + 1) ≤ 2 ^ b := Nat.pow_le_pow_right (by decide) hlt
    omega
  · rw [heq]
  · have : 2 ^ (b + 1) ≤ 2 ^ c := Nat.pow_le_pow_right (by decide) hgt
    omega

theorem bitLen_mul_pow (n c : Nat) (hn : n ≠ 0) :
    float64.bitLen (n * 2 ^ c) = float64.bitLen n + c := by
  obtain ⟨b, hb, h1, h2⟩ := bitLen_spec n hn
  rw [hb]
  have hc : 0 < 2 ^ c := Nat.pow_pos (by decide)
  have := bitLen_unique (n * 2 ^ c) (b + c)
    (by rw [pow_add]; exact Nat.mul_le_mul_right _ h1)
    (by
      have e : 2 ^ (b + c + 1) = 2 ^ (b + 1) * 2 ^ c := by rw [← pow_add]; congr 1; omega
      rw [e]
      exact Nat.mul_lt_mul_of_pos_right h2 hc)
  rw [this]
  omega

theorem rne_scale (n d c : Nat) (hc : 0 < c) :
    float64.rne (n * c) (d * c) = float64.rne n d := by
  unfold float64.rne
  rw [Nat.mul_div_mul_right n d hc, Nat.mul_mod_mul_right]
  have e1 : (2 * (n % d * c) < d * c) ↔ (2 * (n % d) < d) := by
    rw [← Nat.mul_assoc]
    exact Nat.mul_lt_mul_right hc
  have e2 : (d * c < 2 * (n % d * c)) ↔ (d < 2 * (n % d)) := by
    rw [← Nat.mul_assoc]
    exact Nat.mul_lt_mul_right hc
  simp only [e1, e2]

theorem rne_one (n : Nat) : float64.rne n 1 = n := by
  unfold float64.rne
  simp [Nat.mod_one]

theorem rne_spec (n d : Nat) (hd : 0 < d) :
    2 * n ≤ 2 * (float64.rne n d * d) + d ∧ 2 * (float64.rne n d * d) ≤ 2 * n + d := by
  have hdm := Nat.div_add_mod n d
  have hr := Nat.mod_lt n hd
  have hqd : n / d * d = d * (n / d) := Nat.mul_comm _ _
  have hq1 : (n / d + 1) * d = d * (n / d) + d := by rw [Nat.add_mul, hqd, Nat.one_mul]
  unfold float64.rne
  split_ifs <;> (first | rw [hqd] | rw [hq1]) <;> omega

theorem rne_ge (n d a : Nat) (hd : 0 < d) (h : a * d ≤ n) : a ≤ float64.rne n d := by
  have h1 := (rne_spec n d hd).1
  have h2 : a * d < (float64.rne n d + 1) * d := by
    rw [Nat.add_mul, Nat.one_mul]
    omega
  have := Nat.lt_of_mul_lt_mul_right h2
  omega

theorem rne_le (n d b : Nat) (hd : 0 < d) (h : n ≤ b * d) : float64.rne n d ≤ b := by
  have h1 := (rne_spec n d hd).2
  have h2 : float64.rne n d * d < (b + 1) * d := by
    rw [Nat.add_mul, Nat.one_mul]
    omega
  have := Nat.lt_of_mul_lt_mul_right h2
  omega

theorem round_pos (N D : Nat) (hN : N ≠ 0) (k L e : Int) (m : Nat)
    (hk : k = (float64.bitLen N : Int) - (float64.bitLen D : Int))
    (hL : L = if D * 2 ^ k.toNat ≤ N * 2 ^ (-k).toNat then k else k - 1)
    (he : e = max (L - 52) (-1074))
    (hm : m = float64.rne (N * 2 ^ (-e).toNat) (D * 2 ^ e.toNat)) :
    float64.round N D
      = if m = 0 then float64.fin 0 0
        else if m = 2 ^ 53 then
          (if 971 < e + 1 then float64.inf else float64.fin (2 ^ 52) (e + 1))
        else if 971 < e then float64.inf
        else float64.fin m e := by
  subst hm he hL hk
  unfold float64.round
  rw [if_neg hN]

theorem round_scale (N D c : Nat) (hN : N ≠ 0) (hD : D ≠ 0) :
    float64.round (N * 2 ^ c) (D * 2 ^ c) = float64.round N D := by
  have hc : 0 < 2 ^ c := Nat.pow_pos (by decide)
  have hN' : N * 2 ^ c ≠ 0 := Nat.mul_ne_zero hN (by omega)
  obtain ⟨k, hk⟩ : ∃ k : Int, k = (float64.bitLen N : Int) - (float64.bitLen D : Int) :=
    ⟨_, rfl⟩
  obtain ⟨L, hL⟩ : ∃ L : Int,
      L = if D * 2 ^ k.toNat ≤ N * 2 ^ (-k).toNat then k else k - 1 := ⟨_, rfl⟩
  obtain ⟨e, he⟩ : ∃ e : Int, e = max (L - 52) (-1074) := ⟨_, rfl⟩
  obtain ⟨m, hm⟩ : ∃ m : Nat,
      m = float64.rne (N * 2 ^ (-e).toNat) (D * 2 ^ e.toNat) := ⟨_, rfl⟩
  rw [round_pos N D hN k L e m hk hL he hm]
  refine round_pos (N * 2 ^ c) (D * 2 ^ c) hN' k L e m ?_ ?_ he ?_
  · rw [bitLen_mul_pow N c hN, bitLen_mul_pow D c hD, hk]
    push_cast
    omega
  · have e1 : ∀ a b : Nat,
        (D * 2 ^ c * 2 ^ a ≤ N * 2 ^ c * 2 ^ b) ↔ (D * 2 ^ a ≤ N * 2 ^ b) := by
      intro a b
      rw [Nat.mul_right_comm D, Nat.mul_right_comm N]
      exact mul_le_mul_right hc
    simp only [e1]
    exact hL
  · rw [Nat.mul_right_comm N, Nat.mul_right_comm D, rne_scale _ _ _ hc]
    exact hm

theorem ofUint64_zero : float64.ofUint64 0 = float64.fin 0 0 := rfl

theorem ofUint64_exact (S b : Nat) (h1 : 2 ^ b ≤ S) (h2 : S < 2 ^ (b + 1)) (hb : b ≤ 52) :
    float64.ofUint64 S = float64.fin (S * 2 ^ (52 - b)) ((b : Int) - 52) := by
  have hp : 0 < 2 ^ b := Nat.pow_pos (by decide)
  have hS : S ≠ 0 := by omega
  have hbl1 : float64.bitLen 1 = 1 := rfl
  have t1 : ((b : Int)).toNat = b := Int.toNat_ofNat b
  have t2 : (-(b : Int)).toNat = 0 := Int.toNat_neg_nat b
  have t3 : (-((b : Int) - 52)).toNat = 52 - b := by omega
  have t4 : ((b : Int) - 52).toNat = 0 := by omega
  have hm53 : S * 2 ^ (52 - b) < 2 ^ 53 := by
    have e : 2 ^ 53 = 2 ^ (b + 1) * 2 ^ (52 - b) := by
      rw [← pow_add]
      congr 1
      omega
    rw [e]
    exact Nat.mul_lt_mul_of_pos_right h2 (Nat.pow_pos (by decide))
  have hm0 : S * 2 ^ (52 - b) ≠ 0 := Nat.mul_ne_zero hS (Nat.pos_iff_ne_zero.1 (Nat.pow_pos (by decide)))
  unfold float64.ofUint64
  rw [round_pos S 1 hS (b : Int) (b : Int) ((b : Int) - 52) (S * 2 ^ (52 - b))
    (by rw [bitLen_unique S b h1 h2, hbl1]; push_cast; omega)
    (by rw [t1, t2, if_pos]; simpa using h1)
    (by omega)
    (by rw [t3, t4]; simp [rne_one])]
  rw [if_neg hm0, if_neg (by omega), if_neg (by omega)]

/-- For operands below `2^53` the conversions are exact, and the `float64`
quotient is the exact quotient rounded once. -/
theorem div_ofUint64 (S R : Nat) (hS : S < 2 ^ 53) (hR0 : 0 < R) (hR : R < 2 ^ 53) :
    float64.div (float64.ofUint64 S) (float64.ofUint64 R) = float64.round S R := by
  obtain ⟨bR, -, hR1, hR2⟩ := bitLen_spec R (by omega)
  have hbR : bR ≤ 52 := by
    by_contra hcon
    have : 2 ^ 53 ≤ 2 ^ bR := Nat.pow_le_pow_right (by decide) (by omega)
    omega
  have hmR : R * 2 ^ (52 - bR) ≠ 0 :=
    Nat.mul_ne_zero (by omega) (Nat.pos_iff_ne_zero.1 (Nat.pow_pos (by decide)))
  rw [ofUint64_exact R bR hR1 hR2 hbR]
  by_cases hS0 : S = 0
  · subst hS0
    rw [ofUint64_zero]
    show (if R * 2 ^ (52 - bR) = 0 then _ else _) = _
    rw [if_neg hmR]
    simp [float64.round]
  · obtain ⟨bS, -, hS1, hS2⟩ := bitLen_spec S hS0
    have hbS : bS ≤ 52 := by
      by_contra hcon
      have : 2 ^ 53 ≤ 2 ^ bS := Nat.pow_le_pow_right (by decide) (by omega)
      omega
    rw [ofUint64_exact S bS hS1 hS2 hbS]
    show (if R * 2 ^ (52 - bR) = 0 then _ else _) = _
    rw [if_neg hmR]
    have e1 : S * 2 ^ (52 - bS) * 2 ^ ((bS : Int) - 52 - ((bR : Int) - 52)).toNat
        = S * 2 ^ (52 - min bS bR) := by
      rw [Nat.mul_assoc, ← pow_add]
      congr 2
      omega
    have e2 : R * 2 ^ (52 - bR) * 2 ^ ((bR : Int) - 52 - ((bS : Int) - 52)).toNat
        = R * 2 ^ (52 - min bS bR) := by
      rw [Nat.mul_assoc, ← pow_add]
      congr 2
      omega
    rw [e1, e2]
    exact round_scale S R _ hS0 (by omega)

theorem scale_cast (N D : Nat) (j : Int) :
    ((N * 2 ^ (-j).toNat : Nat) : ℚ) / ((D * 2 ^ j.toNat : Nat) : ℚ)
      = (N : ℚ) / D / 2 ^ j := by
  obtain ⟨n, rfl | rfl⟩ := Int.eq_nat_or_neg j
  · rw [Int.toNat_neg_nat, Int.toNat_ofNat, zpow_natCast]
    push_cast
    rw [mul_one, div_div]
  · rw [neg_neg, Int.toNat_neg_nat, Int.toNat_ofNat, zpow_neg, zpow_natCast]
    push_cast
    rw [mul_one, div_inv_eq_mul, div_mul_eq_mul_div]

theorem abs_sub_quot_le_half (m q n d : ℚ) (hd : 0 < d) (hq : q * d = n)
    (s1 : 2 * n ≤ 2 * (m * d) + d) (s2 : 2 * (m * d) ≤ 2 * n + d) : |m - q| ≤ 1 / 2 := by
  rw [abs_le]
  constructor
  · by_contra hcon
    push_neg at hcon
    nlinarith [mul_pos (sub_pos.2 hcon) hd]
  · by_contra hcon
    push_neg at hcon
    nlinarith [mul_pos (sub_pos.2 hcon) hd]

theorem abs_scaled_le (m y t : ℚ) (ht : 0 < t) (h : |m - y| ≤ 1 / 2) :
    |m * t - y * t| ≤ t / 2 := by
  rw [← sub_mul, abs_mul, abs_of_pos ht]
  nlinarith [mul_le_mul_of_nonneg_right h (le_of_lt ht)]

/-- In the range of the normal numbers, `round` returns a mantissa of 53 bits
and a value within half a unit in the last place of the exact quotient. -/
theorem round_spec (N D : Nat) (hN : 0 < N) (hD : 0 < D)
    (hlo : D ≤ N * 2 ^ 1022) (hhi : N < D * 2 ^ 1023) :
    ∃ m e, float64.round N D = float64.fin m e ∧ 2 ^ 52 ≤ m ∧ m < 2 ^ 53 ∧
      |(m : ℚ) * 2 ^ e - (N : ℚ) / D| ≤ 2 ^ e / 2 := by
  obtain ⟨bN, hbN, hN1, hN2⟩ := bitLen_spec N (by omega)
  obtain ⟨bD, hbD, hD1, hD2⟩ := bitLen_spec D (by omega)
  have hDq : (0 : ℚ) < D := by exact_mod_cast hD
  have hNq : (0 : ℚ) < N := by exact_mod_cast hN
  have h2 : (0 : ℚ) < 2 := by norm_num
  have h2' : (2 : ℚ) ≠ 0 := by norm_num
  have h12 : (1 : ℚ) < 2 := by norm_num
  obtain ⟨x, hx⟩ : ∃ x : ℚ, x = (N : ℚ) / D := ⟨_, rfl⟩
  have hxpos : 0 < x := by rw [hx]; exact div_pos hNq hDq
  -- comparison of the scaled operands
  have hcmp : ∀ j : Int, (D * 2 ^ j.toNat ≤ N * 2 ^ (-j).toNat) ↔ (2 : ℚ) ^ j ≤ x := by
    intro j
    have hden : (0 : ℚ) < ((D * 2 ^ j.toNat : Nat) : ℚ) := by
      have : 0 < D * 2 ^ j.toNat := Nat.mul_pos hD (Nat.pow_pos (by decide))
      exact_mod_cast this
    have hs := scale_cast N D j
    rw [← hx] at hs
    rw [← one_le_div (zpow_pos h2 j), ← hs, one_le_div hden]
    exact Nat.cast_le.symm
  obtain ⟨k, hk⟩ : ∃ k : Int, k = (float64.bitLen N : Int) - (float64.bitLen D : Int) :=
    ⟨_, rfl⟩
  have hk' : k = (bN : Int) - bD := by rw [hk, hbN, hbD]; push_cast; omega
  have hN1q : (2 : ℚ) ^ bN ≤ N := by exact_mod_cast hN1
  have hN2q : (N : ℚ) < 2 ^ (bN + 1) := by exact_mod_cast hN2
  have hD1q : (2 : ℚ) ^ bD ≤ D := by exact_mod_cast hD1
  have hD2q : (D : ℚ) < 2 ^ (bD + 1) := by exact_mod_cast hD2
  have hxlt : x < 2 ^ (k + 1) := by
    have e : (2 : ℚ) ^ (k + 1) = 2 ^ (bN + 1) / 2 ^ bD := by
      rw [hk', show (bN : Int) - bD + 1 = ((bN + 1 : Nat) : Int) - (bD : Nat) by push_cast; ring,
        zpow_sub₀ h2', zpow_natCast, zpow_natCast]
    rw [e, hx, div_lt_div_iff₀ hDq (pow_pos h2 bD)]
    calc (N : ℚ) * 2 ^ bD < 2 ^ (bN + 1) * 2 ^ bD := by
          exact mul_lt_mul_of_pos_right hN2q (pow_pos h2 bD)
      _ ≤ 2 ^ (bN + 1) * D := by
          exact mul_le_mul_of_nonneg_left hD1q (le_of_lt (pow_pos h2 _))
  have hxgt : (2 : ℚ) ^ (k - 1) < x := by
    have e : (2 : ℚ) ^ (k - 1) = 2 ^ bN / 2 ^ (bD + 1) := by
      rw [hk', show (bN : Int) - bD - 1 = ((bN : Nat) : Int) - ((bD + 1 : Nat) : Int) by
          push_cast; ring,
        zpow_sub₀ h2', zpow_natCast, zpow_natCast]
    rw [e, hx, div_lt_div_iff₀ (pow_pos h2 _) hDq]
    calc (2 : ℚ) ^ bN * D < 2 ^ bN * 2 ^ (bD + 1) := by
          exact mul_lt_mul_of_pos_left hD2q (pow_pos h2 bN)
      _ ≤ N * 2 ^ (bD + 1) := by
          exact mul_le_mul_of_nonneg_right hN1q (le_of_lt (pow_pos h2 _))
  obtain ⟨L, hL⟩ : ∃ L : Int,
      L = if D * 2 ^ k.toNat ≤ N * 2 ^ (-k).toNat then k else k - 1 := ⟨_, rfl⟩
  have hL1 : (2 : ℚ) ^ L ≤ x ∧ x < 2 ^ (L + 1) := by
    by_cases hc : D * 2 ^ k.toNat ≤ N * 2 ^ (-k).toNat
    · rw [if_pos hc] at hL
      rw [hL]
      exact ⟨(hcmp k).1 hc, hxlt⟩
    · rw [if_neg hc] at hL
      rw [hL, sub_add_cancel]
      exact ⟨le_of_lt hxgt, lt_of_not_le (fun h => hc ((hcmp k).2 h))⟩
  have hLlo : -1022 ≤ L := by
    have h1 : (2 : ℚ) ^ (-1022 : Int) ≤ x := by
      have t1 : ((-1022 : Int)).toNat = 0 := rfl
      have t2 : (-(-1022 : Int)).toNat = 1022 := rfl
      apply (hcmp (-1022)).1
      rw [t1, t2, pow_zero, mul_one]
      exact hlo
    have := lt_of_le_of_lt h1 hL1.2
    rw [zpow_lt_zpow_iff_right₀ h12] at this
    omega
  have hLhi : L ≤ 1022 := by
    have h1 : x < (2 : ℚ) ^ (1023 : Int) := by
      apply lt_of_not_le
      intro h
      have t1 : ((1023 : Int)).toNat = 1023 := rfl
      have t2 : (-(1023 : Int)).toNat = 0 := rfl
      have h' := (hcmp 1023).2 h
      rw [t1, t2, pow_zero, mul_one] at h'
      omega
    have := lt_of_le_of_lt hL1.1 h1
    rw [zpow_lt_zpow_iff_right₀ h12] at this
    omega
  obtain ⟨e, he⟩ : ∃ e : Int, e = max (L - 52) (-1074) := ⟨_, rfl⟩
  have he' : e = L - 52 := by omega
  obtain ⟨m, hm⟩ : ∃ m : Nat,
      m = float64.rne (N * 2 ^ (-e).toNat) (D * 2 ^ e.toNat) := ⟨_, rfl⟩
  have hepos : (0 : ℚ) < 2 ^ e := zpow_pos h2 e
  have hdenN : 0 < D * 2 ^ e.toNat := Nat.mul_pos hD (Nat.pow_pos (by decide))
  have hden : (0 : ℚ) < ((D * 2 ^ e.toNat : Nat) : ℚ) := by exact_mod_cast hdenN
  have hy := scale_cast N D e
  rw [← hx] at hy
  -- the scaled quotient lies between 2^52 and 2^53
  have hy1 : (2 : ℚ) ^ 52 ≤ x / 2 ^ e := by
    rw [le_div_iff₀ hepos]
    have : (2 : ℚ) ^ 52 * 2 ^ e = 2 ^ L := by
      rw [show L = (52 : Int) + e by omega, zpow_add₀ h2']
      norm_num
    rw [this]
    exact hL1.1
  have hy2 : x / 2 ^ e ≤ (2 : ℚ) ^ 53 := by
    rw [div_le_iff₀ hepos]
    have : (2 : ℚ) ^ 53 * 2 ^ e = 2 ^ (L + 1) := by
      rw [show L + 1 = (53 : Int) + e by omega, zpow_add₀ h2']
      norm_num
    rw [this]
    exact le_of_lt hL1.2
  have hn1 : 2 ^ 52 * (D * 2 ^ e.toNat) ≤ N * 2 ^ (-e).toNat := by
    have : (2 : ℚ) ^ 52 * ((D * 2 ^ e.toNat : Nat) : ℚ) ≤ ((N * 2 ^ (-e).toNat : Nat) : ℚ) := by
      rw [← le_div_iff₀ hden, hy]
      exact hy1
    exact_mod_cast this
  have hn2 : N * 2 ^ (-e).toNat ≤ 2 ^ 53 * (D * 2 ^ e.toNat) := by
    have : ((N * 2 ^ (-e).toNat : Nat) : ℚ) ≤ (2 : ℚ) ^ 53 * ((D * 2 ^ e.toNat : Nat) : ℚ) := by
      rw [← div_le_iff₀ hden, hy]
      exact hy2
    exact_mod_cast this
  have hm1 : 2 ^ 52 ≤ m := by rw [hm]; exact rne_ge _ _ _ hdenN hn1
  have hm2 : m ≤ 2 ^ 53 := by rw [hm]; exact rne_le _ _ _ hdenN hn2
  -- the rounded mantissa is within one half of the scaled quotient
  have hhalf : |(m : ℚ) - x / 2 ^ e| ≤ 1 / 2 := by
    obtain ⟨s1, s2⟩ := rne_spec (N * 2 ^ (-e).toNat) (D * 2 ^ e.toNat) hdenN
    rw [← hm] at s1 s2
    have s1q : (2 : ℚ) * ((N * 2 ^ (-e).toNat : Nat) : ℚ)
        ≤ 2 * ((m : ℚ) * ((D * 2 ^ e.toNat : Nat) : ℚ)) + ((D * 2 ^ e.toNat : Nat) : ℚ) := by
      exact_mod_cast s1
    have s2q : (2 : ℚ) * ((m : ℚ) * ((D * 2 ^ e.toNat : Nat) : ℚ))
        ≤ 2 * ((N * 2 ^ (-e).toNat : Nat) : ℚ) + ((D * 2 ^ e.toNat : Nat) : ℚ) := by
      exact_mod_cast s2
    have hq : x / 2 ^ e * ((D * 2 ^ e.toNat : Nat) : ℚ) = ((N * 2 ^ (-e).toNat : Nat) : ℚ) := by
      rw [← hy]
      exact div_mul_cancel₀ _ (ne_of_gt hden)
    exact abs_sub_quot_le_half _ _ _ _ hden hq s1q s2q
  have hxe : x / 2 ^ e * 2 ^ e = x := div_mul_cancel₀ _ (ne_of_gt hepos)
  have hfin : |(m : ℚ) * 2 ^ e - x| ≤ 2 ^ e / 2 := by
    have := abs_scaled_le (m : ℚ) (x / 2 ^ e) (2 ^ e) hepos hhalf
    rw [hxe] at this
    exact this
  have hm0 : m ≠ 0 := by
    have : 0 < 2 ^ 52 := Nat.pow_pos (by decide)
    omega
  rw [round_pos N D (by omega) k L e m hk hL he hm, if_neg hm0, ← hx]
  by_cases h53 : m = 2 ^ 53
  · rw [if_pos h53, if_neg (by omega)]
    refine ⟨2 ^ 52, e + 1, rfl, le_refl _, by norm_num, ?_⟩
    have e1 : ((2 ^ 52 : Nat) : ℚ) * 2 ^ (e + 1) = (m : ℚ) * 2 ^ e := by
      rw [h53, zpow_add₀ h2']
      push_cast
      ring
    have e3 : (2 : ℚ) ^ (e + 1) = 2 ^ e * 2 := by rw [zpow_add₀ h2']; norm_num
    rw [e1, e3]
    have : (2 : ℚ) ^ e / 2 ≤ 2 ^ e * 2 / 2 := by
      apply div_le_div_of_nonneg_right _ (le_of_lt h2)
      exact le_mul_of_one_le_right (le_of_lt hepos) (by norm_num)
    exact le_trans hfin this
  · rw [if_neg h53, if_neg (by omega)]
    exact ⟨m, e, rfl, hm1, by omega, hfin⟩


/-- C16 as stated fails for the debt ratio.  On scenario S6 (three sends of
500 bytes, one receive of 500 bytes) `Value()` is the `float64`
`6741915609836072 * 2^-51`, which is not the number `1500/501`.  And after
receives of `2^63 - 1`, `2^63 - 1` and 1 bytes and a send of 1 byte, all
arguments non-negative, `BytesRecv` is `2^64 - 1`, `BytesRecv + 1` wraps
around to 0, and `Value()` is `+Inf`. -/
theorem Value_is_float64 :
    ([Transfer.SentBytes 500 1, Transfer.SentBytes 500 2, Transfer.SentBytes 500 3,
        Transfer.ReceivedBytes 500 4].foldl Transfer.apply (newLedger "B")).Accounting.Value
      = float64.fin 6741915609836072 (-51) ∧
    (6741915609836072 : ℚ) * 2 ^ (-51 : Int) ≠ 1500 / 501 ∧
    (∀ c ∈ [Transfer.ReceivedBytes (2 ^ 63 - 1) 1, Transfer.ReceivedBytes (2 ^ 63 - 1) 2,
        Transfer.ReceivedBytes 1 3, Transfer.SentBytes 1 4], 0 ≤ c.bytes) ∧
    ([Transfer.ReceivedBytes (2 ^ 63 - 1) 1, Transfer.ReceivedBytes (2 ^ 63 - 1) 2,
        Transfer.ReceivedBytes 1 3, Transfer.SentBytes 1 4].foldl Transfer.apply
        (newLedger "B")).Accounting = { BytesSent := 1, BytesRecv := 2 ^ 64 - 1 } ∧
    ([Transfer.ReceivedBytes (2 ^ 63 - 1) 1, Transfer.ReceivedBytes (2 ^ 63 - 1) 2,
        Transfer.ReceivedBytes 1 3, Transfer.SentBytes 1 4].foldl Transfer.apply
        (newLedger "B")).Accounting.Value = float64.inf := by
  refine ⟨by rfl, ?_, ?_, by rfl, by rfl⟩
  · rw [zpow_neg]
    norm_num
  · intro c hc
    simp only [List.mem_cons, List.mem_singleton, List.not_mem_nil, or_false] at hc
    rcases hc with rfl | rfl | rfl | rfl <;> decide

/-- C16 (amended): for a ledger created by `newLedger` and any sequence of
`SentBytes` and `ReceivedBytes` calls with non-negative arguments, `BytesSent`
is the sum of the sent arguments and `BytesRecv` the sum of the received ones,
as 64-bit unsigned values (modulo `2^64`), and `ExchangeCount()` is the number
of calls as a 64-bit unsigned value; these are the plain sums and the plain
number of calls when they are below `2^64`.  While the sum sent and the sum
received plus one are below `2^53`, `Value()` is the quotient of the sum sent
by the sum received plus one, rounded once to `float64`: zero when nothing
was sent, and otherwise a `float64` with a mantissa of 53 bits that is within
half a unit in the last place of the quotient.  When `BytesRecv` is
`2^64 - 1`, `Value()` is `+Inf`, or `NaN` when `BytesSent` is 0. -/
theorem ledger_accounting (p : peer.ID) (calls : List Transfer)
    (hnn : ∀ c ∈ calls, 0 ≤ c.bytes) :
    (((calls.foldl Transfer.apply (newLedger p)).Accounting.BytesSent : Int)
      = sentTotal calls % 2 ^ 64) ∧
    (((calls.foldl Transfer.apply (newLedger p)).Accounting.BytesRecv : Int)
      = recvTotal calls % 2 ^ 64) ∧
    ((calls.foldl Transfer.apply (newLedger p)).ExchangeCount = calls.length % 2 ^ 64) ∧
    (sentTotal calls < 2 ^ 64 → recvTotal calls < 2 ^ 64 → calls.length < 2 ^ 64 →
      ((calls.foldl Transfer.apply (newLedger p)).Accounting.BytesSent : Int)
        = sentTotal calls ∧
      ((calls.foldl Transfer.apply (newLedger p)).Accounting.BytesRecv : Int)
        = recvTotal calls ∧
      (calls.foldl Transfer.apply (newLedger p)).ExchangeCount = calls.length) ∧
    (sentTotal calls < 2 ^ 53 → recvTotal calls + 1 < 2 ^ 53 →
      (calls.foldl Transfer.apply (newLedger p)).Accounting.Value
        = float64.round (sentTotal calls).toNat ((recvTotal calls).toNat + 1) ∧
      (sentTotal calls = 0 →
        (calls.foldl Transfer.apply (newLedger p)).Accounting.Value = float64.fin 0 0) ∧
      (0 < sentTotal calls → ∃ m e,
        (calls.foldl Transfer.apply (newLedger p)).Accounting.Value = float64.fin m e ∧
        2 ^ 52 ≤ m ∧ m < 2 ^ 53 ∧
        |(m : ℚ) * 2 ^ e - (sentTotal calls : ℚ) / ((recvTotal calls : ℚ) + 1)|
          ≤ 2 ^ e / 2)) ∧
    ((calls.foldl Transfer.apply (newLedger p)).Accounting.BytesRecv = 2 ^ 64 - 1 →
      (calls.foldl Transfer.apply (newLedger p)).Accounting.Value
        = if (calls.foldl Transfer.apply (newLedger p)).Accounting.BytesSent = 0
          then float64.nan else float64.inf) := by
  obtain ⟨h1, h2, h3⟩ := counters_foldl calls (newLedger p)
    (by simp [newLedger]) (by simp [newLedger]) (by simp [newLedger])
  have h1' : ((calls.foldl Transfer.apply (newLedger p)).Accounting.BytesSent : Int)
      = sentTotal calls % 2 ^ 64 := by
    rw [h1]; simp [newLedger]
  have h2' : ((calls.foldl Transfer.apply (newLedger p)).Accounting.BytesRecv : Int)
      = recvTotal calls % 2 ^ 64 := by
    rw [h2]; simp [newLedger]
  have h3' : (calls.foldl Transfer.apply (newLedger p)).ExchangeCount
      = calls.length % 2 ^ 64 := by
    unfold ledger.ExchangeCount
    rw [h3]; simp [newLedger]
  have hs0 := sentTotal_nonneg calls hnn
  have hr0 := recvTotal_nonneg calls hnn
  obtain ⟨S, hS⟩ : ∃ S : Nat, S = (calls.foldl Transfer.apply (newLedger p)).Accounting.BytesSent :=
    ⟨_, rfl⟩
  obtain ⟨R, hR⟩ : ∃ R : Nat, R = (calls.foldl Transfer.apply (newLedger p)).Accounting.BytesRecv :=
    ⟨_, rfl⟩
  have hV : (calls.foldl Transfer.apply (newLedger p)).Accounting.Value
      = float64.div (float64.ofUint64 S) (float64.ofUint64 ((R + 1) % 2 ^ 64)) := by
    rw [hS, hR]
    rfl
  rw [← hS] at h1'
  rw [← hR] at h2'
  rw [hV, ← hS, ← hR]
  refine ⟨h1', h2', h3', ?_, ?_, ?_⟩
  · intro hs hr hl
    exact ⟨by rw [h1']; omega, by rw [h2']; omega, by rw [h3']; omega⟩
  · intro hs hr
    have eS : S = (sentTotal calls).toNat := by omega
    have eR : (R + 1) % 2 ^ 64 = (recvTotal calls).toNat + 1 := by omega
    have hSlt : (sentTotal calls).toNat < 2 ^ 53 := by omega
    have hRlt : (recvTotal calls).toNat + 1 < 2 ^ 53 := by omega
    have hVr : float64.div (float64.ofUint64 S) (float64.ofUint64 ((R + 1) % 2 ^ 64))
        = float64.round (sentTotal calls).toNat ((recvTotal calls).toNat + 1) := by
      rw [eS, eR]
      exact div_ofUint64 _ _ hSlt (by omega) hRlt
    rw [hVr]
    refine ⟨rfl, ?_, ?_⟩
    · intro hz
      rw [hz]
      rfl
    · intro hpos
      have hSpos : 0 < (sentTotal calls).toNat := by omega
      have hRpos : 0 < (recvTotal calls).toNat + 1 := by omega
      have hp : ∀ a b : Nat, a ≤ b → 2 ^ a ≤ 2 ^ b :=
        fun a b h => Nat.pow_le_pow_right (by decide) h
      have hp1022 := hp 53 1022 (by decide)
      have hp1023 := hp 53 1023 (by decide)
      have hlo : (recvTotal calls).toNat + 1 ≤ (sentTotal calls).toNat * 2 ^ 1022 :=
        le_trans (le_trans (le_of_lt hRlt) hp1022) (Nat.le_mul_of_pos_left _ hSpos)
      have hhi : (sentTotal calls).toNat < ((recvTotal calls).toNat + 1) * 2 ^ 1023 :=
        lt_of_lt_of_le (lt_of_lt_of_le hSlt hp1023) (Nat.le_mul_of_pos_left _ hRpos)
      obtain ⟨m, e, hme, hm1, hm2, habs⟩ :=
        round_spec (sentTotal calls).toNat ((recvTotal calls).toNat + 1) hSpos hRpos
          hlo hhi
      refine ⟨m, e, hme, hm1, hm2, ?_⟩
      have c1 : (((sentTotal calls).toNat : Nat) : ℚ) = (sentTotal calls : ℚ) := by
        have : (((sentTotal calls).toNat : Nat) : Int) = sentTotal calls :=
          Int.toNat_of_nonneg hs0
        exact_mod_cast this
      have c2 : ((((recvTotal calls).toNat + 1 : Nat)) : ℚ) = (recvTotal calls : ℚ) + 1 := by
        have : (((recvTotal calls).toNat : Nat) : Int) = recvTotal calls :=
          Int.toNat_of_nonneg hr0
        push_cast
        congr 1
        exact_mod_cast this
      rw [c1, c2] at habs
      exact habs
  · intro hwrap
    have hz : (R + 1) % 2 ^ 64 = 0 := by omega
    rw [hz, ofUint64_zero]
    by_cases hS0 : S = 0
    · rw [hS0, ofUint64_zero, if_pos rfl]
      rfl
    · rw [if_neg hS0]
      have hSlt : S < 2 ^ 64 := by omega
      have hSpos : 0 < S := by omega
      have hp : ∀ a b : Nat, a ≤ b → 2 ^ a ≤ 2 ^ b :=
        fun a b h => Nat.pow_le_pow_right (by decide) h
      have hp1 : ∀ a : Nat, 1 ≤ 2 ^ a := fun a => Nat.pow_pos (by decide)
      have hp1022 := hp1 1022
      have hp1023 := hp 64 1023 (by decide)
      obtain ⟨m, e, hme, hm1, -, -⟩ := round_spec S 1 hSpos (by decide)
        (le_trans hp1022 (Nat.le_mul_of_pos_left _ hSpos))
        (by rw [Nat.one_mul]; exact lt_of_lt_of_le hSlt hp1023)
      clear hp1022 hp1023
      unfold float64.ofUint64
      rw [hme]
      have hm0 : m ≠ 0 := by
        have : 0 < 2 ^ 52 := Nat.pow_pos (by decide)
        omega
      simp [float64.div, hm0]

/-- C16 (amended) on scenario S6: three sends of 500 bytes and one receive of
500 bytes give sent 1500, received 500, four exchanges, and a debt ratio that
is the quotient of 1500 by 501 rounded to `float64`. -/
theorem ledger_accounting_witness :
    (∀ c ∈ [Transfer.SentBytes 500 1, Transfer.SentBytes 500 2, Transfer.SentBytes 500 3,
        Transfer.ReceivedBytes 500 4], 0 ≤ c.bytes) ∧
    ((([Transfer.SentBytes 500 1, Transfer.SentBytes 500 2, Transfer.SentBytes 500 3,
        Transfer.ReceivedBytes 500 4].foldl Transfer.apply
        (newLedger "B")).Accounting.BytesSent : Int) = 1500 ∧
     (([Transfer.SentBytes 500 1, Transfer.SentBytes 500 2, Transfer.SentBytes 500 3,
        Transfer.ReceivedBytes 500 4].foldl Transfer.apply
        (newLedger "B")).Accounting.BytesRecv : Int) = 500 ∧
     ([Transfer.SentBytes 500 1, Transfer.SentBytes 500 2, Transfer.SentBytes 500 3,
        Transfer.ReceivedBytes 500 4].foldl Transfer.apply (newLedger "B")).ExchangeCount = 4) ∧
    ([Transfer.SentBytes 500 1, Transfer.SentBytes 500 2, Transfer.SentBytes 500 3,
        Transfer.ReceivedBytes 500 4].foldl Transfer.apply (newLedger "B")).Accounting.Value
      = float64.round 1500 501 := by
  have hnn : ∀ c ∈ [Transfer.SentBytes 500 1, Transfer.SentBytes 500 2,
      Transfer.SentBytes 500 3, Transfer.ReceivedBytes 500 4], 0 ≤ c.bytes := by
    intro c hc
    simp only [List.mem_cons, List.mem_singleton, List.not_mem_nil, or_false] at hc
    rcases hc with rfl | rfl | rfl | rfl <;> decide
  exact ⟨hnn, (ledger_accounting "B" _ hnn).2.2.2.1 (by decide) (by decide) (by decide),
    ((ledger_accounting "B" _ hnn).2.2.2.2.1 (by decide) (by decide)).1⟩

/-- C17 as stated fails, in two ways: `SentBytes(-1)` on a ledger with
`BytesSent` 5 adds `uint64(-1) = 2^64 - 1` and leaves 4; and `ReceivedBytes(1)`
on a ledger whose `BytesRecv` is `2^64 - 1` wraps around to 0. -/
theorem counters_can_decrease :
    ((newLedger "B").SentBytes 5 0).Accounting.BytesSent = 5 ∧
    (((newLedger "B").SentBytes 5 0).SentBytes (-1) 0).Accounting.BytesSent = 4 ∧
    ((newLedger "B").ReceivedBytes (-1) 0).Accounting.BytesRecv = 2 ^ 64 - 1 ∧
    (((newLedger "B").ReceivedBytes (-1) 0).ReceivedBytes 1 0).Accounting.BytesRecv = 0 := by
  refine ⟨by rfl, by rfl, by rfl, by rfl⟩

/-- C17 (amended): for every ledger state and every argument `n ≥ 0` with
`exchangeCount + 1` below `2^64`: when `BytesSent + n` stays below `2^64`,
after `SentBytes(n)` each of `BytesSent`, `BytesRecv` and `exchangeCount` is
at least its value before the call, whatever `BytesRecv` is; and when
`BytesRecv + n` stays below `2^64`, the same holds after `ReceivedBytes(n)`,
whatever `BytesSent` is. -/
theorem counters_monotone (l : ledger) (n : Int) (now : Nat) (hn : 0 ≤ n)
    (hc : l.exchangeCount + 1 < 2 ^ 64) :
    ((l.Accounting.BytesSent : Int) + n < 2 ^ 64 →
      l.Accounting.BytesSent ≤ (l.SentBytes n now).Accounting.BytesSent ∧
      l.Accounting.BytesRecv ≤ (l.SentBytes n now).Accounting.BytesRecv ∧
      l.exchangeCount ≤ (l.SentBytes n now).exchangeCount) ∧
    ((l.Accounting.BytesRecv : Int) + n < 2 ^ 64 →
      l.Accounting.BytesSent ≤ (l.ReceivedBytes n now).Accounting.BytesSent ∧
      l.Accounting.BytesRecv ≤ (l.ReceivedBytes n now).Accounting.BytesRecv ∧
      l.exchangeCount ≤ (l.ReceivedBytes n now).exchangeCount) := by
  have hu := toUint64_cast n
  have h1 : (l.SentBytes n now).Accounting.BytesSent
      = (l.Accounting.BytesSent + toUint64 n) % 2 ^ 64 := rfl
  have h2 : (l.SentBytes n now).Accounting.BytesRecv = l.Accounting.BytesRecv := rfl
  have h3 : (l.SentBytes n now).exchangeCount = (l.exchangeCount + 1) % 2 ^ 64 := rfl
  have h4 : (l.ReceivedBytes n now).Accounting.BytesSent = l.Accounting.BytesSent := rfl
  have h5 : (l.ReceivedBytes n now).Accounting.BytesRecv
      = (l.Accounting.BytesRecv + toUint64 n) % 2 ^ 64 := rfl
  have h6 : (l.ReceivedBytes n now).exchangeCount = (l.exchangeCount + 1) % 2 ^ 64 := rfl
  rw [h1, h2, h3, h4, h5, h6]
  refine ⟨fun hs => ⟨?_, le_refl _, ?_⟩, fun hr => ⟨le_refl _, ?_, ?_⟩⟩ <;> omega

/-- C17 (amended) at a ledger with 5 bytes sent and `2^64 - 1` bytes received:
`SentBytes(7)` lowers no counter, although `BytesRecv` is at its largest
value; and on a ledger with 5 bytes sent `ReceivedBytes(7)` lowers none. -/
theorem counters_monotone_witness :
    (((newLedger "B").SentBytes 5 0).ReceivedBytes (-1) 0).Accounting.BytesRecv = 2 ^ 64 - 1 ∧
    (((newLedger "B").SentBytes 5 0).ReceivedBytes (-1) 0).Accounting.BytesSent
      ≤ ((((newLedger "B").SentBytes 5 0).ReceivedBytes (-1) 0).SentBytes 7
          1).Accounting.BytesSent ∧
    ((newLedger "B").SentBytes 5 0).exchangeCount
      ≤ (((newLedger "B").SentBytes 5 0).ReceivedBytes 7 1).exchangeCount :=
  ⟨by rfl,
   ((counters_monotone (((newLedger "B").SentBytes 5 0).ReceivedBytes (-1) 0) 7 1 (by decide)
      (by decide)).1 (by decide)).1,
   ((counters_monotone ((newLedger "B").SentBytes 5 0) 7 1 (by decide)
      (by decide)).2 (by decide)).2.2⟩

/-! ## Ledger: the partner's wantlist -/

/-- C18 at the failing input: after `Wants(k, 1)` twice and `CancelWant(k)`
once on a new ledger, `WantListContains(k)` still reports `k` wanted, with a
reference count of 1; a second `CancelWant(k)` is needed to remove it. -/
theorem cancel_keeps_counted_want :
    ((((newLedger "B").Wants "k" 1).Wants "k" 1).CancelWant "k").WantListContains "k"
      = some { Key := "k", Priority := 1, RefCnt := 1 } ∧
    (((((newLedger "B").Wants "k" 1).Wants "k" 1).CancelWant "k").CancelWant
      "k").WantListContains "k" = none := by
  refine ⟨by rfl, by rfl⟩

end decision

namespace bitswap

/-! ## Want manager: sending a block -/

/-- C19: for every envelope and either result of `SendMessage`, `SendBlock`
makes one `SendMessage` call, to the envelope's peer, with a non-full message
that holds the envelope's block and no wantlist entry, and after it one call of
the envelope's `Sent`, which is the last thing it does. -/
theorem SendBlock_spec (env : Envelope) (err : Bool) :
    ((WantManager.SendBlock env err).filter Effect.isSent).length = 1 ∧
    ((WantManager.SendBlock env err).filter Effect.isSendMessage).length = 1 ∧
    ∃ pre post m,
      WantManager.SendBlock env err
        = pre ++ [Effect.SendMessage env.Peer m] ++ post ++ [Effect.Sent] ∧
      (pre ++ post).filter (fun x => x.isSent || x.isSendMessage) = [] ∧
      m.full = false ∧ m.wantlist.entries = [] ∧ m.blocks = [env.Block] := by
  cases err
  · exact ⟨rfl, rfl, [Effect.Log], [], _, rfl, rfl, rfl, rfl, rfl⟩
  · exact ⟨rfl, rfl, [Effect.Log], [Effect.Log], _, rfl, rfl, rfl, rfl, rfl⟩

end bitswap

namespace notifications

/-! ## Notifications: subscribing to no key -/

/-- C20: `Subscribe` with zero keys returns a channel that is closed and
empty, so that a receive yields no block and reports the channel closed; it
registers nothing with the wrapped pubsub and starts no forwarding
goroutine. -/
theorem Subscribe_no_keys (ps : impl) :
    (ps.Subscribe []).2.1.closed = true ∧
    (ps.Subscribe []).2.1.buf = [] ∧
    (ps.Subscribe []).2.1.recv = some none ∧
    (ps.Subscribe []).1 = ps ∧
    (ps.Subscribe []).2.2 = false :=
  ⟨rfl, rfl, rfl, rfl, rfl⟩

end notifications

namespace uio

/-! ## DAG reader: seeking -/

/-- C21 on the code: `Seek(o, SEEK_END)` of a DAG reader is
`Seek(S - o, SEEK_SET)`, with the offset subtracted from the file size `S`.
On a file of 10 bytes, `Seek(3, SEEK_END)` returns 7 where `Seek(10 + 3,
SEEK_SET)` fails, and `Seek(-3, SEEK_END)` fails where `Seek(10 - 3, SEEK_SET)`
returns 7. -/
theorem Seek_end_subtracts :
    (∀ (fuel : Nat) (node : mdag.Node) (buf : Reader) (linkPosition : Nat) (off o : Int),
      Reader.Seek (fuel + 1) (Reader.dag node buf linkPosition off) o SEEK_END
        = Reader.Seek fuel (Reader.dag node buf linkPosition off)
            (decision.toInt64 node.Filesize - o) SEEK_SET) ∧
    (Reader.Seek 5 (NewDataFileReader
        (mdag.Node.mk ftpb.DataType.Raw [0, 1, 2, 3, 4, 5, 6, 7, 8, 9] 10 [] []))
        3 SEEK_END).2 = (7, none) ∧
    (Reader.Seek 5 (NewDataFileReader
        (mdag.Node.mk ftpb.DataType.Raw [0, 1, 2, 3, 4, 5, 6, 7, 8, 9] 10 [] []))
        (10 + 3) SEEK_SET).2 = (0, some "EOF") ∧
    (Reader.Seek 5 (NewDataFileReader
        (mdag.Node.mk ftpb.DataType.Raw [0, 1, 2, 3, 4, 5, 6, 7, 8, 9] 10 [] []))
        (-3) SEEK_END).2 = (0, some "EOF") ∧
    (Reader.Seek 5 (NewDataFileReader
        (mdag.Node.mk ftpb.DataType.Raw [0, 1, 2, 3, 4, 5, 6, 7, 8, 9] 10 [] []))
        (10 - 3) SEEK_SET).2 = (7, none) := by
  refine ⟨?_, by rfl, by rfl, by rfl, by rfl⟩
  intro fuel node buf linkPosition off o
  rfl

/-- C22 at the failing input: a file of size 3 whose root has no inline data
and one raw child holding 97, 98, 99.  `Seek(3, SEEK_SET)` on a new reader
succeeds, returns 3 and sets `Offset()` to 3, but leaves the reader at the
start of the child: the next read yields the three bytes of the child, while
the file content from position 3 on is empty. -/
theorem Seek_to_end_rereads :
    (Reader.Seek 5 (NewDataFileReader
        (mdag.Node.mk ftpb.DataType.File [] 3 [3]
          [some (mdag.Node.mk ftpb.DataType.Raw [97, 98, 99] 3 [] [])]))
        3 SEEK_SET).2 = (3, none) ∧
    (Reader.Seek 5 (NewDataFileReader
        (mdag.Node.mk ftpb.DataType.File [] 3 [3]
          [some (mdag.Node.mk ftpb.DataType.Raw [97, 98, 99] 3 [] [])]))
        3 SEEK_SET).1.Offset = 3 ∧
    (Reader.Read 5 (Reader.Seek 5 (NewDataFileReader
        (mdag.Node.mk ftpb.DataType.File [] 3 [3]
          [some (mdag.Node.mk ftpb.DataType.Raw [97, 98, 99] 3 [] [])]))
        3 SEEK_SET).1 10).2.1 = [97, 98, 99] ∧
    (fileContent 5
        (mdag.Node.mk ftpb.DataType.File [] 3 [3]
          [some (mdag.Node.mk ftpb.DataType.Raw [97, 98, 99] 3 [] [])])).drop 3 = [] := by
  refine ⟨by rfl, by rfl, by rfl, by rfl⟩

end uio

namespace mod

/-! ## DAG modifier: writing at an offset, truncating -/

/-- C23 at the failing input: on a new modifier over an empty file,
`WriteAt([97, 98, 99], 0)` buffers the three bytes at `writeStart` 0; then
`WriteAt([120, 121], 0)` returns `(2, nil)` but appends to the buffer, so that
the logical content starts with 97, 98 and not with 120, 121, and `curWrOff`
is 5 and not 2.  `Sync` and `expandSparse` are not called. -/
theorem WriteAt_appends_at_writeStart (env : Rebuild) :
    (DagModifier.WriteAt env
        (DagModifier.WriteAt env
          (NewDagModifier (mdag.Node.mk ftpb.DataType.Raw [] 0 [] [])) [97, 98, 99] 0).1
        [120, 121] 0).2 = (2, none) ∧
    (DagModifier.WriteAt env
        (DagModifier.WriteAt env
          (NewDagModifier (mdag.Node.mk ftpb.DataType.Raw [] 0 [] [])) [97, 98, 99] 0).1
        [120, 121] 0).1.wrBuf = some [97, 98, 99, 120, 121] ∧
    (DagModifier.WriteAt env
        (DagModifier.WriteAt env
          (NewDagModifier (mdag.Node.mk ftpb.DataType.Raw [] 0 [] [])) [97, 98, 99] 0).1
        [120, 121] 0).1.writeStart = 0 ∧
    (DagModifier.WriteAt env
        (DagModifier.WriteAt env
          (NewDagModifier (mdag.Node.mk ftpb.DataType.Raw [] 0 [] [])) [97, 98, 99] 0).1
        [120, 121] 0).1.curWrOff = 5 ∧
    ((DagModifier.WriteAt env
        (DagModifier.WriteAt env
          (NewDagModifier (mdag.Node.mk ftpb.DataType.Raw [] 0 [] [])) [97, 98, 99] 0).1
        [120, 121] 0).1.content 5).take 2 = [97, 98] := by
  refine ⟨by rfl, by rfl, by rfl, by rfl, by rfl⟩

/-- C26 at the failing input: a file of size 6 with two raw children of three
bytes each.  The data sizes of the children sum to 6, and `dagTruncate` to
size 6 finds no child to cut, is left with `modified == nil` and returns no
node; so does `Truncate(6)` of a modifier over this file with nothing
buffered (for which `Sync` does nothing).  Truncating to 4 succeeds. -/
theorem dagTruncate_full_size_fails (expandSparse : DagModifier → Int → Except String DagModifier) :
    ft.DataSize (mdag.Node.mk ftpb.DataType.File [] 6 [3, 3]
        [some (mdag.Node.mk ftpb.DataType.Raw [1, 2, 3] 3 [] []),
         some (mdag.Node.mk ftpb.DataType.Raw [4, 5, 6] 3 [] [])]) = Except.ok 6 ∧
    (dagTruncate 5 (mdag.Node.mk ftpb.DataType.File [] 6 [3, 3]
        [some (mdag.Node.mk ftpb.DataType.Raw [1, 2, 3] 3 [] []),
         some (mdag.Node.mk ftpb.DataType.Raw [4, 5, 6] 3 [] [])]) 6).toOption = none ∧
    ((NewDagModifier (mdag.Node.mk ftpb.DataType.File [] 6 [3, 3]
        [some (mdag.Node.mk ftpb.DataType.Raw [1, 2, 3] 3 [] []),
         some (mdag.Node.mk ftpb.DataType.Raw [4, 5, 6] 3 [] [])])).Truncate
      { Sync := fun dm => Except.ok dm, expandSparse := expandSparse } 5 6).toOption = none ∧
    ((dagTruncate 5 (mdag.Node.mk ftpb.DataType.File [] 6 [3, 3]
        [some (mdag.Node.mk ftpb.DataType.Raw [1, 2, 3] 3 [] []),
         some (mdag.Node.mk ftpb.DataType.Raw [4, 5, 6] 3 [] [])]) 4).toOption.map
      (uio.fileContent 5)) = some [1, 2, 3, 4] := by
  refine ⟨by rfl, by rfl, by rfl, by rfl⟩

end mod

namespace blockstore_util

/-! ## Removing blocks -/

theorem ProcRmOutput_loop_abort (pre : List RemovedBlock) (r : RemovedBlock)
    (post : List RemovedBlock) (someFailed : Bool)
    (hpre : ∀ x ∈ pre, ¬ (x.Hash = "" ∧ x.Error ≠ ""))
    (hr : r.Hash = "" ∧ r.Error ≠ "") :
    (ProcRmOutput.loop someFailed (pre ++ r :: post)).2.2 = some ("aborted: " ++ r.Error) := by
  induction pre generalizing someFailed with
  | nil => simp [ProcRmOutput.loop, hr.1, hr.2]
  | cons x xs ih =>
    have hx := hpre x (List.mem_cons_self _ _)
    have hxs : ∀ y ∈ xs, ¬ (y.Hash = "" ∧ y.Error ≠ "") :=
      fun y hy => hpre y (List.mem_cons_of_mem _ hy)
    simp only [List.cons_append, ProcRmOutput.loop]
    rw [if_neg hx]
    by_cases he : x.Error ≠ ""
    · rw [if_pos he]
      exact ih true hxs
    · rw [if_neg he]
      exact ih someFailed hxs

theorem pin_check_failed_ne_empty (err : String) : "pin check failed: " ++ err ≠ "" := by
  intro h
  have hl := congrArg String.length h
  rw [String.length_append] at hl
  have h18 : "pin check failed: ".length = 18 := by decide
  have h0 : "".length = 0 := by decide
  omega

/-- C24: when `CheckIfPinned` fails, `RmBlocks` sends exactly one result
before the channel is closed, with an empty `Hash` and the non-empty `Error`
"pin check failed: ..." and never calls `DeleteBlock`, whatever the options
and the blockstore; and `ProcRmOutput`, on the first result it reads that has
an empty `Hash` and a non-empty `Error`, returns the error "aborted: "
followed by that `Error`, as it does on the output of the aborted
`RmBlocks`. -/
theorem RmBlocks_aborts (err : String) (delete : Nat → String → DeleteResult)
    (opts : RmBlocksOpts) :
    (RmBlocks (Except.error err) delete opts).1
      = [{ Hash := "", Error := "pin check failed: " ++ err }] ∧
    "pin check failed: " ++ err ≠ "" ∧
    (RmBlocks (Except.error err) delete opts).2 = [] ∧
    (∀ (pre : List RemovedBlock) (r : RemovedBlock) (post : List RemovedBlock),
      (∀ x ∈ pre, ¬ (x.Hash = "" ∧ x.Error ≠ "")) → r.Hash = "" → r.Error ≠ "" →
      (ProcRmOutput (pre ++ r :: post)).2.2 = some ("aborted: " ++ r.Error)) ∧
    (ProcRmOutput (RmBlocks (Except.error err) delete opts).1).2.2
      = some ("aborted: " ++ ("pin check failed: " ++ err)) := by
  have h1 : (RmBlocks (Except.error err) delete opts).1
      = [{ Hash := "", Error := "pin check failed: " ++ err }] := rfl
  have hab : ∀ (pre : List RemovedBlock) (r : RemovedBlock) (post : List RemovedBlock),
      (∀ x ∈ pre, ¬ (x.Hash = "" ∧ x.Error ≠ "")) → r.Hash = "" → r.Error ≠ "" →
      (ProcRmOutput (pre ++ r :: post)).2.2 = some ("aborted: " ++ r.Error) :=
    fun pre r post hpre hh he => ProcRmOutput_loop_abort pre r post false hpre ⟨hh, he⟩
  refine ⟨h1, pin_check_failed_ne_empty err, rfl, hab, ?_⟩
  rw [h1]
  exact hab [] { Hash := "", Error := "pin check failed: " ++ err } [] (fun x hx => by cases hx)
    rfl (pin_check_failed_ne_empty err)

/-- C24 on an output of two results, a removed block and then an abort. -/
theorem RmBlocks_aborts_witness :
    (ProcRmOutput [{ Hash := "Qm1", Error := "" },
        { Hash := "", Error := "pin check failed: x" }]).2.2
      = some ("aborted: " ++ "pin check failed: x") :=
  (RmBlocks_aborts "x" (fun _ _ => DeleteResult.ok)
      { Prefix := "", Quiet := false, Force := false }).2.2.2.1
    [{ Hash := "Qm1", Error := "" }] { Hash := "", Error := "pin check failed: x" } []
    (by
      intro x hx
      simp only [List.mem_singleton] at hx
      subst hx
      decide)
    rfl (by decide)

theorem FilterPinned_loop_spec (res : List Pinned) :
    (FilterPinned.loop res).2 = (res.filter (fun r => !r.Pinned)).map (fun r => r.Key) ∧
    (FilterPinned.loop res).1
      = (res.filter (fun r => r.Pinned)).map
          (fun r => ({ Hash := r.Key, Error := r.String } : RemovedBlock)) := by
  induction res with
  | nil => exact ⟨rfl, rfl⟩
  | cons r rest ih =>
    unfold FilterPinned.loop
    cases hp : r.Pinned <;> simp [hp, ih.1, ih.2]

theorem RmBlocks_loop_calls (delete : Nat → String → DeleteResult) (opts : RmBlocksOpts)
    (cids : List String) (i : Nat) : (RmBlocks.loop delete opts i cids).2 = cids := by
  induction cids generalizing i with
  | nil => rfl
  | cons c rest ih => simp [RmBlocks.loop, ih]

/-- C27 as stated fails: for the cids `a`, `b` and a pinner that answers with
one result per cid, `b` first, both not pinned, `FilterPinned` returns `b`,
`a`, which is not the list of the not pinned cids in their original order,
and `RmBlocks` calls `DeleteBlock` in that order. -/
theorem FilterPinned_pinner_order :
    ([({ Key := "b", Pinned := false, String := "" } : Pinned),
        { Key := "a", Pinned := false, String := "" }].map (fun r => r.Key)).Perm ["a", "b"] ∧
    (FilterPinned (Except.ok [{ Key := "b", Pinned := false, String := "" },
        { Key := "a", Pinned := false, String := "" }])).2 = ["b", "a"] ∧
    ¬ (FilterPinned (Except.ok [{ Key := "b", Pinned := false, String := "" },
        { Key := "a", Pinned := false, String := "" }])).2.Sublist ["a", "b"] ∧
    (RmBlocks (Except.ok [{ Key := "b", Pinned := false, String := "" },
        { Key := "a", Pinned := false, String := "" }])
      (fun _ _ => DeleteResult.ok) { Prefix := "", Quiet := false, Force := false }).2
      = ["b", "a"] := by
  refine ⟨by decide, by rfl, ?_, by rfl⟩
  have h : (FilterPinned (Except.ok [{ Key := "b", Pinned := false, String := "" },
      { Key := "a", Pinned := false, String := "" }])).2 = ["b", "a"] := rfl
  rw [h]
  decide

/-- C27 (amended): when `CheckIfPinned` returns one result per cid, in any
order, `FilterPinned` returns the cids reported as not pinned, in the order of
the pinner's results (a part of the cids, and in their original order when the
pinner answers in the order of the cids), and sends one result with the cid as
`Hash` and the pin description as `Error` for each pinned cid; and `RmBlocks`
calls `DeleteBlock` on exactly the cids returned, each a cid of the request
reported as not pinned and none more often than it occurs among the cids, for
every setting of the options and every behaviour of the blockstore. -/
theorem FilterPinned_spec (res : List Pinned) (cids : List String)
    (hres : (res.map (fun r => r.Key)).Perm cids) (delete : Nat → String → DeleteResult)
    (opts : RmBlocksOpts) :
    (FilterPinned (Except.ok res)).2
      = (res.filter (fun r => !r.Pinned)).map (fun r => r.Key) ∧
    (FilterPinned (Except.ok res)).2.Subperm cids ∧
    (res.map (fun r => r.Key) = cids → (FilterPinned (Except.ok res)).2.Sublist cids) ∧
    (FilterPinned (Except.ok res)).1
      = (res.filter (fun r => r.Pinned)).map
          (fun r => ({ Hash := r.Key, Error := r.String } : RemovedBlock)) ∧
    (RmBlocks (Except.ok res) delete opts).2
      = (res.filter (fun r => !r.Pinned)).map (fun r => r.Key) ∧
    (∀ c, c ∈ (RmBlocks (Except.ok res) delete opts).2 →
      c ∈ cids ∧ ∃ r ∈ res, r.Key = c ∧ r.Pinned = false) ∧
    (∀ c, (RmBlocks (Except.ok res) delete opts).2.count c ≤ cids.count c) := by
  obtain ⟨h1, h2⟩ := FilterPinned_loop_spec res
  have h3 : (RmBlocks (Except.ok res) delete opts).2
      = (res.filter (fun r => !r.Pinned)).map (fun r => r.Key) := by
    unfold RmBlocks
    rw [RmBlocks_loop_calls]
    exact h1
  have hsub : ((res.filter (fun r => !r.Pinned)).map (fun r => r.Key)).Sublist
      (res.map (fun r => r.Key)) := (List.filter_sublist res).map _
  have hsp : ((res.filter (fun r => !r.Pinned)).map (fun r => r.Key)).Subperm cids :=
    hsub.subperm.trans hres.subperm
  refine ⟨h1, ?_, ?_, h2, h3, ?_, ?_⟩
  · show (FilterPinned.loop res).2.Subperm cids
    rw [h1]
    exact hsp
  · intro heq
    show (FilterPinned.loop res).2.Sublist cids
    rw [h1, ← heq]
    exact hsub
  · intro c hc
    rw [h3] at hc
    refine ⟨hsp.subset hc, ?_⟩
    obtain ⟨r, hr, hk⟩ := List.mem_map.1 hc
    rw [List.mem_filter] at hr
    exact ⟨r, hr.1, hk, by simpa using hr.2⟩
  · intro c
    rw [h3]
    exact hsp.count_le c

/-- C27 (amended) on three cids of which one is pinned, answered in another
order, with `Force` and `Quiet` set and a blockstore that never finds a
block. -/
theorem FilterPinned_spec_witness :
    ([({ Key := "Qm3", Pinned := false, String := "not pinned" } : Pinned),
        { Key := "Qm2", Pinned := true, String := "pinned: recursive" },
        { Key := "Qm1", Pinned := false, String := "not pinned" }].map
      (fun r => r.Key)).Perm ["Qm1", "Qm2", "Qm3"] ∧
    (RmBlocks (Except.ok [{ Key := "Qm3", Pinned := false, String := "not pinned" },
        { Key := "Qm2", Pinned := true, String := "pinned: recursive" },
        { Key := "Qm1", Pinned := false, String := "not pinned" }])
      (fun _ _ => DeleteResult.notFound) { Prefix := "", Quiet := true, Force := true }).2
      = ["Qm3", "Qm1"] :=
  ⟨by decide,
   (FilterPinned_spec [{ Key := "Qm3", Pinned := false, String := "not pinned" },
      { Key := "Qm2", Pinned := true, String := "pinned: recursive" },
      { Key := "Qm1", Pinned := false, String := "not pinned" }] ["Qm1", "Qm2", "Qm3"]
    (by decide)
    (fun _ _ => DeleteResult.notFound) { Prefix := "", Quiet := true, Force := true }).2.2.2.2.1⟩

end blockstore_util

namespace bitswap

/-! ## Peer queue: one `doWork` step -/

/-- C25: `doWork` as a step on sender and pending message.  (i) Without a
sender, when `ConnectTo` or `NewMessageSender` fails the queue is left as it
was and nothing is sent.  (ii) With a sender `s` (held before, or just
opened), when the pending message is `nil` or empty the pending message is
unchanged and nothing is sent.  (iii) Otherwise the pending message is taken
(`out` becomes `nil`) and passed to `SendMsg` once, as the last call but for
`Close`; the sender is kept when `SendMsg` succeeds, and closed and set to
`nil` when it fails, the taken message not being restored. -/
theorem doWork_step (mq : msgQueue) (net : Outcome) :
    (mq.sender = none → net.ConnectTo = false →
      mq.doWork net = (mq, [NetCall.ConnectTo mq.p])) ∧
    (mq.sender = none → net.ConnectTo = true → net.NewMessageSender = none →
      mq.doWork net = (mq, [NetCall.ConnectTo mq.p, NetCall.NewMessageSender mq.p none])) ∧
    (∀ s, mq.sender = some s →
      (mq.out = none ∨ ∃ m, mq.out = some m ∧ m.Empty = true) →
      mq.doWork net = (mq, [])) ∧
    (∀ s, mq.sender = none → net.ConnectTo = true → net.NewMessageSender = some s →
      (mq.out = none ∨ ∃ m, mq.out = some m ∧ m.Empty = true) →
      mq.doWork net = ({ mq with sender := some s },
        [NetCall.ConnectTo mq.p, NetCall.NewMessageSender mq.p (some s)])) ∧
    (∀ s m, mq.sender = some s → mq.out = some m → m.Empty = false →
      mq.doWork net =
        if net.SendMsg then ({ mq with out := none }, [NetCall.SendMsg s m])
        else ({ mq with out := none, sender := none },
              [NetCall.SendMsg s m, NetCall.Close s])) ∧
    (∀ s m, mq.sender = none → net.ConnectTo = true → net.NewMessageSender = some s →
      mq.out = some m → m.Empty = false →
      mq.doWork net =
        if net.SendMsg then
          ({ mq with out := none, sender := some s },
           [NetCall.ConnectTo mq.p, NetCall.NewMessageSender mq.p (some s),
            NetCall.SendMsg s m])
        else
          ({ mq with out := none, sender := none },
           [NetCall.ConnectTo mq.p, NetCall.NewMessageSender mq.p (some s),
            NetCall.SendMsg s m, NetCall.Close s])) := by
  have hidle : ∀ (q : msgQueue) (s : Nat),
      (q.out = none ∨ ∃ m, q.out = some m ∧ m.Empty = true) →
      msgQueue.doWork.send q s net = (q, []) := by
    intro q s h
    unfold msgQueue.doWork.send
    rcases h with h | ⟨m, hm, he⟩
    · rw [h]
    · rw [hm]; simp [he]
  have hsend : ∀ (q : msgQueue) (s : Nat) (m : bsmsg.BitSwapMessage),
      q.out = some m → m.Empty = false →
      msgQueue.doWork.send q s net =
        if net.SendMsg then ({ q with out := none }, [NetCall.SendMsg s m])
        else ({ q with out := none, sender := none },
              [NetCall.SendMsg s m, NetCall.Close s]) := by
    intro q s m hm he
    unfold msgQueue.doWork.send
    rw [hm]
    simp [he]
  refine ⟨?_, ?_, ?_, ?_, ?_, ?_⟩
  · intro hs hc
    unfold msgQueue.doWork
    rw [hs]
    simp [hc]
  · intro hs hc hn
    unfold msgQueue.doWork
    rw [hs]
    simp [hc, hn]
  · intro s hs h
    unfold msgQueue.doWork
    rw [hs]
    exact hidle mq s h
  · intro s hs hc hn h
    unfold msgQueue.doWork
    rw [hs]
    simp only [hc, hn, if_true]
    rw [hidle { mq with sender := some s } s h]
    rfl
  · intro s m hs hm he
    have hdw : mq.doWork net = msgQueue.doWork.send mq s net := by
      unfold msgQueue.doWork
      rw [hs]
    rw [hdw]
    exact hsend mq s m hm he
  · intro s m hs hc hn hm he
    unfold msgQueue.doWork
    rw [hs]
    simp only [hc, hn, if_true]
    rw [hsend { mq with sender := some s } s m hm he]
    cases net.SendMsg <;> rfl

/-- C25 on a seeded queue with one want pending: a failed `ConnectTo` leaves
it as it was; a successful connect, open and failed send leave it without
sender and without pending message. -/
theorem doWork_step_witness :
    (seedQueue (wantlist.New.Add "a" 5).1 "P").doWork
        { ConnectTo := false, NewMessageSender := some 1, SendMsg := true }
      = (seedQueue (wantlist.New.Add "a" 5).1 "P", [NetCall.ConnectTo "P"]) ∧
    ((seedQueue (wantlist.New.Add "a" 5).1 "P").doWork
        { ConnectTo := true, NewMessageSender := some 1, SendMsg := false }).1.sender = none ∧
    (((seedQueue (wantlist.New.Add "a" 5).1 "P").doWork
        { ConnectTo := true, NewMessageSender := some 1, SendMsg := false }).1.out).isNone
      = true := by
  have h := doWork_step (seedQueue (wantlist.New.Add "a" 5).1 "P")
    { ConnectTo := true, NewMessageSender := some 1, SendMsg := false }
  have h6 := h.2.2.2.2.2 1 _ rfl rfl rfl rfl rfl
  refine ⟨(doWork_step (seedQueue (wantlist.New.Add "a" 5).1 "P")
    { ConnectTo := false, NewMessageSender := some 1, SendMsg := true }).1 rfl rfl, ?_, ?_⟩
  · rw [h6]; rfl
  · rw [h6]; rfl

end bitswap

namespace blockstore

/-! ## ARC cache over a blockstore -/

/-- C28 at the failing input: on an empty store with an empty cache, `Has("k")`
caches `k -> false`, and cache and store are coherent; then `PutMany` of a
block for `"k"` and a block for `"j"` in which the wrapped `PutMany` writes the
first block and fails leaves the cache entry `k -> false` although the store
now holds `"k"`, so that cache and store are no longer coherent and `Has("k")`
on the wrapper answers false. -/
theorem PutMany_failure_breaks_coherence :
    ((arccache.mk ∅ ∅ 0 0).Has "k" { fail := false, written := 0, evicted := [] }).1.Coherent ∧
    ((((arccache.mk ∅ ∅ 0 0).Has "k" { fail := false, written := 0, evicted := [] }).1.PutMany
        [{ Key := "k", Data := [1] }, { Key := "j", Data := [2] }]
        { fail := true, written := 1, evicted := [] }).2 = some Err.other) ∧
    ((((arccache.mk ∅ ∅ 0 0).Has "k" { fail := false, written := 0, evicted := [] }).1.PutMany
        [{ Key := "k", Data := [1] }, { Key := "j", Data := [2] }]
        { fail := true, written := 1, evicted := [] }).1.arc.lookup "k" = some false) ∧
    (((((arccache.mk ∅ ∅ 0 0).Has "k" { fail := false, written := 0, evicted := [] }).1.PutMany
        [{ Key := "k", Data := [1] }, { Key := "j", Data := [2] }]
        { fail := true, written := 1, evicted := [] }).1.blockstore.lookup "k").isSome
      = true) ∧
    ¬ ((((arccache.mk ∅ ∅ 0 0).Has "k" { fail := false, written := 0, evicted := [] }).1.PutMany
        [{ Key := "k", Data := [1] }, { Key := "j", Data := [2] }]
        { fail := true, written := 1, evicted := [] }).1.Coherent) ∧
    ((((((arccache.mk ∅ ∅ 0 0).Has "k" { fail := false, written := 0, evicted := [] }).1.PutMany
        [{ Key := "k", Data := [1] }, { Key := "j", Data := [2] }]
        { fail := true, written := 1, evicted := [] }).1.Has "k"
        { fail := false, written := 0, evicted := [] }).2) = (false, none)) := by
  refine ⟨?_, by rfl, by rfl, by rfl, ?_, by rfl⟩
  · intro k v h
    have harc : ((arccache.mk ∅ ∅ 0 0).Has "k"
        { fail := false, written := 0, evicted := [] }).1.arc
        = AList.insert "k" false ∅ := rfl
    have hst : ((arccache.mk ∅ ∅ 0 0).Has "k"
        { fail := false, written := 0, evicted := [] }).1.blockstore = ∅ := rfl
    rw [harc] at h
    rw [hst]
    by_cases hk : k = "k"
    · subst hk
      rw [AList.lookup_insert] at h
      cases h
      rfl
    · rw [AList.lookup_insert_ne hk] at h
      cases h
  · intro hco
    have := hco "k" false (by rfl)
    revert this
    decide

end blockstore

namespace supernode

/-! ## Supernode server: `ADD_PROVIDER` -/

theorem foldl_insert_values (S : Message_Peer → Prop) (l : List Message_Peer)
    (m : AList (fun _ : String => Message_Peer)) (hm : ∀ e ∈ m.entries, S e.2)
    (hl : ∀ x ∈ l, S x) :
    ∀ e ∈ (l.foldl (fun m provider => m.insert provider.Id provider) m).entries, S e.2 := by
  induction l generalizing m with
  | nil => exact hm
  | cons x xs ih =>
    simp only [List.foldl_cons]
    apply ih
    · intro e he
      rw [AList.insert_entries] at he
      rcases List.mem_cons.1 he with h | h
      · rw [h]; exact hl x (List.mem_cons_self _ _)
      · exact hm e ((List.kerase_sublist _ _).subset h)
    · intro y hy
      exact hl y (List.mem_cons_of_mem _ hy)

/-- What a successful `putRoutingProviders` of one record writes: under the
provider key of `k`, records that were stored there or the new record; under
other keys, what was there. -/
theorem putRoutingProviders_spec (ds ds' : AList (fun _ : String => Stored)) (k : key.Key)
    (provider : Message_Peer) (o : DsOutcome)
    (h : putRoutingProviders ds k [provider] o = (ds', none)) :
    ∀ k' ps', ds'.lookup k' = some (Stored.providers ps') → ∀ x ∈ ps',
      (∃ ps0, ds.lookup k' = some (Stored.providers ps0) ∧ x ∈ ps0) ∨
      (x = provider ∧ k' = providerKey k) := by
  unfold putRoutingProviders at h
  cases hg : getRoutingProviders ds k o with
  | error err => rw [hg] at h; cases h
  | ok oldRecords =>
    rw [hg] at h
    have hold : ∀ x ∈ oldRecords,
        ∃ ps0, ds.lookup (providerKey k) = some (Stored.providers ps0) ∧ x ∈ ps0 := by
      unfold getRoutingProviders at hg
      by_cases hf : o.getFails = true
      · simp only [hf, if_true] at hg
        cases hg
        intro x hx; cases hx
      · simp only [hf] at hg
        cases hl : ds.lookup (providerKey k) with
        | none => rw [hl] at hg; cases hg; intro x hx; cases hx
        | some st =>
          rw [hl] at hg
          cases st with
          | notBytes => cases hg; intro x hx; cases hx
          | garbage => cases hg
          | providers ps => cases hg; intro x hx; exact ⟨_, rfl, hx⟩
    by_cases hp : o.putFails = true
    · simp only [hp, if_true] at h
      cases h
    · simp only [hp] at h
      cases h
      intro k' ps' hlk x hx
      by_cases hk : k' = providerKey k
      · subst hk
        rw [AList.lookup_insert] at hlk
        cases hlk
        obtain ⟨e, he, rfl⟩ := List.mem_map.1 hx
        have hS := foldl_insert_values
          (fun y => (∃ ps0, ds.lookup (providerKey k) = some (Stored.providers ps0) ∧ y ∈ ps0)
            ∨ y = provider)
          [provider]
          (oldRecords.foldl (fun m provider => m.insert provider.Id provider) ∅)
          (foldl_insert_values
            (fun y => (∃ ps0, ds.lookup (providerKey k) = some (Stored.providers ps0) ∧ y ∈ ps0)
              ∨ y = provider)
            oldRecords ∅ (fun e he => by cases he)
            (fun y hy => Or.inl (hold y hy)))
          (fun y hy => Or.inr (List.mem_singleton.1 hy)) e he
        rcases hS with h1 | h1
        · exact Or.inl h1
        · exact Or.inr ⟨h1, rfl⟩
      · rw [AList.lookup_insert_ne hk] at hlk
        exact Or.inl ⟨ps', hlk, hx⟩

theorem addProviders_spec (p : peer.ID) (k : key.Key) (outs : Nat → DsOutcome)
    (all : List Message_Peer) (s0 : Server) (rest : List Message_Peer) (i : Nat) (s : Server)
    (hrest : ∀ x ∈ rest, x ∈ all)
    (hps : ∃ added, s.peerstore = s0.peerstore ++ added ∧ ∀ a ∈ added, a.1 = p)
    (hds : ∀ k' ps', s.routingBackend.lookup k' = some (Stored.providers ps') → ∀ x ∈ ps',
      (∃ ps0, s0.routingBackend.lookup k' = some (Stored.providers ps0) ∧ x ∈ ps0) ∨
      (x.Id = p ∧ x ∈ all ∧ k' = providerKey k)) :
    (∃ added, (handleMessage.addProviders p k outs i s rest).peerstore
        = s0.peerstore ++ added ∧ ∀ a ∈ added, a.1 = p) ∧
    (∀ k' ps', (handleMessage.addProviders p k outs i s rest).routingBackend.lookup k'
        = some (Stored.providers ps') → ∀ x ∈ ps',
      (∃ ps0, s0.routingBackend.lookup k' = some (Stored.providers ps0) ∧ x ∈ ps0) ∨
      (x.Id = p ∧ x ∈ all ∧ k' = providerKey k)) := by
  induction rest generalizing i s with
  | nil => exact ⟨hps, hds⟩
  | cons provider rest ih =>
    have hrest' : ∀ x ∈ rest, x ∈ all := fun x hx => hrest x (List.mem_cons_of_mem _ hx)
    unfold handleMessage.addProviders
    by_cases hid : provider.Id = p
    · simp only [hid, if_true]
      have hps1 : ∃ added, storeProvidersToPeerstore s.peerstore p [provider]
          = s0.peerstore ++ added ∧ ∀ a ∈ added, a.1 = p := by
        obtain ⟨added, h1, h2⟩ := hps
        refine ⟨added ++ provider.Addrs.map (fun maddr => (p, maddr)), ?_, ?_⟩
        · simp [storeProvidersToPeerstore, hid, h1]
        · intro a ha
          rcases List.mem_append.1 ha with h | h
          · exact h2 a h
          · obtain ⟨m, _, rfl⟩ := List.mem_map.1 h
            rfl
      cases hput : putRoutingProviders s.routingBackend k [provider] (outs i) with
      | mk ds err =>
        cases err with
        | some e => exact ⟨hps1, hds⟩
        | none =>
          apply ih (i + 1) _ hrest' hps1
          intro k' ps' hlk x hx
          rcases putRoutingProviders_spec _ _ _ _ _ hput k' ps' hlk x hx with h | h
          · obtain ⟨ps0, h1, h2⟩ := h
            exact hds k' ps0 h1 x h2
          · exact Or.inr ⟨by rw [h.1]; exact hid,
              by rw [h.1]; exact hrest provider (List.mem_cons_self _ _), h.2⟩
    · simp only [hid, if_false]
      exact ih (i + 1) s hrest' hps hds

/-- C29: for an `ADD_PROVIDER` request received from peer `p`, the handler
returns no response; every address it adds to the peerstore is added for `p`;
and every provider record held by the routing backend afterwards either was
held under the same key before or is a record of the request with `Id` equal
to `p`, stored under the provider key of the request's key.  So a record of
the request that names another peer is not stored. -/
theorem add_provider_only_sender (s : Server) (p : peer.ID) (k : key.Key)
    (providerPeers : List Message_Peer) (outs : Nat → DsOutcome) :
    (s.handleMessage_ADD_PROVIDER p k providerPeers outs).2 = ("", none) ∧
    (∃ added, (s.handleMessage_ADD_PROVIDER p k providerPeers outs).1.peerstore
        = s.peerstore ++ added ∧ ∀ a ∈ added, a.1 = p) ∧
    (∀ k' ps', (s.handleMessage_ADD_PROVIDER p k providerPeers outs).1.routingBackend.lookup k'
        = some (Stored.providers ps') → ∀ x ∈ ps',
      (∃ ps0, s.routingBackend.lookup k' = some (Stored.providers ps0) ∧ x ∈ ps0) ∨
      (x.Id = p ∧ x ∈ providerPeers ∧ k' = providerKey k)) ∧
    (∀ k' ps' x, (s.handleMessage_ADD_PROVIDER p k providerPeers outs).1.routingBackend.lookup k'
        = some (Stored.providers ps') → x ∈ ps' → x.Id ≠ p →
      ∃ ps0, s.routingBackend.lookup k' = some (Stored.providers ps0) ∧ x ∈ ps0) := by
  obtain ⟨h1, h2⟩ := addProviders_spec p k outs providerPeers s providerPeers 0 s
    (fun x hx => hx) ⟨[], by simp, fun a ha => by cases ha⟩
    (fun k' ps' hlk x hx => Or.inl ⟨ps', hlk, hx⟩)
  refine ⟨rfl, h1, h2, ?_⟩
  intro k' ps' x hlk hx hne
  rcases h2 k' ps' hlk x hx with h | h
  · exact h
  · exact absurd h.1 hne

/-- C29 on a request from `"P"` that names `"Q"` and `"P"`, on a server that
holds nothing: the address of `"P"` alone is added, and every record stored
under the provider key names `"P"`. -/
theorem add_provider_only_sender_witness :
    ((Server.mk "S" ∅ []).handleMessage_ADD_PROVIDER "P" "key"
        [{ Id := "Q", Addrs := ["/ip4/1.1.1.1"] }, { Id := "P", Addrs := ["/ip4/2.2.2.2"] }]
        (fun _ => { getFails := false, putFails := false })).1.peerstore
      = [("P", "/ip4/2.2.2.2")] ∧
    ∀ x ∈ [({ Id := "P", Addrs := ["/ip4/2.2.2.2"] } : Message_Peer)], x.Id = "P" := by
  refine ⟨by rfl, ?_⟩
  intro x hx
  rcases (add_provider_only_sender (Server.mk "S" ∅ []) "P" "key"
      [{ Id := "Q", Addrs := ["/ip4/1.1.1.1"] }, { Id := "P", Addrs := ["/ip4/2.2.2.2"] }]
      (fun _ => { getFails := false, putFails := false })).2.2.1
      (providerKey "key") [{ Id := "P", Addrs := ["/ip4/2.2.2.2"] }] rfl x hx with h | h
  · obtain ⟨ps0, hlk, _⟩ := h
    have hnone : (Server.mk "S" ∅ []).routingBackend.lookup (providerKey "key") = none := rfl
    rw [hnone] at hlk
    cases hlk
  · exact h.1

end supernode

namespace config

/-! ## Configuration: domain name and group id -/

theorem Split_aux_skip (sep a rest cur : List Char) :
    strings.Split.aux sep (a ++ rest) cur a.length = strings.Split.aux sep rest cur 0 := by
  induction a with
  | nil => rfl
  | cons c cs ih => simpa [strings.Split.aux] using ih

theorem Split_aux_match (c : Char) (sep' rest cur : List Char) :
    strings.Split.aux (c :: sep') ((c :: sep') ++ rest) cur 0
      = cur.reverse :: strings.Split.aux (c :: sep') rest [] 0 := by
  have hp : (c :: sep').isPrefixOf (c :: (sep' ++ rest)) = true := by
    rw [List.isPrefixOf_iff_prefix]
    exact ⟨rest, rfl⟩
  have h1 : strings.Split.aux (c :: sep') (c :: (sep' ++ rest)) cur 0
      = cur.reverse :: strings.Split.aux (c :: sep') (sep' ++ rest) [] sep'.length := by
    rw [strings.Split.aux, if_pos hp]
    rfl
  rw [List.cons_append, h1, Split_aux_skip]

/-- Scanning up to the first occurrence of the separator: when the separator
does not start anywhere inside `pre`, the first piece ends with `pre`. -/
theorem Split_aux_scan (c : Char) (sep' pre rest cur : List Char)
    (h : ∀ a b, pre = a ++ b → b ≠ [] → ¬ (c :: sep') <+: (b ++ (c :: sep') ++ rest)) :
    strings.Split.aux (c :: sep') (pre ++ (c :: sep') ++ rest) cur 0
      = (cur.reverse ++ pre) :: strings.Split.aux (c :: sep') rest [] 0 := by
  induction pre generalizing cur with
  | nil =>
    rw [List.nil_append, Split_aux_match]
    simp
  | cons x xs ih =>
    have hnp : (c :: sep').isPrefixOf (x :: (xs ++ (c :: sep') ++ rest)) = false := by
      cases hb : (c :: sep').isPrefixOf (x :: (xs ++ (c :: sep') ++ rest)) with
      | false => rfl
      | true =>
        rw [List.isPrefixOf_iff_prefix] at hb
        exact absurd hb (h [] (x :: xs) rfl (by simp))
    have hstep : strings.Split.aux (c :: sep') (x :: (xs ++ (c :: sep') ++ rest)) cur 0
        = strings.Split.aux (c :: sep') (xs ++ (c :: sep') ++ rest) (x :: cur) 0 := by
      rw [strings.Split.aux, hnp]
      rfl
    have hx : (x :: xs) ++ (c :: sep') ++ rest = x :: (xs ++ (c :: sep') ++ rest) := by simp
    rw [hx, hstep, ih (x :: cur) (fun a b hab hb => h (x :: a) b (by rw [hab]; rfl) hb)]
    simp

/-- Without an occurrence of the separator there is one piece. -/
theorem Split_aux_none (sep s cur : List Char) (h : ¬ sep <:+: s) :
    strings.Split.aux sep s cur 0 = [cur.reverse ++ s] := by
  induction s generalizing cur with
  | nil => simp [strings.Split.aux]
  | cons x xs ih =>
    have hnp : sep.isPrefixOf (x :: xs) = false := by
      cases hb : sep.isPrefixOf (x :: xs) with
      | false => rfl
      | true =>
        rw [List.isPrefixOf_iff_prefix] at hb
        exact absurd hb.isInfix h
    have hxs : ¬ sep <:+: xs := fun hi => h (hi.trans (List.suffix_cons x xs).isInfix)
    have hstep : strings.Split.aux sep (x :: xs) cur 0
        = strings.Split.aux sep xs (x :: cur) 0 := by
      rw [strings.Split.aux, hnp]
      rfl
    rw [hstep, ih (x :: cur) hxs]
    simp

theorem infix_singleton_iff (c : Char) (s : List Char) : [c] <:+: s ↔ c ∈ s := by
  constructor
  · rintro ⟨p, q, rfl⟩
    simp
  · intro h
    obtain ⟨p, q, rfl⟩ := List.append_of_mem h
    exact ⟨p, q, by simp⟩

theorem no_match_of_not_mem (c : Char) (pre rest : List Char) (h : c ∉ pre) :
    ∀ a b, pre = a ++ b → b ≠ [] → ¬ [c] <+: (b ++ [c] ++ rest) := by
  intro a b hab hb hp
  cases b with
  | nil => exact hb rfl
  | cons y ys =>
    obtain ⟨t, ht⟩ := hp
    simp only [List.cons_append, List.nil_append, List.singleton_append] at ht
    have hy : c = y := by
      injection ht with h1 _
    apply h
    rw [hab, hy]
    simp

/-- Removing a one-character text everywhere: the characters that differ
from it, in order. -/
theorem join_Split_aux_singleton (c : Char) (s cur : List Char) :
    (strings.Split.aux [c] s cur 0).flatten = cur.reverse ++ s.filter (fun x => x ≠ c) := by
  induction s generalizing cur with
  | nil => simp [strings.Split.aux]
  | cons x xs ih =>
    by_cases hx : x = c
    · subst hx
      have hp : [x].isPrefixOf (x :: xs) = true := by
        rw [List.isPrefixOf_iff_prefix]
        exact ⟨xs, rfl⟩
      have hstep : strings.Split.aux [x] (x :: xs) cur 0
          = cur.reverse :: strings.Split.aux [x] xs [] 0 := by
        rw [strings.Split.aux, if_pos hp]
        rfl
      rw [hstep, List.flatten_cons, ih []]
      simp
    · have hp : [c].isPrefixOf (x :: xs) = false := by
        cases hb : [c].isPrefixOf (x :: xs) with
        | false => rfl
        | true =>
          rw [List.isPrefixOf_iff_prefix] at hb
          obtain ⟨t, ht⟩ := hb
          simp only [List.singleton_append] at ht
          injection ht with h1 _
          exact absurd h1.symm hx
      have hstep : strings.Split.aux [c] (x :: xs) cur 0
          = strings.Split.aux [c] xs (x :: cur) 0 := by
        rw [strings.Split.aux, hp]
        rfl
      rw [hstep, ih (x :: cur)]
      simp [hx]

theorem Replace_singleton_empty (c : Char) (s : List Char) :
    strings.Replace s [c] [] = s.filter (fun x => x ≠ c) := by
  unfold strings.Replace strings.Split
  have h := join_Split_aux_singleton c s []
  simp only [List.reverse_nil, List.nil_append] at h
  rw [← h]
  generalize strings.Split.aux [c] s [] 0 = l
  induction l with
  | nil => rfl
  | cons a as ih =>
    cases as with
    | nil => simp [List.intercalate, List.intersperse]
    | cons b bs =>
      simp only [List.intercalate, List.intersperse, List.flatten_cons] at ih ⊢
      rw [ih]
      simp

theorem Split_first_and_rest (c : Char) (sep' content pre rest : List Char)
    (hc : content = pre ++ (c :: sep') ++ rest)
    (huniq : ∀ p q, content = p ++ (c :: sep') ++ q → p = pre) :
    strings.Split content (c :: sep') = [pre, rest] := by
  have hscan : ∀ a b, pre = a ++ b → b ≠ [] → ¬ (c :: sep') <+: (b ++ (c :: sep') ++ rest) := by
    intro a b hab hb hp
    obtain ⟨q, hq⟩ := hp
    have h1 : content = a ++ (c :: sep') ++ q := by
      rw [hc, hab, List.append_assoc a (c :: sep') q, hq]
      simp
    have h2 := huniq a q h1
    have h3 := congrArg List.length hab
    rw [← h2, List.length_append] at h3
    exact hb (List.length_eq_zero.1 (by omega))
  have hnone : ¬ (c :: sep') <:+: rest := by
    rintro ⟨p, q, hpq⟩
    have h1 : content = (pre ++ (c :: sep') ++ p) ++ (c :: sep') ++ q := by
      rw [hc, ← hpq]
      simp
    have h2 := congrArg List.length (huniq _ q h1)
    simp only [List.length_append, List.length_cons] at h2
    omega
  unfold strings.Split
  rw [hc, Split_aux_scan c sep' pre rest [] hscan, Split_aux_none _ _ _ hnone]
  simp

/-- C30: for a configuration file that contains the text `DOMAIN_NAME` exactly
once (`content` splits around it in one way only), followed on its line by
`mid`, one `=` and the value `v`, where `mid` and `v` hold neither `=` nor a
newline and the line ends with the file or with a newline, `GetDomainName`
returns `v` without its spaces; and `identityConfig`, when the key size is
accepted and key generation succeeds, returns an identity whose `GroupID` is
the standard base64 encoding of that domain name followed by the string that
`GetUuid` returns. -/
theorem GetDomainName_spec (content pre mid v tail : List Char)
    (hc : content = pre ++ "DOMAIN_NAME".toList ++ (mid ++ '=' :: v ++ tail))
    (huniq : ∀ p q, content = p ++ "DOMAIN_NAME".toList ++ q → p = pre)
    (hmid : '=' ∉ mid ∧ '\n' ∉ mid) (hv : '=' ∉ v ∧ '\n' ∉ v)
    (htail : tail = [] ∨ ∃ t, tail = '\n' :: t)
    (nbits : Int) (hn : 1024 ≤ nbits) (skbytes : List Nat) (id : List Char)
    (uuidFile : Option (List Char)) :
    GetDomainName (some content) = some (v.filter (fun x => x ≠ ' ')) ∧
    identityConfig nbits (Except.ok (skbytes, id)) (some content) uuidFile
      = Except.ok
          { PeerID := id,
            PrivKey := base64.EncodeToString skbytes,
            GroupID := base64.EncodeToString
              ((v.filter (fun x => x ≠ ' ') ++ GetUuid uuidFile).map (fun c => c.toNat)) } := by
  have hDN : "DOMAIN_NAME".toList = 'D' :: "OMAIN_NAME".toList := rfl
  have h1 : strings.Split content "DOMAIN_NAME".toList = [pre, mid ++ '=' :: v ++ tail] := by
    rw [hDN] at hc huniq ⊢
    exact Split_first_and_rest 'D' _ content pre _ hc huniq
  have hline : '\n' ∉ mid ++ '=' :: v := by
    intro h
    rcases List.mem_append.1 h with h | h
    · exact hmid.2 h
    · rcases List.mem_cons.1 h with h | h
      · exact absurd h (by decide)
      · exact hv.2 h
  have h2 : (strings.Split (mid ++ '=' :: v ++ tail) "\n".toList).get? 0
      = some (mid ++ '=' :: v) := by
    have hnl : "\n".toList = ['\n'] := rfl
    rw [hnl]
    unfold strings.Split
    rcases htail with ht | ⟨t, ht⟩
    · rw [ht, List.append_nil,
        Split_aux_none _ _ _ (fun hi => hline ((infix_singleton_iff _ _).1 hi))]
      simp
    · have hs : mid ++ '=' :: v ++ tail = (mid ++ '=' :: v) ++ ['\n'] ++ t := by
        rw [ht]; simp
      rw [hs, Split_aux_scan '\n' [] _ t [] (no_match_of_not_mem _ _ _ hline)]
      simp
  have h3 : (strings.Split (mid ++ '=' :: v) "=".toList).get? 1 = some v := by
    have heq : "=".toList = ['='] := rfl
    rw [heq]
    unfold strings.Split
    have hs : mid ++ '=' :: v = mid ++ ['='] ++ v := by simp
    rw [hs, Split_aux_scan '=' [] _ v [] (no_match_of_not_mem _ _ _ hmid.1),
      Split_aux_none _ _ _ (fun hi => hv.1 ((infix_singleton_iff _ _).1 hi))]
    simp
  have h4 : strings.Replace v " ".toList "".toList = v.filter (fun x => x ≠ ' ') :=
    Replace_singleton_empty ' ' v
  have hg : GetDomainName (some content) = some (v.filter (fun x => x ≠ ' ')) := by
    unfold GetDomainName
    simp only [h1, List.get?_cons_succ, List.get?_cons_zero, h2, h3, h4]
  refine ⟨hg, ?_⟩
  unfold identityConfig
  have hnb : ¬ nbits < 1024 := by omega
  simp only [hnb, if_false, hg]

/-- C30 on a three-line file whose second line is `DOMAIN_NAME = a b`. -/
theorem GetDomainName_spec_witness :
    GetDomainName (some "x\nDOMAIN_NAME = a b\ny".toList) = some "ab".toList := by
  have huniq : ∀ p q, "x\nDOMAIN_NAME = a b\ny".toList = p ++ "DOMAIN_NAME".toList ++ q →
      p = "x\n".toList := by
    intro p q h
    have hl := congrArg List.length h
    simp only [List.length_append] at hl
    have h20 : "x\nDOMAIN_NAME = a b\ny".toList.length = 21 := rfl
    have h11 : "DOMAIN_NAME".toList.length = 11 := rfl
    rw [h20, h11] at hl
    have hp : p = ("x\nDOMAIN_NAME = a b\ny".toList).take p.length := by
      rw [h, List.append_assoc, List.take_left']
      rfl
    have hd : ("x\nDOMAIN_NAME = a b\ny".toList).drop p.length
        = "DOMAIN_NAME".toList ++ q := by
      rw [h, List.append_assoc, List.drop_left']
      rfl
    have hhead : (("x\nDOMAIN_NAME = a b\ny".toList).drop p.length).head? = some 'D' := by
      rw [hd]; rfl
    have hcases : p.length = 0 ∨ p.length = 1 ∨ p.length = 2 ∨ p.length = 3 ∨ p.length = 4 ∨
        p.length = 5 ∨ p.length = 6 ∨ p.length = 7 ∨ p.length = 8 ∨ p.length = 9 ∨
        p.length = 10 := by omega
    rcases hcases with h0 | h0 | h0 | h0 | h0 | h0 | h0 | h0 | h0 | h0 | h0 <;>
      rw [h0] at hhead hp <;>
      first
        | exact hp
        | exact absurd hhead (by decide)
  exact (GetDomainName_spec "x\nDOMAIN_NAME = a b\ny".toList "x\n".toList " ".toList
    " a b".toList "\ny".toList rfl huniq ⟨by decide, by decide⟩ ⟨by decide, by decide⟩
    (Or.inr ⟨"y".toList, rfl⟩) 2048 (by decide) [] [] none).1

end config
